import Mathlib

/-!
Verification of the Zebra-puzzle CSP compiler and solver
(`src/csp/model.py`, `src/csp/solver_core.py`, `src/csp/parser.py`,
`src/utils/trace.py`).

The Python code is shallowly embedded:

* Python `str` values become `String` (Python compares strings by code
  points; `pyStrLt` below implements exactly that order, since Lean's
  builtin `String.lt` does not reduce in the kernel).
* A Python `dict` keyed by variable names becomes an association list
  that is kept sorted by key (`dinsert`).  Two Python dicts that are
  `==` have identical lookups, and all predicates in the repository
  observe a dict only through `in`/`[]`, so the sorted representation
  is observationally faithful while making dict equality definitional.
* A Python `set` of strings (a domain) becomes a duplicate-free list.
  Iteration order of a CPython set is unspecified-but-fixed within a
  process; the list order plays that role.  All set operations used by
  the code (`remove` during a snapshot iteration, comprehension copies)
  are order-independent, so the embedding is observationally faithful.
* The process-wide tracer becomes an explicit value: every solver
  function returns the list of events it logs, and `solveT` threads a
  `Tracer` state exactly as the singleton is threaded in the source.
* Raising an exception becomes returning `Except.error`.
-/

/-! ## Python string primitives -/

/-- Python `\s` for the ASCII range: `" \t\n\r\x0b\x0c"`. -/
def pyIsSpace (c : Char) : Bool :=
  c = ' ' || c = '\t' || c = '\n' || c = '\r' || c = '\x0b' || c = '\x0c'

/-- Code-point comparison of character lists, the order Python uses for
`str < str` and `sorted`. -/
def pyCharsLt : List Char → List Char → Bool
  | [], [] => false
  | [], _ :: _ => true
  | _ :: _, [] => false
  | a :: as, b :: bs => if a.val < b.val then true else if b.val < a.val then false else pyCharsLt as bs

/-- Python string `<`. -/
def pyStrLt (a b : String) : Bool := pyCharsLt a.toList b.toList

/-- Python `str.lower()` (ASCII-faithful). -/
def lowerStr (s : String) : String := String.mk (s.toList.map Char.toLower)

/-- Strip the given characters from both ends (Python `str.strip(chars)`). -/
def stripChars (cs : List Char) (s : String) : String :=
  String.mk (((s.toList.dropWhile (· ∈ cs)).reverse.dropWhile (· ∈ cs)).reverse)

/-- Python `str.strip()` (no argument: strip whitespace). -/
def pyStrip (s : String) : String :=
  String.mk (((s.toList.dropWhile pyIsSpace).reverse.dropWhile pyIsSpace).reverse)

/-- Python `str.startswith(pre)`. -/
def startsWithStr (s pre : String) : Bool := pre.toList.isPrefixOf s.toList

/-- Python `str.partition(sep)` for a one-character separator: `none` when
the separator does not occur, otherwise the parts before and after its
first occurrence. -/
def partitionChar (c : Char) : List Char → Option (List Char × List Char)
  | [] => none
  | x :: xs =>
    if x = c then some ([], xs)
    else (partitionChar c xs).map (fun p => (x :: p.1, p.2))

/-- Python `str.split(sep)` for a one-character separator. -/
def splitOnChar (c : Char) : List Char → List (List Char)
  | [] => [[]]
  | x :: xs =>
    if x = c then [] :: splitOnChar c xs
    else
      match splitOnChar c xs with
      | [] => [[x]]
      | y :: ys => (x :: y) :: ys

/-! ## Assignments: the canonical model of a Python `dict[str, str]`

An assignment is an association list sorted strictly by `pyStrLt`;
`dinsert` is `d[k] = v`.  `List.lookup` is `d.get(k)` / `k in d`. -/

abbrev Assignment := List (String × String)

/-- Insert (or overwrite) a binding, keeping the list sorted by key. -/
def dinsert (k v : String) : Assignment → Assignment
  | [] => [(k, v)]
  | (k', v') :: rest =>
    if k = k' then (k, v) :: rest
    else if pyStrLt k k' then (k, v) :: (k', v') :: rest
    else (k', v') :: dinsert k v rest

theorem pylookup_cons {β : Type} (x k : String) (v : β) (rest : List (String × β)) :
    List.lookup x ((k, v) :: rest) = if x = k then some v else List.lookup x rest := by
  by_cases h : x = k
  · subst h; simp [List.lookup]
  · rw [List.lookup, if_neg h, beq_eq_false_iff_ne.mpr h]

theorem lookup_dinsert_self (k v : String) (a : Assignment) :
    List.lookup k (dinsert k v a) = some v := by
  induction a with
  | nil => simp [dinsert, pylookup_cons]
  | cons p rest ih =>
    obtain ⟨k', v'⟩ := p
    by_cases h : k = k'
    · simp [dinsert, h, pylookup_cons]
    · by_cases hlt : pyStrLt k k'
      · simp [dinsert, h, hlt, pylookup_cons]
      · simp [dinsert, h, hlt, pylookup_cons, ih]

theorem lookup_dinsert_ne (k v x : String) (a : Assignment) (h : x ≠ k) :
    List.lookup x (dinsert k v a) = List.lookup x a := by
  induction a with
  | nil => simp [dinsert, pylookup_cons, h]
  | cons p rest ih =>
    obtain ⟨k', v'⟩ := p
    by_cases he : k = k'
    · subst he
      simp [dinsert, pylookup_cons, h]
    · by_cases hlt : pyStrLt k k'
      · simp [dinsert, he, hlt, pylookup_cons, h]
      · by_cases hx : x = k'
        · simp [dinsert, he, hlt, pylookup_cons, hx]
        · simp [dinsert, he, hlt, pylookup_cons, hx, ih]

/-! ## `src/csp/model.py` -/

structure Variable where
  name : String
  domain : List String

/-- The scope stored on a constraint; `none` and `some []` are both
"falsy" in the Python sources. -/
def scopeList (scope : Option (List String)) : List String := scope.getD []

/-- `Constraint._infer_scope_from_description`: on an `alldiff` description,
take the text after the first `:`, split it on commas, strip the pieces and
keep the non-empty ones (`parsed or None`). -/
def infer_scope_from_description (description : String) : Option (List String) :=
  if startsWithStr (lowerStr description) "alldiff" then
    match partitionChar ':' description.toList with
    | none => none
    | some (_, raw_vars) =>
      if raw_vars = [] then none
      else
        let parsed := ((splitOnChar ',' raw_vars).map (fun p => pyStrip (String.mk p))).filter (· ≠ "")
        if parsed = [] then none else some parsed
  else none

structure Constraint where
  description : String
  scope : Option (List String)
  predicate : Option (Assignment → Bool)

/-- The dataclass constructor including `__post_init__`'s scope inference. -/
def Constraint.make (description : String) (scope : Option (List String))
    (predicate : Option (Assignment → Bool)) : Constraint :=
  { description := description
    scope := match scope with
      | some s => some s
      | none => infer_scope_from_description description
    predicate := predicate }

/-- The duplicate scan in the AllDiff fallback of `Constraint.is_satisfied`:
walk the scope, remember the values of bound variables, fail on a repeat. -/
def dupScan (a : Assignment) : List String → List String → Bool
  | [], _ => true
  | var :: rest, seen =>
    match List.lookup var a with
    | some value => if value ∈ seen then false else dupScan a rest (value :: seen)
    | none => dupScan a rest seen

/-- `Constraint.is_satisfied`. -/
def Constraint.is_satisfied (c : Constraint) (a : Assignment) : Bool :=
  match c.predicate with
  | some p => p a
  | none =>
    if startsWithStr (lowerStr c.description) "alldiff" then
      dupScan a (scopeList c.scope) []
    else
      true

/-- `Constraint.all_diff`. -/
def Constraint.all_diff (vars : List String) : Constraint :=
  { description := "AllDiff: " ++ String.intercalate ", " vars
    scope := some vars
    predicate := some (fun a =>
      let values := vars.filterMap (fun var => List.lookup var a)
      values.length = values.dedup.length) }

/-- `Constraint.equals`. -/
def Constraint.equals (var value : String) : Constraint :=
  { description := var ++ " == " ++ value
    scope := some [var]
    predicate := some (fun a =>
      match List.lookup var a with
      | none => true
      | some x => x = value) }

structure CSP where
  vars : List Variable
  constraints : List Constraint

/-- `CSP.variable_names` (computed in `__post_init__`). -/
def CSP.variable_names (csp : CSP) : List String := csp.vars.map Variable.name

/-- The constructor's validation step: constructing a `CSP` with duplicate
variable names raises `ValueError("Variable names must be unique")` (the
configuration-error kind of the design document). -/
def CSP.make (vars : List Variable) (constraints : List Constraint) :
    Except String CSP :=
  let variable_names := vars.map Variable.name
  if variable_names.dedup.length ≠ variable_names.length then
    .error "Variable names must be unique"
  else
    .ok ⟨vars, constraints⟩

/-- A domain map: one entry per variable, holding a duplicate-free list
(the embedding of a Python `set`). -/
abbrev Domains := List (String × List String)

/-- `domains[var]`; a missing key (impossible in reachable states) reads
as the empty domain. -/
def lookupD (d : Domains) (k : String) : List String :=
  (List.lookup k d).getD []

/-- Write `domains[k] = vs` (the key is present in all reachable states;
like a dict write, only the entry `List.lookup` sees is replaced). -/
def updateD : Domains → String → List String → Domains
  | [], _, _ => []
  | p :: rest, k, vs => if p.1 = k then (p.1, vs) :: rest else p :: updateD rest k vs

/-- `CSP.domains`, the canonical domain map built in `__post_init__`:
`{var.name: set(var.domain) for var in variables}`. -/
def CSP.domains (csp : CSP) : Domains :=
  csp.vars.map (fun v => (v.name, v.domain.dedup))

/-- `CSP.constraints_for` (via the `constraints_by_var` index, which maps
each existing variable to the constraints whose truthy scope mentions it). -/
def CSP.constraints_for (csp : CSP) (var : String) : List Constraint :=
  if var ∈ csp.variable_names then
    csp.constraints.filter (fun c =>
      !(scopeList c.scope).isEmpty && (scopeList c.scope).contains var)
  else []

/-- `CSP.neighbors` for one variable: the other existing variables sharing
a truthy constraint scope with it (a Python set; order is the embedding's
canonical order). -/
def CSP.neighbors (csp : CSP) (var : String) : List String :=
  if var ∈ csp.variable_names then
    ((csp.constraints.filter (fun c =>
        !(scopeList c.scope).isEmpty && (scopeList c.scope).contains var)).flatMap
      (fun c => (scopeList c.scope).filter (fun v =>
        v ≠ var && csp.variable_names.contains v))).dedup
  else []

/-- `CSP.constraints_between`. -/
def CSP.constraints_between (csp : CSP) (var_a var_b : String) : List Constraint :=
  csp.constraints.filter (fun c =>
    !(scopeList c.scope).isEmpty && (scopeList c.scope).contains var_a
      && (scopeList c.scope).contains var_b)

/-- `CSP.is_consistent`. -/
def CSP.is_consistent (csp : CSP) (a : Assignment) : Bool :=
  csp.constraints.all (fun c => c.is_satisfied a)

/-- `CSP.copy_domains`: value copy of a domain map (fresh dict and fresh
sets with the same contents). -/
def CSP.copy_domains (csp : CSP) (domains : Option Domains) : Domains :=
  let source := match domains with
    | some d => d
    | none => csp.domains
  source.map (fun p => (p.1, p.2))

/-! ## Claim C3: duplicate variable names fail CSP construction -/

theorem dedup_length_eq_iff (l : List String) : l.dedup.length = l.length ↔ l.Nodup := by
  constructor
  · intro h
    have hsub : l.dedup.Sublist l := List.dedup_sublist l
    have : l.dedup = l := hsub.eq_of_length h
    rw [← this]
    exact List.nodup_dedup l
  · intro h
    rw [List.dedup_eq_self.mpr h]

/-- C3.  Building a `CSP` from a variable list with two equal names raises
the configuration error (`ValueError("Variable names must be unique")`,
surfaced to the caller), and building one from all-distinct names succeeds
and raises nothing. -/
theorem claim_C3_duplicate_names (vars : List Variable) (constraints : List Constraint) :
    (¬ (vars.map Variable.name).Nodup →
        CSP.make vars constraints = Except.error "Variable names must be unique") ∧
    ((vars.map Variable.name).Nodup →
        CSP.make vars constraints = Except.ok ⟨vars, constraints⟩) := by
  constructor
  · intro h
    have hne : (vars.map Variable.name).dedup.length ≠ (vars.map Variable.name).length := by
      intro he
      exact h ((dedup_length_eq_iff _).mp he)
    simp only [CSP.make]
    rw [if_pos hne]
  · intro h
    have heq : (vars.map Variable.name).dedup.length = (vars.map Variable.name).length :=
      (dedup_length_eq_iff _).mpr h
    simp only [CSP.make]
    rw [if_neg (by simp [heq])]

theorem claim_C3_duplicate_names_witness :
    CSP.make [⟨"A", ["1"]⟩, ⟨"A", ["2"]⟩] [] = Except.error "Variable names must be unique" ∧
    CSP.make [⟨"A", ["1"]⟩, ⟨"B", ["2"]⟩] [] = Except.ok ⟨[⟨"A", ["1"]⟩, ⟨"B", ["2"]⟩], []⟩ :=
  ⟨(claim_C3_duplicate_names [⟨"A", ["1"]⟩, ⟨"A", ["2"]⟩] []).1 (by decide),
   (claim_C3_duplicate_names [⟨"A", ["1"]⟩, ⟨"B", ["2"]⟩] []).2 (by decide)⟩

/-! ## Claim C10: the predicate-free fallback constraint -/

/-- Specification of the duplicate scan: it reports `false` exactly when
some bound scope entry repeats a value seen earlier (either in `seen` or
at an earlier scope position). -/
theorem dupScan_false_iff (a : Assignment) (l : List String) (seen : List String) :
    dupScan a l seen = false ↔
      ∃ (j : Nat) (vj x : String), l[j]? = some vj ∧ List.lookup vj a = some x ∧
        (x ∈ seen ∨ ∃ (i : Nat) (vi : String), i < j ∧ l[i]? = some vi ∧
          List.lookup vi a = some x) := by
  induction l generalizing seen with
  | nil => simp [dupScan]
  | cons v rest ih =>
    cases hv : List.lookup v a with
    | none =>
      rw [dupScan, hv, ih]
      constructor
      · rintro ⟨j, vj, x, hj, hx, hcase⟩
        refine ⟨j + 1, vj, x, by simpa using hj, hx, ?_⟩
        rcases hcase with hseen | ⟨i, vi, hij, hi, hxi⟩
        · exact Or.inl hseen
        · exact Or.inr ⟨i + 1, vi, by omega, by simpa using hi, hxi⟩
      · rintro ⟨j, vj, x, hj, hx, hcase⟩
        cases j with
        | zero =>
          simp at hj
          subst hj
          rw [hv] at hx
          exact absurd hx (by simp)
        | succ j' =>
          refine ⟨j', vj, x, by simpa using hj, hx, ?_⟩
          rcases hcase with hseen | ⟨i, vi, hij, hi, hxi⟩
          · exact Or.inl hseen
          · cases i with
            | zero =>
              simp at hi
              subst hi
              rw [hv] at hxi
              exact absurd hxi (by simp)
            | succ i' =>
              exact Or.inr ⟨i', vi, by omega, by simpa using hi, hxi⟩
    | some value =>
      by_cases hseen : value ∈ seen
      · rw [dupScan, hv]
        simp only [hseen, if_true]
        constructor
        · intro _
          exact ⟨0, v, value, by simp, hv, Or.inl hseen⟩
        · intro _
          trivial
      · rw [dupScan, hv]
        simp only [hseen, if_false]
        rw [ih]
        constructor
        · rintro ⟨j, vj, x, hj, hx, hcase⟩
          rcases hcase with hs | ⟨i, vi, hij, hi, hxi⟩
          · rcases List.mem_cons.mp hs with hxv | hs'
            · subst hxv
              exact ⟨j + 1, vj, x, by simpa using hj, hx,
                Or.inr ⟨0, v, by omega, by simp, hv⟩⟩
            · exact ⟨j + 1, vj, x, by simpa using hj, hx, Or.inl hs'⟩
          · exact ⟨j + 1, vj, x, by simpa using hj, hx,
              Or.inr ⟨i + 1, vi, by omega, by simpa using hi, hxi⟩⟩
        · rintro ⟨j, vj, x, hj, hx, hcase⟩
          cases j with
          | zero =>
            simp at hj
            subst hj
            rw [hv] at hx
            injection hx with hx
            subst hx
            rcases hcase with hs | ⟨i, vi, hij, _, _⟩
            · exact absurd hs hseen
            · omega
          | succ j' =>
            refine ⟨j', vj, x, by simpa using hj, hx, ?_⟩
            rcases hcase with hs | ⟨i, vi, hij, hi, hxi⟩
            · exact Or.inl (List.mem_cons_of_mem _ hs)
            · cases i with
              | zero =>
                simp at hi
                subst hi
                rw [hv] at hxi
                injection hxi with hxi
                exact Or.inl (by simp [hxi])
              | succ i' =>
                exact Or.inr ⟨i', vi, by omega, by simpa using hi, hxi⟩

/-- C10.  A `Constraint` built with `predicate=None` (as the clue-compiler
fallback does) is satisfied by every assignment unless its description
starts, case-insensitively, with `alldiff`; in that case its scope is the
one inferred from the text after `:` in the description, and
`is_satisfied` is `false` exactly when two scope positions are bound to
equal values. -/
theorem claim_C10_nonbinding_fallback (description : String) (a : Assignment) :
    (¬ startsWithStr (lowerStr description) "alldiff" = true →
      (Constraint.make description none none).is_satisfied a = true) ∧
    (startsWithStr (lowerStr description) "alldiff" = true →
      (Constraint.make description none none).scope = infer_scope_from_description description ∧
      ((Constraint.make description none none).is_satisfied a = false ↔
        ∃ (j : Nat) (vj x : String),
          (scopeList (infer_scope_from_description description))[j]? = some vj ∧
          List.lookup vj a = some x ∧
          ∃ (i : Nat) (vi : String), i < j ∧
            (scopeList (infer_scope_from_description description))[i]? = some vi ∧
            List.lookup vi a = some x)) := by
  constructor
  · intro h
    simp [Constraint.make, Constraint.is_satisfied, h]
  · intro h
    refine ⟨rfl, ?_⟩
    rw [show (Constraint.make description none none).is_satisfied a =
        dupScan a (scopeList (infer_scope_from_description description)) [] by
      simp [Constraint.make, Constraint.is_satisfied, h]]
    rw [dupScan_false_iff]
    simp only [List.not_mem_nil, false_or]

theorem claim_C10_nonbinding_fallback_witness :
    (Constraint.make "Zorblax hums quietly" none none).is_satisfied
        [("A", "x"), ("B", "x")] = true ∧
    (Constraint.make "AllDiff: A, B" none none).is_satisfied
        [("A", "x"), ("B", "x")] = false :=
  ⟨(claim_C10_nonbinding_fallback "Zorblax hums quietly" [("A", "x"), ("B", "x")]).1
      (by decide),
   ((claim_C10_nonbinding_fallback "AllDiff: A, B" [("A", "x"), ("B", "x")]).2
      (by decide)).2.mpr ⟨1, "B", "x", by decide, by decide, 0, "A", by decide, by decide, by decide⟩⟩

/-! ## `src/csp/parser.py`: the immediately-left positional constraint -/

/-- The variable name `House_<i>_<Category>`. -/
def houseVar (i : Nat) (cat : String) : String := "House_" ++ toString i ++ "_" ++ cat

/-- `_find_positions_in_assignment`. -/
def find_positions_in_assignment (a : Assignment) (category target_value : String)
    (num_houses : Nat) : Option Nat :=
  (List.range' 1 num_houses).find?
    (fun i => List.lookup (houseVar i category) a == some target_value)

/-- `_immediately_left_of_color`. -/
def immediately_left_of_color (left_color right_color : String) (num_houses : Nat)
    (desc : String) : Constraint :=
  { description := desc
    scope := some ((List.range' 1 num_houses).map (fun i => houseVar i "Color"))
    predicate := some (fun a =>
      if List.lookup (houseVar num_houses "Color") a == some left_color then false
      else if List.lookup "House_1_Color" a == some right_color then false
      else if (List.range' 1 (num_houses - 1)).any (fun i =>
          (match List.lookup (houseVar i "Color") a, List.lookup (houseVar (i + 1) "Color") a with
           | some x, some y => x == left_color && y != right_color
           | _, _ => false) ||
          (match List.lookup (houseVar i "Color") a, List.lookup (houseVar (i + 1) "Color") a with
           | some x, some y => y == right_color && x != left_color
           | _, _ => false)) then false
      else
        match find_positions_in_assignment a "Color" left_color num_houses,
              find_positions_in_assignment a "Color" right_color num_houses with
        | some pos_left, some pos_right => pos_right == pos_left + 1
        | _, _ => true) }

theorem find?_eq_some_of_unique {α : Type} {p : α → Bool} {l : List α} {x : α}
    (hx : x ∈ l) (h : ∀ y ∈ l, (p y = true ↔ y = x)) : l.find? p = some x := by
  induction l with
  | nil => cases hx
  | cons y rest ih =>
    by_cases hyx : y = x
    · subst hyx
      rw [List.find?_cons_of_pos _ ((h y (by simp)).mpr rfl)]
    · have hpy : p y = false := by
        cases hp : p y with
        | true => exact absurd ((h y (by simp)).mp hp) hyx
        | false => rfl
      rw [List.find?_cons_of_neg _ (by simp [hpy])]
      have hx' : x ∈ rest := by
        rcases List.mem_cons.mp hx with h1 | h1
        · exact absurd h1.symm hyx
        · exact h1
      exact ih hx' (fun y hy => h y (List.mem_cons_of_mem _ hy))

/-- C6. The immediately-left constraint is violated by any partial
assignment that puts the left color in the last house or the right color
in the first house (even with the other referent unbound); and whenever
the assignment places each color at exactly one house index, the
constraint holds iff the right color's house is the successor of the
left color's house. -/
theorem claim_C6_immediately_left (V1 V2 : String) (H : Nat) (desc : String) (a : Assignment) :
    ((List.lookup (houseVar H "Color") a = some V1 ∨
        List.lookup "House_1_Color" a = some V2) →
      (immediately_left_of_color V1 V2 H desc).is_satisfied a = false) ∧
    (∀ i1 i2 : Nat, i1 ∈ List.range' 1 H → i2 ∈ List.range' 1 H →
      (∀ j ∈ List.range' 1 H, (List.lookup (houseVar j "Color") a = some V1 ↔ j = i1)) →
      (∀ j ∈ List.range' 1 H, (List.lookup (houseVar j "Color") a = some V2 ↔ j = i2)) →
      ((immediately_left_of_color V1 V2 H desc).is_satisfied a = true ↔ i2 = i1 + 1)) := by
  constructor
  · rintro (hlast | hfirst)
    · simp [immediately_left_of_color, Constraint.is_satisfied, hlast]
    · by_cases hlast : List.lookup (houseVar H "Color") a = some V1
      · simp [immediately_left_of_color, Constraint.is_satisfied, hlast]
      · simp only [immediately_left_of_color, Constraint.is_satisfied]
        rw [if_neg (by simp [hlast]), if_pos (by simp [hfirst])]
  · intro i1 i2 hi1 hi2 huniq1 huniq2
    have hH1 : 1 ≤ H := by
      have := List.mem_range'_1.mp hi1
      omega
    have hi1le : i1 ≤ H := by
      have := List.mem_range'_1.mp hi1
      omega
    have hi2le : i2 ≤ H := by
      have := List.mem_range'_1.mp hi2
      omega
    have hi1ge : 1 ≤ i1 := by
      have := List.mem_range'_1.mp hi1
      omega
    have hi2ge : 1 ≤ i2 := by
      have := List.mem_range'_1.mp hi2
      omega
    have hfind1 : find_positions_in_assignment a "Color" V1 H = some i1 :=
      find?_eq_some_of_unique hi1 (fun j hj => by
        rw [beq_iff_eq]
        exact huniq1 j hj)
    have hfind2 : find_positions_in_assignment a "Color" V2 H = some i2 :=
      find?_eq_some_of_unique hi2 (fun j hj => by
        rw [beq_iff_eq]
        exact huniq2 j hj)
    constructor
    · intro hsat
      simp only [immediately_left_of_color, Constraint.is_satisfied, hfind1, hfind2] at hsat
      split at hsat
      · cases hsat
      · split at hsat
        · cases hsat
        · split at hsat
          · cases hsat
          · simpa using hsat
    · intro hsucc
      have hc1 : ¬ (List.lookup (houseVar H "Color") a == some V1) = true := by
        rw [beq_iff_eq]
        intro hlk
        have : H = i1 := (huniq1 H (List.mem_range'_1.mpr ⟨hH1, by omega⟩)).mp hlk
        omega
      have h1house : ("House_1_Color" : String) = houseVar 1 "Color" := by decide
      have hc2 : ¬ (List.lookup "House_1_Color" a == some V2) = true := by
        rw [beq_iff_eq, h1house]
        intro hlk
        have : 1 = i2 := (huniq2 1 (List.mem_range'_1.mpr ⟨le_refl 1, by omega⟩)).mp hlk
        omega
      have hc3 : ∀ i ∈ List.range' 1 (H - 1),
          ((match List.lookup (houseVar i "Color") a, List.lookup (houseVar (i + 1) "Color") a with
            | some x, some y => x == V1 && y != V2
            | _, _ => false) ||
           (match List.lookup (houseVar i "Color") a, List.lookup (houseVar (i + 1) "Color") a with
            | some x, some y => y == V2 && x != V1
            | _, _ => false)) = false := by
        intro i hi
        have hibounds := List.mem_range'_1.mp hi
        have hiH : i ∈ List.range' 1 H := List.mem_range'_1.mpr ⟨hibounds.1, by omega⟩
        have hi1H : i + 1 ∈ List.range' 1 H := List.mem_range'_1.mpr ⟨by omega, by omega⟩
        cases hlki : List.lookup (houseVar i "Color") a with
        | none => rfl
        | some x =>
          cases hlkj : List.lookup (houseVar (i + 1) "Color") a with
          | none => rfl
          | some y =>
            simp only [Bool.or_eq_false_iff, Bool.and_eq_false_iff]
            constructor
            · by_cases hx : x = V1
              · subst hx
                have hii : i = i1 := (huniq1 i hiH).mp hlki
                have hlk2 : List.lookup (houseVar (i + 1) "Color") a = some V2 :=
                  (huniq2 (i + 1) hi1H).mpr (by omega)
                rw [hlkj] at hlk2
                injection hlk2 with hy
                right
                simp [hy]
              · left
                simp [hx]
            · by_cases hy : y = V2
              · subst hy
                have : i + 1 = i2 := (huniq2 (i + 1) hi1H).mp hlkj
                have hii1 : i = i1 := by omega
                have hx : x = V1 := by
                  have hlk1 : List.lookup (houseVar i "Color") a = some V1 :=
                    (huniq1 i hiH).mpr hii1
                  rw [hlki] at hlk1
                  injection hlk1
                right
                simp [hx]
              · left
                simp [hy]
      simp only [immediately_left_of_color, Constraint.is_satisfied]
      rw [if_neg hc1, if_neg hc2, if_neg (by
        rw [List.any_eq_true]
        rintro ⟨i, hi, hcond⟩
        rw [hc3 i hi] at hcond
        cases hcond)]
      rw [hfind1, hfind2]
      simp [hsucc]

theorem claim_C6_immediately_left_witness :
    (immediately_left_of_color "red" "blue" 3 "d").is_satisfied
        [("House_3_Color", "red")] = false ∧
    (immediately_left_of_color "red" "blue" 3 "d").is_satisfied
        [("House_1_Color", "red"), ("House_2_Color", "blue")] = true :=
  ⟨(claim_C6_immediately_left "red" "blue" 3 "d" [("House_3_Color", "red")]).1
      (Or.inl (by decide)),
   ((claim_C6_immediately_left "red" "blue" 3 "d"
        [("House_1_Color", "red"), ("House_2_Color", "blue")]).2 1 2 (by decide) (by decide)
      (by decide) (by decide)).mpr (by decide)⟩

/-! ## `src/utils/trace.py`

A trace event carries the fields the solver writes (the wall-clock
timestamp and the monotone step counter are bookkeeping derived from the
position in the list, not logged data).  The Python field `variable` is
a reserved word in Lean and becomes `variable_name`. -/

structure Event where
  action_type : String
  variable_name : Option String
  value : Option String
  domain_size : Option Nat
  assignment_size : Option Nat
  reason : Option String
deriving DecidableEq

/-- `Tracer.log_assign` (the event list it appends). -/
def logAssign (enabled : Bool) (var value : String) (domain_size assignment_size : Nat) :
    List Event :=
  if enabled then [⟨"assign", some var, some value, some domain_size, some assignment_size, none⟩]
  else []

/-- `Tracer.log_backtrack` with its default reason. -/
def logBacktrack (enabled : Bool) (var : String) : List Event :=
  if enabled then [⟨"backtrack", some var, none, none, none, some "No valid values"⟩] else []

/-- `Tracer.log_ac3_run`. -/
def logAc3Run (enabled : Bool) (variables_affected arcs_processed : Nat) : List Event :=
  if enabled then
    [⟨"ac3", none, none, none, none,
      some ("Affected " ++ toString variables_affected ++ " vars, processed "
        ++ toString arcs_processed ++ " arcs")⟩]
  else []

/-- `Tracer.log_forward_check`. -/
def logForwardCheck (enabled : Bool) (var : String) (domains_pruned : Nat) : List Event :=
  if enabled then
    [⟨"forward_check", some var, none, none, none,
      some ("Pruned " ++ toString domains_pruned ++ " values from other domains")⟩]
  else []

/-- `Tracer.log_solution_found`. -/
def logSolutionFound (enabled : Bool) (assignment_size : Nat) : List Event :=
  if enabled then [⟨"solution_found", none, none, none, some assignment_size, none⟩] else []

/-- The process-wide tracer state: the enable flag and the accumulated steps. -/
structure Tracer where
  enabled : Bool
  steps : List Event

/-! ## `src/csp/solver_core.py` -/

/-- The per-variable loop of `_enforce_unary_constraints`: prune each
domain by the unary constraints on its variable, failing when a domain
with unary constraints empties. -/
def unaryConstraintsFor (csp : CSP) (var : String) : List Constraint :=
  (csp.constraints_for var).filter
    (fun c => !(scopeList c.scope).isEmpty && (scopeList c.scope).length == 1)

def enforceUnaryLoop (csp : CSP) (assignment : Assignment) :
    List String → Domains → Option Domains
  | [], domains => some domains
  | var :: rest, domains =>
    if (unaryConstraintsFor csp var).isEmpty then enforceUnaryLoop csp assignment rest domains
    else
      let kept := (lookupD domains var).filter (fun value =>
        (unaryConstraintsFor csp var).all (fun c => c.is_satisfied (dinsert var value assignment)))
      if kept = [] then none
      else enforceUnaryLoop csp assignment rest (updateD domains var kept)

/-- `_enforce_unary_constraints` (the Python version mutates `domains`
and returns a flag; here the pruned map is returned, `none` on failure —
every caller abandons the mutated map on failure). -/
def enforce_unary_constraints (csp : CSP) (domains : Domains) (assignment : Assignment) :
    Option Domains :=
  enforceUnaryLoop csp assignment csp.variable_names domains

/-- `_has_support` (the unused `csp` parameter of the source is dropped). -/
def has_support (xi value xj : String) (domains : Domains) (assignment : Assignment)
    (constraints : List Constraint) : Bool :=
  (lookupD domains xj).any (fun neighbor_value =>
    constraints.all (fun c =>
      c.is_satisfied (dinsert xj neighbor_value (dinsert xi value assignment))))

/-- `_revise`: remove the values of `xi` without support in `xj`;
returns the Python `revised` flag and the updated map.  (The source
removes from `domains[xi]` while testing support against `domains[xj]`;
at every call site `xi ≠ xj`, so the batch filter is the same mutation.) -/
def revise (csp : CSP) (xi xj : String) (domains : Domains) (assignment : Assignment) :
    Bool × Domains :=
  let related_constraints := csp.constraints_between xi xj
  if related_constraints.isEmpty then (false, domains)
  else
    let kept := (lookupD domains xi).filter
      (fun value => has_support xi value xj domains assignment related_constraints)
    if kept.length = (lookupD domains xi).length then (false, domains)
    else (true, updateD domains xi kept)

/-- Total number of directed arcs `(v, n)`, `n ∈ neighbors(v)`: a static
bound on how many arcs one domain-value removal can enqueue. -/
def arcBound (csp : CSP) : Nat :=
  (csp.variable_names.map (fun v => (csp.neighbors v).length)).sum

/-- Total size of all domains. -/
def totalDomSize (domains : Domains) : Nat := (domains.map (fun p => p.2.length)).sum

/-- The `while queue:` loop of `_ac3`, with explicit fuel.  Every
iteration either removes at least one domain value (enqueueing at most
`arcBound csp` arcs) or shortens the queue, so
`totalDomSize domains * (arcBound csp + 1) + queue.length + 1` strictly
exceeds the number of iterations and the fuel-0 branch is unreachable
from `ac3`.  Carries `arcs_processed` and `variables_affected`. -/
def ac3Loop (csp : CSP) (assignment : Assignment) :
    Nat → List (String × String) → Domains → Nat → Nat → Option (Domains × Nat × Nat)
  | 0, _, _, _, _ => none
  | _ + 1, [], domains, arcs_processed, variables_affected =>
    some (domains, arcs_processed, variables_affected)
  | fuel + 1, (xi, xj) :: queue, domains, arcs_processed, variables_affected =>
    let r := revise csp xi xj domains assignment
    if r.1 then
      if lookupD r.2 xi = [] then none
      else
        ac3Loop csp assignment fuel
          (queue ++ ((csp.neighbors xi).filter (fun xk => xk ≠ xj)).map (fun xk => (xk, xi)))
          r.2 (arcs_processed + 1) (variables_affected + 1)
    else ac3Loop csp assignment fuel queue r.2 (arcs_processed + 1) variables_affected

/-- `_ac3`: unary propagation, then the work list seeded with every arc,
then one `ac3` event when any arc was processed (the failure paths
return before the log call). -/
def ac3 (csp : CSP) (domains : Domains) (assignment : Assignment) (enabled : Bool) :
    Option Domains × List Event :=
  match enforce_unary_constraints csp domains assignment with
  | none => (none, [])
  | some domains1 =>
    let queue := csp.variable_names.flatMap (fun v => (csp.neighbors v).map (fun n => (v, n)))
    match ac3Loop csp assignment
        (totalDomSize domains1 * (arcBound csp + 1) + queue.length + 1) queue domains1 0 0 with
    | none => (none, [])
    | some (domains2, arcs_processed, variables_affected) =>
      (some domains2,
        if arcs_processed ≠ 0 then logAc3Run enabled variables_affected arcs_processed else [])

/-- The neighbor loop of `_forward_check`: prune each neighbor's domain
against the shared binary constraints under the just-made assignment,
failing when a neighbor domain empties; counts pruned values. -/
def fcKept (csp : CSP) (var : String) (assignment : Assignment) (neighbor : String)
    (domains : Domains) : List String :=
  (lookupD domains neighbor).filter (fun neighbor_value =>
    (csp.constraints_between var neighbor).all (fun c => c.is_satisfied
      (dinsert var ((List.lookup var assignment).getD "")
        (dinsert neighbor neighbor_value assignment))))

def forwardCheckLoop (csp : CSP) (var : String) (assignment : Assignment) :
    List String → Domains → Nat → Option (Domains × Nat)
  | [], domains, pruned => some (domains, pruned)
  | neighbor :: rest, domains, pruned =>
    if (csp.constraints_between var neighbor).isEmpty then
      forwardCheckLoop csp var assignment rest domains pruned
    else
      let kept := fcKept csp var assignment neighbor domains
      let pruned' := pruned + ((lookupD domains neighbor).length - kept.length)
      if kept = [] then none
      else forwardCheckLoop csp var assignment rest (updateD domains neighbor kept) pruned'

/-- `_forward_check`. -/
def forward_check (csp : CSP) (var : String) (assignment : Assignment)
    (domains : Domains) (enabled : Bool) : Option Domains × List Event :=
  match enforce_unary_constraints csp domains assignment with
  | none => (none, [])
  | some domains1 =>
    match forwardCheckLoop csp var assignment (csp.neighbors var) domains1 0 with
    | none => (none, [])
    | some (domains2, pruned) =>
      (some domains2, if pruned ≠ 0 then logForwardCheck enabled var pruned else [])

/-- The MRV key order: Python tuple comparison of `(len(domains[v]), v)`. -/
def mrvKeyLt (domains : Domains) (v w : String) : Bool :=
  let lv := (lookupD domains v).length
  let lw := (lookupD domains w).length
  if lv < lw then true else if lv = lw then pyStrLt v w else false

/-- `_select_unassigned_variable` (`min` keeps the first minimum). -/
def select_unassigned_variable (csp : CSP) (assignment : Assignment) (domains : Domains) :
    Option String :=
  match csp.variable_names.filter (fun v => (List.lookup v assignment).isNone) with
  | [] => none
  | u :: us => some (us.foldl (fun best v => if mrvKeyLt domains v best then v else best) u)

/-- Insertion step of the stable sort below. -/
def insertSorted (x : String) : List String → List String
  | [] => [x]
  | y :: ys => if pyStrLt x y then x :: y :: ys else y :: insertSorted x ys

/-- Python `sorted` (stable) restricted to strings. -/
def sortStrings (l : List String) : List String := l.foldr insertSorted []

/-- `_order_domain_values`: `sorted(domains[variable], key=str)`; on
strings, `str` is the identity key. -/
def order_domain_values (var : String) (domains : Domains) : List String :=
  sortStrings (lookupD domains var)

/-- `_is_value_consistent`. -/
def is_value_consistent (csp : CSP) (var value : String) (assignment : Assignment) : Bool :=
  (csp.constraints_for var).all (fun c => c.is_satisfied (dinsert var value assignment))

/-- The `for value in _order_domain_values(...)` loop of `_backtrack`:
try each candidate, forward-check, re-run AC-3 and recurse (`recur` is
the one-level-deeper `_backtrack`); `continue` keeps already-logged
events and moves to the next value. -/
def tryValues (csp : CSP) (enabled : Bool) (var : String) (assignment : Assignment)
    (domains : Domains) (recur : Assignment → Domains → Option Assignment × List Event) :
    List String → List Event → Option Assignment × List Event
  | [], events => (none, events)
  | value :: rest, events =>
    if ! is_value_consistent csp var value assignment then
      tryValues csp enabled var assignment domains recur rest events
    else
      let local_assignment := dinsert var value assignment
      let ev1 := logAssign enabled var value (lookupD domains var).length local_assignment.length
      let local_domains := updateD (csp.copy_domains (some domains)) var [value]
      match forward_check csp var local_assignment local_domains enabled with
      | (none, ev2) =>
        tryValues csp enabled var assignment domains recur rest (events ++ ev1 ++ ev2)
      | (some domains1, ev2) =>
        match ac3 csp domains1 local_assignment enabled with
        | (none, ev3) =>
          tryValues csp enabled var assignment domains recur rest (events ++ ev1 ++ ev2 ++ ev3)
        | (some domains2, ev3) =>
          match recur local_assignment domains2 with
          | (some result, ev4) => (some result, events ++ ev1 ++ ev2 ++ ev3 ++ ev4)
          | (none, ev4) =>
            tryValues csp enabled var assignment domains recur rest
              (events ++ ev1 ++ ev2 ++ ev3 ++ ev4)

/-- `_backtrack`, by structural recursion on fuel.  `backtrack` passes
fuel = number of unassigned variables, which strictly decreases at each
recursive call; when it is 0 with the length test failing, no unassigned
variable exists and the fuel-0 branch coincides with the source's
`var is None` early return. -/
def backtrackFuel (csp : CSP) (enabled : Bool) :
    Nat → Assignment → Domains → Option Assignment × List Event
  | fuel, assignment, domains =>
    if assignment.length = csp.variable_names.length then
      if csp.is_consistent assignment then
        (some assignment, logSolutionFound enabled assignment.length)
      else (none, [])
    else
      match select_unassigned_variable csp assignment domains with
      | none => (none, [])
      | some var =>
        match fuel with
        | 0 => (none, [])
        | fuel' + 1 =>
          match tryValues csp enabled var assignment domains
              (fun a d => backtrackFuel csp enabled fuel' a d)
              (order_domain_values var domains) [] with
          | (some result, events) => (some result, events)
          | (none, events) => (none, events ++ logBacktrack enabled var)

/-- Number of unassigned variables: the implicit termination measure of
`_backtrack`. -/
def unassignedCount (csp : CSP) (assignment : Assignment) : Nat :=
  (csp.variable_names.filter (fun v => (List.lookup v assignment).isNone)).length

/-- `_backtrack` at its call sites. -/
def backtrack (csp : CSP) (assignment : Assignment) (domains : Domains) (enabled : Bool) :
    Option Assignment × List Event :=
  backtrackFuel csp enabled (unassignedCount csp assignment) assignment domains

/-- `solve`: copy the canonical domains, unary propagation, AC-3, then
backtracking; `result or {}`. -/
def solveW (csp : CSP) (enabled : Bool) : Assignment × List Event :=
  let domains := csp.copy_domains none
  match enforce_unary_constraints csp domains [] with
  | none => ([], [])
  | some domains1 =>
    match ac3 csp domains1 [] enabled with
    | (none, ev1) => ([], ev1)
    | (some domains2, ev1) =>
      match backtrack csp [] domains2 enabled with
      | (result, ev2) => (result.getD [], ev1 ++ ev2)

/-- `solve` under the process-wide tracer: the run appends its events to
whatever the tracer already holds. -/
def solveT (csp : CSP) (t : Tracer) : Assignment × Tracer :=
  let r := solveW csp t.enabled
  (r.1, ⟨t.enabled, t.steps ++ r.2⟩)

/-! ## Claim C7: determinism of `solve` -/

/-- C7.  Two runs of `solve` on the same CSP — whatever tracer state each
run starts from, with tracing equally enabled — return the same
assignment and append the same sequence of trace events (action kinds,
variables, values, sizes and reasons, in the same order). -/
theorem claim_C7_determinism (csp : CSP) (t1 t2 : Tracer) (h : t1.enabled = t2.enabled) :
    (solveT csp t1).1 = (solveT csp t2).1 ∧
    (solveT csp t1).2.steps.drop t1.steps.length =
      (solveT csp t2).2.steps.drop t2.steps.length := by
  constructor
  · show (solveW csp t1.enabled).1 = (solveW csp t2.enabled).1
    rw [h]
  · show (t1.steps ++ (solveW csp t1.enabled).2).drop t1.steps.length =
      (t2.steps ++ (solveW csp t2.enabled).2).drop t2.steps.length
    rw [List.drop_left, List.drop_left, h]

/-- A small demonstration CSP: `A ∈ {1,2}`, `B ∈ {1}`, `AllDiff(A, B)`. -/
def cspDemo : CSP := ⟨[⟨"A", ["1", "2"]⟩, ⟨"B", ["1"]⟩], [Constraint.all_diff ["A", "B"]]⟩

theorem claim_C7_determinism_witness :
    (solveT cspDemo ⟨true, []⟩).1 =
      (solveT cspDemo ⟨true, [⟨"note", none, none, none, none, none⟩]⟩).1 ∧
    (solveT cspDemo ⟨true, []⟩).2.steps.drop (Tracer.steps ⟨true, []⟩).length =
      (solveT cspDemo ⟨true, [⟨"note", none, none, none, none, none⟩]⟩).2.steps.drop
        (Tracer.steps ⟨true, [⟨"note", none, none, none, none, none⟩]⟩).length :=
  claim_C7_determinism cspDemo ⟨true, []⟩ ⟨true, [⟨"note", none, none, none, none, none⟩]⟩ rfl

/-! ## Basic lemmas about the embedded data structures -/

theorem copy_domains_some (csp : CSP) (d : Domains) : csp.copy_domains (some d) = d := by
  show d.map (fun p => (p.1, p.2)) = d
  induction d with
  | nil => rfl
  | cons p rest ih => simp [ih]

theorem copy_domains_none (csp : CSP) : csp.copy_domains none = csp.domains := by
  show csp.domains.map (fun p => (p.1, p.2)) = csp.domains
  induction csp.domains with
  | nil => rfl
  | cons p rest ih => simp [ih]

theorem lookup_updateD (d : Domains) (k : String) (vs : List String) (w : String) :
    List.lookup w (updateD d k vs) =
      if w = k then (List.lookup k d).map (fun _ => vs) else List.lookup w d := by
  induction d with
  | nil => simp [updateD, List.lookup]
  | cons p rest ih =>
    obtain ⟨k', old⟩ := p
    by_cases hk : k' = k
    · subst hk
      rw [show updateD ((k', old) :: rest) k' vs = (k', vs) :: rest by simp [updateD]]
      by_cases hw : w = k'
      · simp [hw, pylookup_cons]
      · simp [hw, pylookup_cons]
    · rw [show updateD ((k', old) :: rest) k vs = (k', old) :: updateD rest k vs by
        simp [updateD, hk]]
      have hk2 : ¬ k = k' := fun h => hk h.symm
      by_cases hw : w = k'
      · have hwk : ¬ w = k := fun h => hk (hw.symm.trans h)
        simp [hw, hwk, pylookup_cons, hk, hk2]
      · by_cases hwk : w = k
        · subst hwk
          simp [hw, pylookup_cons, ih, hk, hk2]
        · simp [hw, hwk, pylookup_cons, ih]

theorem lookupD_updateD_ne (d : Domains) (k : String) (vs : List String) (w : String)
    (h : w ≠ k) : lookupD (updateD d k vs) w = lookupD d w := by
  rw [lookupD, lookup_updateD, if_neg h, lookupD]

theorem lookup_isSome_of_mem_lookupD {d : Domains} {v : String} {x : String}
    (h : x ∈ lookupD d v) : (List.lookup v d).isSome := by
  rw [lookupD] at h
  cases hl : List.lookup v d with
  | none => rw [hl] at h; cases h
  | some _ => rfl

theorem lookupD_updateD_self (d : Domains) (k : String) (vs : List String)
    (h : (List.lookup k d).isSome) : lookupD (updateD d k vs) k = vs := by
  rw [lookupD, lookup_updateD, if_pos rfl]
  cases hl : List.lookup k d with
  | none => rw [hl] at h; cases h
  | some _ => simp

theorem length_dinsert_of_none {k v : String} {a : Assignment}
    (h : List.lookup k a = none) : (dinsert k v a).length = a.length + 1 := by
  induction a with
  | nil => rfl
  | cons p rest ih =>
    obtain ⟨k', v'⟩ := p
    rw [pylookup_cons] at h
    by_cases hk : k = k'
    · rw [if_pos hk] at h; cases h
    · rw [if_neg hk] at h
      by_cases hlt : pyStrLt k k'
      · simp [dinsert, hk, hlt]
      · simp [dinsert, hk, hlt, ih h]

theorem mem_insertSorted (x y : String) (l : List String) :
    x ∈ insertSorted y l ↔ x = y ∨ x ∈ l := by
  induction l with
  | nil => simp [insertSorted]
  | cons z zs ih =>
    by_cases h : pyStrLt y z
    · simp [insertSorted, h]
    · simp [insertSorted, h, ih]
      tauto

theorem mem_sortStrings (x : String) (l : List String) :
    x ∈ sortStrings l ↔ x ∈ l := by
  induction l with
  | nil => simp [sortStrings]
  | cons y ys ih =>
    show x ∈ insertSorted y (sortStrings ys) ↔ _
    rw [mem_insertSorted, ih]
    simp

theorem foldl_mrv_mem (domains : Domains) (us : List String) (u : String) :
    us.foldl (fun best v => if mrvKeyLt domains v best then v else best) u ∈ u :: us := by
  induction us generalizing u with
  | nil => simp
  | cons v vs ih =>
    show List.foldl _ (if mrvKeyLt domains v u then v else u) vs ∈ _
    by_cases h : mrvKeyLt domains v u
    · rw [if_pos h]
      have := ih v
      simp at this ⊢
      tauto
    · rw [if_neg h]
      have := ih u
      simp at this ⊢
      tauto

theorem select_unassigned_spec (csp : CSP) (assignment : Assignment) (domains : Domains)
    (var : String) (h : select_unassigned_variable csp assignment domains = some var) :
    var ∈ csp.variable_names ∧ List.lookup var assignment = none := by
  rw [select_unassigned_variable] at h
  cases hf : csp.variable_names.filter (fun v => (List.lookup v assignment).isNone) with
  | nil => rw [hf] at h; cases h
  | cons u us =>
    rw [hf] at h
    injection h with h
    have hmem : var ∈ u :: us := h ▸ foldl_mrv_mem domains us u
    have : var ∈ csp.variable_names.filter (fun v => (List.lookup v assignment).isNone) :=
      hf ▸ hmem
    have := List.mem_filter.mp this
    refine ⟨this.1, ?_⟩
    have h2 := this.2
    simp only [Option.isNone_iff_eq_none] at h2
    exact h2

/-- `a ⊑ b`: every binding of `a` is a binding of `b`. -/
def asub (a b : Assignment) : Prop :=
  ∀ k v, List.lookup k a = some v → List.lookup k b = some v

theorem asub_nil (b : Assignment) : asub [] b := by
  intro k v h
  cases h

theorem asub_dinsert {a b : Assignment} {k v : String} (h : asub a b)
    (hk : List.lookup k b = some v) : asub (dinsert k v a) b := by
  intro w x hw
  by_cases hwk : w = k
  · subst hwk
    rw [lookup_dinsert_self] at hw
    injection hw with hw
    subst hw
    exact hk
  · rw [lookup_dinsert_ne _ _ _ _ hwk] at hw
    exact h w x hw

/-! ## Solver completeness machinery (claim C1) -/

/-- The documented contract on constraint predicates (§3 of the design):
a constraint satisfied by an assignment is satisfied by every
sub-assignment — it reports `false` only when enough of its scope is
bound to prove a violation. -/
def AntiMonoSat (c : Constraint) : Prop :=
  ∀ a b : Assignment, asub a b → c.is_satisfied b = true → c.is_satisfied a = true

/-- A total assignment of the CSP's variables, each variable to a value
of its canonical domain, satisfying every constraint. -/
def isSolutionB (csp : CSP) (T : Assignment) : Bool :=
  (csp.variable_names.all (fun v =>
    match List.lookup v T with
    | some x => (lookupD csp.domains v).contains x
    | none => false)) && csp.is_consistent T

/-- Every variable's `T`-value survives in `domains`. -/
def covers (csp : CSP) (T : Assignment) (domains : Domains) : Prop :=
  ∀ v x, v ∈ csp.variable_names → List.lookup v T = some x → x ∈ lookupD domains v

theorem isSolutionB_total {csp : CSP} {T : Assignment} (h : isSolutionB csp T = true) :
    ∀ v ∈ csp.variable_names, ∃ x, List.lookup v T = some x ∧ x ∈ lookupD csp.domains v := by
  intro v hv
  rw [isSolutionB] at h
  have h1 := (Bool.and_eq_true_iff.mp h).1
  have := List.all_eq_true.mp h1 v hv
  cases hl : List.lookup v T with
  | none => rw [hl] at this; cases this
  | some x =>
    rw [hl] at this
    exact ⟨x, rfl, by simpa using this⟩

theorem isSolutionB_consistent {csp : CSP} {T : Assignment}
    (h : isSolutionB csp T = true) : csp.is_consistent T = true := by
  rw [isSolutionB] at h
  exact (Bool.and_eq_true_iff.mp h).2

theorem isSolutionB_covers {csp : CSP} {T : Assignment} (h : isSolutionB csp T = true) :
    covers csp T csp.domains := by
  intro v x hv hl
  obtain ⟨y, hy, hmem⟩ := isSolutionB_total h v hv
  rw [hl] at hy
  injection hy with hy
  exact hy ▸ hmem

theorem mem_constraints_for {csp : CSP} {var : String} {c : Constraint}
    (h : c ∈ csp.constraints_for var) : c ∈ csp.constraints := by
  rw [CSP.constraints_for] at h
  by_cases hv : var ∈ csp.variable_names
  · rw [if_pos hv] at h
    exact (List.mem_filter.mp h).1
  · rw [if_neg hv] at h
    cases h

theorem mem_constraints_between {csp : CSP} {a b : String} {c : Constraint}
    (h : c ∈ csp.constraints_between a b) : c ∈ csp.constraints :=
  (List.mem_filter.mp h).1

/-- Constraint satisfaction transfers down from a satisfying assignment
to any sub-assignment, under the predicate contract. -/
theorem sat_of_asub {csp : CSP} {T a : Assignment}
    (hmono : ∀ c ∈ csp.constraints, AntiMonoSat c)
    (hT : csp.is_consistent T = true) (hsub : asub a T)
    {c : Constraint} (hc : c ∈ csp.constraints) : c.is_satisfied a = true :=
  hmono c hc a T hsub (List.all_eq_true.mp hT c hc)

theorem totalDomSize_updateD {d : Domains} {k : String} {vs old : List String}
    (h : List.lookup k d = some old) :
    totalDomSize (updateD d k vs) + old.length = totalDomSize d + vs.length := by
  induction d with
  | nil => cases h
  | cons p rest ih =>
    obtain ⟨k', o⟩ := p
    rw [pylookup_cons] at h
    by_cases hk : k = k'
    · rw [if_pos hk] at h
      injection h with h
      subst h
      have hu : updateD ((k', o) :: rest) k vs = (k', vs) :: rest := by
        simp only [updateD]
        rw [if_pos hk.symm]
      rw [hu]
      simp only [totalDomSize, List.map_cons, List.sum_cons]
      omega
    · rw [if_neg hk] at h
      have hu : updateD ((k', o) :: rest) k vs = (k', o) :: updateD rest k vs := by
        simp only [updateD]
        rw [if_neg (Ne.symm hk)]
      rw [hu]
      have := ih h
      simp only [totalDomSize, List.map_cons, List.sum_cons] at this ⊢
      omega

/-- Unfolding equation for `revise`. -/
theorem revise_eq (csp : CSP) (xi xj : String) (domains : Domains) (a : Assignment) :
    revise csp xi xj domains a =
      if (csp.constraints_between xi xj).isEmpty then (false, domains)
      else if ((lookupD domains xi).filter
          (fun value => has_support xi value xj domains a
            (csp.constraints_between xi xj))).length = (lookupD domains xi).length then
        (false, domains)
      else
        (true, updateD domains xi ((lookupD domains xi).filter
          (fun value => has_support xi value xj domains a (csp.constraints_between xi xj)))) :=
  rfl

/-- `revised == False` leaves the map untouched. -/
theorem revise_false_eq {csp : CSP} {xi xj : String} {domains : Domains} {a : Assignment}
    (h : (revise csp xi xj domains a).1 = false) :
    (revise csp xi xj domains a).2 = domains := by
  rw [revise_eq] at *
  by_cases h1 : (csp.constraints_between xi xj).isEmpty
  · rw [if_pos h1]
  · rw [if_neg h1] at h ⊢
    by_cases h2 : ((lookupD domains xi).filter
        (fun value => has_support xi value xj domains a (csp.constraints_between xi xj))).length
        = (lookupD domains xi).length
    · rw [if_pos h2]
    · rw [if_neg h2] at h
      cases h

/-- `revised == True` strictly shrinks the total domain size. -/
theorem revise_true_size {csp : CSP} {xi xj : String} {domains : Domains} {a : Assignment}
    (h : (revise csp xi xj domains a).1 = true) :
    totalDomSize (revise csp xi xj domains a).2 < totalDomSize domains := by
  rw [revise_eq] at *
  by_cases h1 : (csp.constraints_between xi xj).isEmpty
  · rw [if_pos h1] at h
    cases h
  · rw [if_neg h1] at h ⊢
    by_cases h2 : ((lookupD domains xi).filter
        (fun value => has_support xi value xj domains a (csp.constraints_between xi xj))).length
        = (lookupD domains xi).length
    · rw [if_pos h2] at h
      cases h
    · rw [if_neg h2] at h ⊢
      have hlt : ((lookupD domains xi).filter
          (fun value => has_support xi value xj domains a (csp.constraints_between xi xj))).length
          < (lookupD domains xi).length :=
        lt_of_le_of_ne (List.length_filter_le _ _) h2
      have hsome : (List.lookup xi domains).isSome := by
        cases hl : List.lookup xi domains with
        | none =>
          rw [lookupD, hl] at h2 hlt
          simp at h2 hlt
        | some _ => rfl
      obtain ⟨old, hold⟩ := Option.isSome_iff_exists.mp hsome
      have hts := @totalDomSize_updateD domains xi
        ((lookupD domains xi).filter
          (fun value => has_support xi value xj domains a (csp.constraints_between xi xj)))
        old hold
      have holdlen : old.length = (lookupD domains xi).length := by
        rw [lookupD, hold]
        rfl
      show totalDomSize (updateD domains xi _) < totalDomSize domains
      omega

/-- The value filter applied to `var` by the unary-propagation loop. -/
def unaryKept (csp : CSP) (a : Assignment) (var : String) (domains : Domains) : List String :=
  (lookupD domains var).filter (fun value =>
    (unaryConstraintsFor csp var).all (fun c => c.is_satisfied (dinsert var value a)))

theorem enforceUnaryLoop_cons (csp : CSP) (a : Assignment) (var : String)
    (rest : List String) (domains : Domains) :
    enforceUnaryLoop csp a (var :: rest) domains =
      if (unaryConstraintsFor csp var).isEmpty then enforceUnaryLoop csp a rest domains
      else if unaryKept csp a var domains = [] then none
      else enforceUnaryLoop csp a rest (updateD domains var (unaryKept csp a var domains)) :=
  rfl

theorem mem_neighbors_names {csp : CSP} {v x : String} (h : x ∈ csp.neighbors v) :
    x ∈ csp.variable_names := by
  rw [CSP.neighbors] at h
  by_cases hv : v ∈ csp.variable_names
  · rw [if_pos hv] at h
    rw [List.mem_dedup] at h
    obtain ⟨c, _, hx⟩ := List.mem_flatMap.mp h
    have := (List.mem_filter.mp hx).2
    have h2 := (Bool.and_eq_true_iff.mp this).2
    simpa using h2
  · rw [if_neg hv] at h
    cases h


theorem revise_mono (csp : CSP) (xi xj : String) (domains : Domains) (a : Assignment) :
    ∀ w, lookupD (revise csp xi xj domains a).2 w ⊆ lookupD domains w := by
  intro w
  rw [revise_eq]
  by_cases h1 : (csp.constraints_between xi xj).isEmpty
  · rw [if_pos h1]
    exact fun x hx => hx
  · rw [if_neg h1]
    by_cases h2 : ((lookupD domains xi).filter
        (fun value => has_support xi value xj domains a (csp.constraints_between xi xj))).length
        = (lookupD domains xi).length
    · rw [if_pos h2]
      exact fun x hx => hx
    · rw [if_neg h2]
      by_cases hw : w = xi
      · subst hw
        show lookupD (updateD domains w _) w ⊆ _
        by_cases hsome : (List.lookup w domains).isSome
        · rw [lookupD_updateD_self _ _ _ hsome]
          exact fun x hx => (List.mem_filter.mp hx).1
        · rw [lookupD, lookup_updateD, if_pos rfl]
          cases hl : List.lookup w domains with
          | none => intro x hx; simp at hx
          | some _ => rw [hl] at hsome; simp at hsome
      · rw [lookupD_updateD_ne _ _ _ _ hw]
        exact fun x hx => hx

theorem revise_covers {csp : CSP} {T a : Assignment}
    (hmono : ∀ c ∈ csp.constraints, AntiMonoSat c) (hT : csp.is_consistent T = true)
    (hsub : asub a T)
    (hTt : ∀ v ∈ csp.variable_names, ∃ x, List.lookup v T = some x)
    {xi xj : String} {domains : Domains} (hxj : xj ∈ csp.variable_names)
    (hcov : covers csp T domains) :
    covers csp T (revise csp xi xj domains a).2 := by
  rw [revise_eq]
  by_cases h1 : (csp.constraints_between xi xj).isEmpty
  · rw [if_pos h1]
    exact hcov
  · rw [if_neg h1]
    by_cases h2 : ((lookupD domains xi).filter
        (fun value => has_support xi value xj domains a (csp.constraints_between xi xj))).length
        = (lookupD domains xi).length
    · rw [if_pos h2]
      exact hcov
    · rw [if_neg h2]
      intro v x hv hxT
      by_cases hvxi : v = xi
      · subst hvxi
        have hxdom := hcov v x hv hxT
        rw [lookupD_updateD_self _ _ _ (lookup_isSome_of_mem_lookupD hxdom)]
        rw [List.mem_filter]
        refine ⟨hxdom, ?_⟩
        obtain ⟨y, hy⟩ := hTt xj hxj
        rw [has_support, List.any_eq_true]
        refine ⟨y, hcov xj y hxj hy, ?_⟩
        rw [List.all_eq_true]
        intro c hc
        exact sat_of_asub hmono hT (asub_dinsert (asub_dinsert hsub hxT) hy)
          (mem_constraints_between hc)
      · rw [lookupD_updateD_ne _ _ _ _ hvxi]
        exact hcov v x hv hxT

theorem enforceUnaryLoop_mono (csp : CSP) (a : Assignment) :
    ∀ (vars : List String) (domains d' : Domains),
      enforceUnaryLoop csp a vars domains = some d' →
      ∀ w, lookupD d' w ⊆ lookupD domains w := by
  intro vars
  induction vars with
  | nil =>
    intro domains d' h w
    injection h with h
    subst h
    exact fun x hx => hx
  | cons var rest ih =>
    intro domains d' h w
    rw [enforceUnaryLoop_cons] at h
    by_cases h1 : (unaryConstraintsFor csp var).isEmpty
    · rw [if_pos h1] at h
      exact ih domains d' h w
    · rw [if_neg h1] at h
      by_cases h2 : unaryKept csp a var domains = []
      · rw [if_pos h2] at h
        cases h
      · rw [if_neg h2] at h
        have hstep := ih _ _ h w
        refine hstep.trans ?_
        by_cases hw : w = var
        · subst hw
          by_cases hsome : (List.lookup w domains).isSome
          · rw [lookupD_updateD_self _ _ _ hsome]
            exact fun x hx => (List.mem_filter.mp hx).1
          · rw [lookupD, lookup_updateD, if_pos rfl]
            cases hl : List.lookup w domains with
            | none => intro x hx; simp at hx
            | some _ => rw [hl] at hsome; simp at hsome
        · rw [lookupD_updateD_ne _ _ _ _ hw]
          exact fun x hx => hx

theorem enforceUnaryLoop_covers {csp : CSP} {T a : Assignment}
    (hmono : ∀ c ∈ csp.constraints, AntiMonoSat c) (hT : csp.is_consistent T = true)
    (hsub : asub a T)
    (hTt : ∀ v ∈ csp.variable_names, ∃ x, List.lookup v T = some x) :
    ∀ (vars : List String) (domains : Domains),
      covers csp T domains →
      ∃ d', enforceUnaryLoop csp a vars domains = some d' ∧ covers csp T d' := by
  intro vars
  induction vars with
  | nil =>
    intro domains hcov
    exact ⟨domains, rfl, hcov⟩
  | cons var rest ih =>
    intro domains hcov
    rw [enforceUnaryLoop_cons]
    by_cases h1 : (unaryConstraintsFor csp var).isEmpty
    · rw [if_pos h1]
      exact ih domains hcov
    · rw [if_neg h1]
      have hkeepT : ∀ x, var ∈ csp.variable_names → List.lookup var T = some x →
          x ∈ unaryKept csp a var domains := by
        intro x hvn hxT
        rw [unaryKept, List.mem_filter]
        refine ⟨hcov var x hvn hxT, ?_⟩
        rw [List.all_eq_true]
        intro c hc
        have hc' : c ∈ csp.constraints :=
          mem_constraints_for (List.mem_filter.mp hc).1
        exact sat_of_asub hmono hT (asub_dinsert hsub hxT) hc'
      have hcov' : covers csp T (updateD domains var (unaryKept csp a var domains)) := by
        intro v x hv hxT
        by_cases hvv : v = var
        · subst hvv
          have hxdom := hcov v x hv hxT
          rw [lookupD_updateD_self _ _ _ (lookup_isSome_of_mem_lookupD hxdom)]
          exact hkeepT x hv hxT
        · rw [lookupD_updateD_ne _ _ _ _ hvv]
          exact hcov v x hv hxT
      by_cases h2 : unaryKept csp a var domains = []
      · -- the emptied-domain failure cannot happen when `var` is a CSP
        -- variable; when it is not, `unaryConstraintsFor` is empty,
        -- contradicting `h1`.
        exfalso
        apply h1
        rw [unaryConstraintsFor, CSP.constraints_for]
        by_cases hvn : var ∈ csp.variable_names
        · obtain ⟨x, hxT⟩ := hTt var hvn
          have := hkeepT x hvn hxT
          rw [h2] at this
          cases this
        · rw [if_neg hvn]
          rfl
      · rw [if_neg h2]
        exact ih _ hcov'

theorem neighbors_length_le_arcBound {csp : CSP} {v : String}
    (h : v ∈ csp.variable_names) : (csp.neighbors v).length ≤ arcBound csp := by
  rw [arcBound]
  exact List.single_le_sum (fun x _ => Nat.zero_le x) _
    (List.mem_map.mpr ⟨v, h, rfl⟩)

theorem ac3Loop_cons (csp : CSP) (a : Assignment) (fuel : Nat) (xi xj : String)
    (queue : List (String × String)) (domains : Domains) (ap va : Nat) :
    ac3Loop csp a (fuel + 1) ((xi, xj) :: queue) domains ap va =
      if (revise csp xi xj domains a).1 then
        if lookupD (revise csp xi xj domains a).2 xi = [] then none
        else
          ac3Loop csp a fuel
            (queue ++ ((csp.neighbors xi).filter (fun xk => xk ≠ xj)).map (fun xk => (xk, xi)))
            (revise csp xi xj domains a).2 (ap + 1) (va + 1)
      else ac3Loop csp a fuel queue (revise csp xi xj domains a).2 (ap + 1) va :=
  rfl

theorem ac3Loop_mono (csp : CSP) (a : Assignment) :
    ∀ (fuel : Nat) (queue : List (String × String)) (domains : Domains) (ap va : Nat)
      (d' : Domains) (ap' va' : Nat),
      ac3Loop csp a fuel queue domains ap va = some (d', ap', va') →
      ∀ w, lookupD d' w ⊆ lookupD domains w := by
  intro fuel
  induction fuel with
  | zero =>
    intro queue domains ap va d' ap' va' h
    cases h
  | succ fuel ih =>
    intro queue domains ap va d' ap' va' h
    match queue with
    | [] =>
      rw [ac3Loop] at h
      injection h with h
      cases h
      exact fun w x hx => hx
    | (xi, xj) :: rest =>
      rw [ac3Loop_cons] at h
      cases hrev : (revise csp xi xj domains a).1 with
      | true =>
        rw [if_pos hrev] at h
        by_cases hempty : lookupD (revise csp xi xj domains a).2 xi = []
        · rw [if_pos hempty] at h
          cases h
        · rw [if_neg hempty] at h
          intro w
          exact (ih _ _ _ _ _ _ _ h w).trans (revise_mono csp xi xj domains a w)
      | false =>
        rw [if_neg (by rw [hrev]; exact Bool.false_ne_true)] at h
        intro w
        have := ih _ _ _ _ _ _ _ h w
        rwa [revise_false_eq hrev] at this

theorem ac3Loop_covers {csp : CSP} {T a : Assignment}
    (hmono : ∀ c ∈ csp.constraints, AntiMonoSat c) (hT : csp.is_consistent T = true)
    (hsub : asub a T)
    (hTt : ∀ v ∈ csp.variable_names, ∃ x, List.lookup v T = some x) :
    ∀ (fuel : Nat) (queue : List (String × String)) (domains : Domains) (ap va : Nat),
      totalDomSize domains * (arcBound csp + 1) + queue.length < fuel →
      (∀ p ∈ queue, p.1 ∈ csp.variable_names ∧ p.2 ∈ csp.variable_names) →
      covers csp T domains →
      ∃ d' ap' va', ac3Loop csp a fuel queue domains ap va = some (d', ap', va') ∧
        covers csp T d' := by
  intro fuel
  induction fuel with
  | zero =>
    intro queue domains ap va hfuel _ _
    omega
  | succ fuel ih =>
    intro queue domains ap va hfuel hq hcov
    match queue with
    | [] =>
      refine ⟨domains, ap, va, ?_, hcov⟩
      rw [ac3Loop]
    | (xi, xj) :: rest =>
      have hxi : xi ∈ csp.variable_names := (hq (xi, xj) (by simp)).1
      have hxj : xj ∈ csp.variable_names := (hq (xi, xj) (by simp)).2
      have hcov2 : covers csp T (revise csp xi xj domains a).2 :=
        revise_covers hmono hT hsub hTt hxj hcov
      rw [ac3Loop_cons]
      cases hrev : (revise csp xi xj domains a).1 with
      | true =>
        rw [if_pos rfl]
        have hne : lookupD (revise csp xi xj domains a).2 xi ≠ [] := by
          obtain ⟨x, hx⟩ := hTt xi hxi
          have := hcov2 xi x hxi hx
          intro hcontra
          rw [hcontra] at this
          cases this
        rw [if_neg hne]
        apply ih
        · have hS : totalDomSize (revise csp xi xj domains a).2 + 1 ≤ totalDomSize domains :=
            revise_true_size hrev
          have hadd : (((csp.neighbors xi).filter (fun xk => xk ≠ xj)).map
              (fun xk => (xk, xi))).length ≤ arcBound csp := by
            rw [List.length_map]
            exact (List.length_filter_le _ _).trans (neighbors_length_le_arcBound hxi)
          have hmul : (totalDomSize (revise csp xi xj domains a).2 + 1) * (arcBound csp + 1)
              ≤ totalDomSize domains * (arcBound csp + 1) :=
            Nat.mul_le_mul_right _ hS
          rw [Nat.succ_mul] at hmul
          rw [List.length_append]
          simp only [List.length_cons] at hfuel
          omega
        · intro p hp
          rcases List.mem_append.mp hp with hp1 | hp2
          · exact hq p (by simp [hp1])
          · obtain ⟨xk, hxk, hpeq⟩ := List.mem_map.mp hp2
            subst hpeq
            exact ⟨mem_neighbors_names (List.mem_filter.mp hxk).1, hxi⟩
        · exact hcov2
      | false =>
        rw [if_neg Bool.false_ne_true]
        rw [revise_false_eq hrev]
        apply ih
        · simp only [List.length_cons] at hfuel
          omega
        · intro p hp
          exact hq p (by simp [hp])
        · exact hcov

theorem forwardCheckLoop_cons (csp : CSP) (var : String) (a : Assignment)
    (neighbor : String) (rest : List String) (domains : Domains) (pruned : Nat) :
    forwardCheckLoop csp var a (neighbor :: rest) domains pruned =
      if (csp.constraints_between var neighbor).isEmpty then
        forwardCheckLoop csp var a rest domains pruned
      else if fcKept csp var a neighbor domains = [] then none
      else
        forwardCheckLoop csp var a rest (updateD domains neighbor (fcKept csp var a neighbor domains))
          (pruned + ((lookupD domains neighbor).length - (fcKept csp var a neighbor domains).length)) :=
  rfl

theorem forwardCheckLoop_mono (csp : CSP) (var : String) (a : Assignment) :
    ∀ (ns : List String) (domains : Domains) (pruned : Nat) (d' : Domains) (pruned' : Nat),
      forwardCheckLoop csp var a ns domains pruned = some (d', pruned') →
      ∀ w, lookupD d' w ⊆ lookupD domains w := by
  intro ns
  induction ns with
  | nil =>
    intro domains pruned d' pruned' h w
    rw [forwardCheckLoop] at h
    injection h with h
    cases h
    exact fun x hx => hx
  | cons neighbor rest ih =>
    intro domains pruned d' pruned' h w
    rw [forwardCheckLoop_cons] at h
    by_cases h1 : (csp.constraints_between var neighbor).isEmpty
    · rw [if_pos h1] at h
      exact ih _ _ _ _ h w
    · rw [if_neg h1] at h
      by_cases h2 : fcKept csp var a neighbor domains = []
      · rw [if_pos h2] at h
        cases h
      · rw [if_neg h2] at h
        refine (ih _ _ _ _ h w).trans ?_
        by_cases hw : w = neighbor
        · subst hw
          by_cases hsome : (List.lookup w domains).isSome
          · rw [lookupD_updateD_self _ _ _ hsome]
            exact fun x hx => (List.mem_filter.mp hx).1
          · rw [lookupD, lookup_updateD, if_pos rfl]
            cases hl : List.lookup w domains with
            | none => intro x hx; simp at hx
            | some _ => rw [hl] at hsome; simp at hsome
        · rw [lookupD_updateD_ne _ _ _ _ hw]
          exact fun x hx => hx

theorem forwardCheckLoop_covers {csp : CSP} {T a : Assignment}
    (hmono : ∀ c ∈ csp.constraints, AntiMonoSat c) (hT : csp.is_consistent T = true)
    (hsub : asub a T)
    (hTt : ∀ v ∈ csp.variable_names, ∃ x, List.lookup v T = some x)
    {var : String} {xv : String} (hvar : List.lookup var a = some xv) :
    ∀ (ns : List String) (domains : Domains) (pruned : Nat),
      (∀ n ∈ ns, n ∈ csp.variable_names) →
      covers csp T domains →
      ∃ d' pruned', forwardCheckLoop csp var a ns domains pruned = some (d', pruned') ∧
        covers csp T d' := by
  intro ns
  induction ns with
  | nil =>
    intro domains pruned _ hcov
    exact ⟨domains, pruned, rfl, hcov⟩
  | cons neighbor rest ih =>
    intro domains pruned hns hcov
    rw [forwardCheckLoop_cons]
    by_cases h1 : (csp.constraints_between var neighbor).isEmpty
    · rw [if_pos h1]
      exact ih _ _ (fun n hn => hns n (by simp [hn])) hcov
    · rw [if_neg h1]
      have hnn : neighbor ∈ csp.variable_names := hns neighbor (by simp)
      have hkeepT : ∀ y, List.lookup neighbor T = some y → y ∈ lookupD domains neighbor →
          y ∈ fcKept csp var a neighbor domains := by
        intro y hyT hydom
        rw [fcKept, List.mem_filter]
        refine ⟨hydom, ?_⟩
        rw [List.all_eq_true]
        intro c hc
        have hsub2 : asub (dinsert var ((List.lookup var a).getD "")
            (dinsert neighbor y a)) T := by
          rw [hvar]
          exact asub_dinsert (asub_dinsert hsub hyT) (hsub var xv hvar)
        exact sat_of_asub hmono hT hsub2 (mem_constraints_between hc)
      have h2 : fcKept csp var a neighbor domains ≠ [] := by
        obtain ⟨y, hy⟩ := hTt neighbor hnn
        have := hkeepT y hy (hcov neighbor y hnn hy)
        intro hcontra
        rw [hcontra] at this
        cases this
      rw [if_neg h2]
      apply ih _ _ (fun n hn => hns n (by simp [hn]))
      intro v x hv hxT
      by_cases hvv : v = neighbor
      · subst hvv
        have hxdom := hcov v x hv hxT
        rw [lookupD_updateD_self _ _ _ (lookup_isSome_of_mem_lookupD hxdom)]
        exact hkeepT x hxT hxdom
      · rw [lookupD_updateD_ne _ _ _ _ hvv]
        exact hcov v x hv hxT

theorem ac3_covers {csp : CSP} {T a : Assignment}
    (hmono : ∀ c ∈ csp.constraints, AntiMonoSat c) (hT : csp.is_consistent T = true)
    (hsub : asub a T)
    (hTt : ∀ v ∈ csp.variable_names, ∃ x, List.lookup v T = some x)
    {domains : Domains} (hcov : covers csp T domains) (enabled : Bool) :
    ∃ d' ev, ac3 csp domains a enabled = (some d', ev) ∧ covers csp T d' := by
  obtain ⟨d1, hd1, hcov1⟩ :=
    enforceUnaryLoop_covers hmono hT hsub hTt csp.variable_names domains hcov
  obtain ⟨d2, ap, va, hloop, hcov2⟩ := ac3Loop_covers hmono hT hsub hTt
    (totalDomSize d1 * (arcBound csp + 1) +
      (csp.variable_names.flatMap (fun v => (csp.neighbors v).map (fun n => (v, n)))).length + 1)
    (csp.variable_names.flatMap (fun v => (csp.neighbors v).map (fun n => (v, n))))
    d1 0 0 (Nat.lt_succ_self _)
    (by
      intro p hp
      obtain ⟨v, hv, hp2⟩ := List.mem_flatMap.mp hp
      obtain ⟨n, hn, hpeq⟩ := List.mem_map.mp hp2
      subst hpeq
      exact ⟨hv, mem_neighbors_names hn⟩)
    hcov1
  have hd1' : enforce_unary_constraints csp domains a = some d1 := hd1
  refine ⟨d2, (if ap ≠ 0 then logAc3Run enabled va ap else []), ?_, hcov2⟩
  simp only [ac3, hd1', hloop]

theorem forward_check_covers {csp : CSP} {T a : Assignment}
    (hmono : ∀ c ∈ csp.constraints, AntiMonoSat c) (hT : csp.is_consistent T = true)
    (hsub : asub a T)
    (hTt : ∀ v ∈ csp.variable_names, ∃ x, List.lookup v T = some x)
    {var : String} {xv : String} (hvar : List.lookup var a = some xv)
    {domains : Domains} (hcov : covers csp T domains) (enabled : Bool) :
    ∃ d' ev, forward_check csp var a domains enabled = (some d', ev) ∧ covers csp T d' := by
  obtain ⟨d1, hd1, hcov1⟩ :=
    enforceUnaryLoop_covers hmono hT hsub hTt csp.variable_names domains hcov
  obtain ⟨d2, pruned, hloop, hcov2⟩ := forwardCheckLoop_covers hmono hT hsub hTt hvar
    (csp.neighbors var) d1 0 (fun n hn => mem_neighbors_names hn) hcov1
  have hd1' : enforce_unary_constraints csp domains a = some d1 := hd1
  refine ⟨d2, (if pruned ≠ 0 then logForwardCheck enabled var pruned else []), ?_, hcov2⟩
  simp only [forward_check, hd1', hloop]

theorem unassignedCount_nil (csp : CSP) :
    unassignedCount csp [] = csp.variable_names.length := by
  rw [unassignedCount]
  rw [List.filter_eq_self.mpr]
  intro v _
  rfl

theorem unassignedCount_dinsert {csp : CSP} {var x : String} {a : Assignment}
    (hnodup : csp.variable_names.Nodup)
    (hv : var ∈ csp.variable_names) (hnone : List.lookup var a = none) :
    unassignedCount csp (dinsert var x a) + 1 = unassignedCount csp a := by
  rw [unassignedCount, unassignedCount]
  have hpt : ∀ v ∈ csp.variable_names,
      ((List.lookup v (dinsert var x a)).isNone : Bool) =
        ((List.lookup v a).isNone && v ≠ var) := by
    intro v _
    by_cases hvv : v = var
    · subst hvv
      rw [lookup_dinsert_self]
      simp
    · rw [lookup_dinsert_ne _ _ _ _ hvv]
      simp [hvv]
  rw [List.filter_congr hpt]
  have hfilter : csp.variable_names.filter (fun v => (List.lookup v a).isNone && v ≠ var) =
      (csp.variable_names.filter (fun v => (List.lookup v a).isNone)).filter
        (fun v => v != var) := by
    rw [List.filter_filter]
    apply List.filter_congr
    intro v _
    by_cases hvv : v = var <;> simp [hvv]
  rw [hfilter]
  have hnd : (csp.variable_names.filter (fun v => (List.lookup v a).isNone)).Nodup :=
    hnodup.filter _
  have hvmem : var ∈ csp.variable_names.filter (fun v => (List.lookup v a).isNone) :=
    List.mem_filter.mpr ⟨hv, by rw [hnone]; rfl⟩
  rw [← hnd.erase_eq_filter]
  rw [List.length_erase_of_mem hvmem]
  have : 0 < (csp.variable_names.filter (fun v => (List.lookup v a).isNone)).length :=
    List.length_pos.mpr (fun hcontra => by rw [hcontra] at hvmem; cases hvmem)
  omega

theorem tryValues_nil (csp : CSP) (enabled : Bool) (var : String) (assignment : Assignment)
    (domains : Domains) (recur : Assignment → Domains → Option Assignment × List Event)
    (events : List Event) :
    tryValues csp enabled var assignment domains recur [] events = (none, events) :=
  rfl

theorem tryValues_cons (csp : CSP) (enabled : Bool) (var : String) (assignment : Assignment)
    (domains : Domains) (recur : Assignment → Domains → Option Assignment × List Event)
    (value : String) (rest : List String) (events : List Event) :
    tryValues csp enabled var assignment domains recur (value :: rest) events =
      if ! is_value_consistent csp var value assignment then
        tryValues csp enabled var assignment domains recur rest events
      else
        match forward_check csp var (dinsert var value assignment)
            (updateD (csp.copy_domains (some domains)) var [value]) enabled with
        | (none, ev2) =>
          tryValues csp enabled var assignment domains recur rest
            (events ++ logAssign enabled var value (lookupD domains var).length
              (dinsert var value assignment).length ++ ev2)
        | (some domains1, ev2) =>
          match ac3 csp domains1 (dinsert var value assignment) enabled with
          | (none, ev3) =>
            tryValues csp enabled var assignment domains recur rest
              (events ++ logAssign enabled var value (lookupD domains var).length
                (dinsert var value assignment).length ++ ev2 ++ ev3)
          | (some domains2, ev3) =>
            match recur (dinsert var value assignment) domains2 with
            | (some result, ev4) =>
              (some result, events ++ logAssign enabled var value (lookupD domains var).length
                (dinsert var value assignment).length ++ ev2 ++ ev3 ++ ev4)
            | (none, ev4) =>
              tryValues csp enabled var assignment domains recur rest
                (events ++ logAssign enabled var value (lookupD domains var).length
                  (dinsert var value assignment).length ++ ev2 ++ ev3 ++ ev4) :=
  rfl

theorem tryValues_complete {csp : CSP} {T : Assignment} (enabled : Bool)
    (hmono : ∀ c ∈ csp.constraints, AntiMonoSat c) (hT : csp.is_consistent T = true)
    (hTt : ∀ v ∈ csp.variable_names, ∃ x, List.lookup v T = some x)
    {var Tvar : String} {assignment : Assignment} {domains : Domains} {fuel : Nat}
    (hsub : asub assignment T)
    (hvnames : var ∈ csp.variable_names)
    (hTvline : List.lookup var T = some Tvar)
    (hcov : covers csp T domains)
    (hrec : ∀ d2, covers csp T d2 →
      (backtrackFuel csp enabled fuel (dinsert var Tvar assignment) d2).1.isSome = true) :
    ∀ (values : List String) (events : List Event), Tvar ∈ values →
      (tryValues csp enabled var assignment domains
        (fun a d => backtrackFuel csp enabled fuel a d) values events).1.isSome = true := by
  intro values
  induction values with
  | nil =>
    intro events hmem
    cases hmem
  | cons v rest ih =>
    intro events hmem
    rw [tryValues_cons]
    by_cases hveq : v = Tvar
    · subst hveq
      have hcons : is_value_consistent csp var v assignment = true := by
        rw [is_value_consistent, List.all_eq_true]
        intro c hc
        exact sat_of_asub hmono hT (asub_dinsert hsub hTvline) (mem_constraints_for hc)
      rw [if_neg (by simp [hcons])]
      have hsub' : asub (dinsert var v assignment) T := asub_dinsert hsub hTvline
      have hcovLocal : covers csp T (updateD (csp.copy_domains (some domains)) var [v]) := by
        rw [copy_domains_some]
        intro w y hw hyT
        by_cases hwv : w = var
        · subst hwv
          rw [lookupD_updateD_self _ _ _
            (lookup_isSome_of_mem_lookupD (hcov w v hw hTvline))]
          rw [hTvline] at hyT
          injection hyT with hyT
          simp [hyT]
        · rw [lookupD_updateD_ne _ _ _ _ hwv]
          exact hcov w y hw hyT
      obtain ⟨d1, ev2, hfc, hcov1⟩ := forward_check_covers hmono hT hsub' hTt
        (lookup_dinsert_self var v assignment) hcovLocal enabled
      obtain ⟨d2, ev3, hac3, hcov2⟩ := ac3_covers hmono hT hsub' hTt hcov1 enabled
      cases hbk : backtrackFuel csp enabled fuel (dinsert var v assignment) d2 with
      | mk o4 ev4 =>
        have ho4 : o4.isSome = true := by
          have := hrec d2 hcov2
          rw [hbk] at this
          exact this
        obtain ⟨r, hr⟩ := Option.isSome_iff_exists.mp ho4
        subst hr
        simp only [hfc, hac3, hbk]
        rfl
    · have hmem' : Tvar ∈ rest := by
        rcases List.mem_cons.mp hmem with h | h
        · exact absurd h.symm hveq
        · exact h
      by_cases hvc : is_value_consistent csp var v assignment = true
      · rw [if_neg (by simp [hvc])]
        cases hfc : forward_check csp var (dinsert var v assignment)
            (updateD (csp.copy_domains (some domains)) var [v]) enabled with
        | mk o2 ev2 =>
          cases o2 with
          | none =>
            simp only [hfc]
            exact ih _ hmem'
          | some d1 =>
            cases hac3 : ac3 csp d1 (dinsert var v assignment) enabled with
            | mk o3 ev3 =>
              cases o3 with
              | none =>
                simp only [hfc, hac3]
                exact ih _ hmem'
              | some d2 =>
                cases hbk : backtrackFuel csp enabled fuel (dinsert var v assignment) d2 with
                | mk o4 ev4 =>
                  cases o4 with
                  | none =>
                    simp only [hfc, hac3, hbk]
                    exact ih _ hmem'
                  | some r =>
                    simp only [hfc, hac3, hbk]
                    rfl
      · rw [if_pos (by simp [hvc])]
        exact ih _ hmem'

theorem backtrackFuel_complete {csp : CSP} {T : Assignment} (enabled : Bool)
    (hnodup : csp.variable_names.Nodup)
    (hmono : ∀ c ∈ csp.constraints, AntiMonoSat c)
    (hT : csp.is_consistent T = true)
    (hTt : ∀ v ∈ csp.variable_names, ∃ x, List.lookup v T = some x) :
    ∀ (fuel : Nat) (assignment : Assignment) (domains : Domains),
      fuel = unassignedCount csp assignment →
      asub assignment T →
      assignment.length + unassignedCount csp assignment = csp.variable_names.length →
      covers csp T domains →
      (backtrackFuel csp enabled fuel assignment domains).1.isSome = true := by
  intro fuel
  induction fuel with
  | zero =>
    intro assignment domains hfuel hsub hlen hcov
    have hlen0 : assignment.length = csp.variable_names.length := by omega
    rw [backtrackFuel, if_pos hlen0]
    have hcons : csp.is_consistent assignment = true := by
      rw [CSP.is_consistent, List.all_eq_true]
      intro c hc
      exact sat_of_asub hmono hT hsub hc
    rw [if_pos hcons]
    rfl
  | succ fuel ih =>
    intro assignment domains hfuel hsub hlen hcov
    have hlenne : ¬ assignment.length = csp.variable_names.length := by omega
    rw [backtrackFuel, if_neg hlenne]
    have hne : csp.variable_names.filter (fun v => (List.lookup v assignment).isNone) ≠ [] := by
      intro hcontra
      have : unassignedCount csp assignment = 0 := by
        rw [unassignedCount, hcontra]
        rfl
      omega
    cases hf : csp.variable_names.filter (fun v => (List.lookup v assignment).isNone) with
    | nil => exact absurd hf hne
    | cons u us =>
      have hsel : select_unassigned_variable csp assignment domains =
          some (us.foldl (fun best v => if mrvKeyLt domains v best then v else best) u) := by
        rw [select_unassigned_variable, hf]
      set var := us.foldl (fun best v => if mrvKeyLt domains v best then v else best) u with hvar
      obtain ⟨hvnames, hvnone⟩ := select_unassigned_spec csp assignment domains var hsel
      rw [hsel]
      obtain ⟨Tvar, hTvline⟩ := hTt var hvnames
      have hTvmem : Tvar ∈ order_domain_values var domains := by
        rw [order_domain_values, mem_sortStrings]
        exact hcov var Tvar hvnames hTvline
      have hrec : ∀ d2, covers csp T d2 →
          (backtrackFuel csp enabled fuel (dinsert var Tvar assignment) d2).1.isSome = true := by
        intro d2 hcov2
        have hcount : unassignedCount csp (dinsert var Tvar assignment) + 1 =
            unassignedCount csp assignment :=
          unassignedCount_dinsert hnodup hvnames hvnone
        apply ih
        · omega
        · exact asub_dinsert hsub hTvline
        · rw [length_dinsert_of_none hvnone]
          omega
        · exact hcov2
      have htry := tryValues_complete enabled hmono hT hTt hsub hvnames hTvline hcov hrec
        (order_domain_values var domains) [] hTvmem
      cases htv : tryValues csp enabled var assignment domains
          (fun a d => backtrackFuel csp enabled fuel a d)
          (order_domain_values var domains) [] with
      | mk o ev =>
        rw [htv] at htry
        cases o with
        | none => cases htry
        | some r => simp [htv]

theorem ac3_mono {csp : CSP} {d : Domains} {a : Assignment} {enabled : Bool}
    {d' : Domains} {ev : List Event} (h : ac3 csp d a enabled = (some d', ev)) :
    ∀ w, lookupD d' w ⊆ lookupD d w := by
  rw [ac3] at h
  cases hu : enforce_unary_constraints csp d a with
  | none => simp only [hu] at h; cases h
  | some d1 =>
    simp only [hu] at h
    cases hl : ac3Loop csp a
        (totalDomSize d1 * (arcBound csp + 1) +
          (csp.variable_names.flatMap (fun v => (csp.neighbors v).map (fun n => (v, n)))).length + 1)
        (csp.variable_names.flatMap (fun v => (csp.neighbors v).map (fun n => (v, n))))
        d1 0 0 with
    | none => simp only [hl] at h; cases h
    | some t =>
      obtain ⟨d2, ap, va⟩ := t
      simp only [hl] at h
      have hd2 : d' = d2 := by
        have := congrArg Prod.fst h
        simp at this
        exact this.symm
      subst hd2
      intro w
      exact (ac3Loop_mono csp a _ _ _ _ _ _ _ _ hl w).trans
        (enforceUnaryLoop_mono csp a _ _ _ hu w)

theorem forward_check_mono {csp : CSP} {var : String} {a : Assignment} {d : Domains}
    {enabled : Bool} {d' : Domains} {ev : List Event}
    (h : forward_check csp var a d enabled = (some d', ev)) :
    ∀ w, lookupD d' w ⊆ lookupD d w := by
  rw [forward_check] at h
  cases hu : enforce_unary_constraints csp d a with
  | none => simp only [hu] at h; cases h
  | some d1 =>
    simp only [hu] at h
    cases hl : forwardCheckLoop csp var a (csp.neighbors var) d1 0 with
    | none => simp only [hl] at h; cases h
    | some t =>
      obtain ⟨d2, pruned⟩ := t
      simp only [hl] at h
      have hd2 : d' = d2 := by
        have := congrArg Prod.fst h
        simp at this
        exact this.symm
      subst hd2
      intro w
      exact (forwardCheckLoop_mono csp var a _ _ _ _ _ hl w).trans
        (enforceUnaryLoop_mono csp a _ _ _ hu w)

/-- The success-properties an assignment returned by `_backtrack` has:
it is total (one binding per variable name), consistent, and every
binding maps an existing variable to a canonical-domain value. -/
def SoundResult (csp : CSP) (r : Assignment) : Prop :=
  r.length = csp.variable_names.length ∧ csp.is_consistent r = true ∧
    (∀ k v, List.lookup k r = some v → k ∈ csp.variable_names ∧ v ∈ lookupD csp.domains k)

theorem tryValues_sound {csp : CSP} {enabled : Bool} {var : String} {assignment : Assignment}
    {domains : Domains} {fuel : Nat}
    (hkeys : ∀ k v, List.lookup k assignment = some v →
      k ∈ csp.variable_names ∧ v ∈ lookupD csp.domains k)
    (hdom : ∀ w, lookupD domains w ⊆ lookupD csp.domains w)
    (hvar : var ∈ csp.variable_names)
    (hrec : ∀ (a : Assignment) (d : Domains) (r : Assignment) (ev : List Event),
      (∀ k v, List.lookup k a = some v → k ∈ csp.variable_names ∧ v ∈ lookupD csp.domains k) →
      (∀ w, lookupD d w ⊆ lookupD csp.domains w) →
      backtrackFuel csp enabled fuel a d = (some r, ev) → SoundResult csp r) :
    ∀ (values : List String) (events : List Event) (r : Assignment) (ev : List Event),
      (∀ v ∈ values, v ∈ lookupD domains var) →
      tryValues csp enabled var assignment domains
        (fun a d => backtrackFuel csp enabled fuel a d) values events = (some r, ev) →
      SoundResult csp r := by
  intro values
  induction values with
  | nil =>
    intro events r ev _ h
    rw [tryValues_nil] at h
    cases h
  | cons v rest ih =>
    intro events r ev hvals h
    rw [tryValues_cons] at h
    have hvdom : v ∈ lookupD domains var := hvals v (by simp)
    have hlocal_keys : ∀ k w, List.lookup k (dinsert var v assignment) = some w →
        k ∈ csp.variable_names ∧ w ∈ lookupD csp.domains k := by
      intro k w hk
      by_cases hkv : k = var
      · subst hkv
        rw [lookup_dinsert_self] at hk
        injection hk with hk
        subst hk
        exact ⟨hvar, hdom _ hvdom⟩
      · rw [lookup_dinsert_ne _ _ _ _ hkv] at hk
        exact hkeys k w hk
    have hlocal_dom : ∀ w, lookupD (updateD (csp.copy_domains (some domains)) var [v]) w ⊆
        lookupD csp.domains w := by
      intro w
      rw [copy_domains_some]
      by_cases hwv : w = var
      · subst hwv
        rw [lookupD_updateD_self _ _ _ (lookup_isSome_of_mem_lookupD hvdom)]
        intro x hx
        rw [List.mem_singleton] at hx
        subst hx
        exact hdom w hvdom
      · rw [lookupD_updateD_ne _ _ _ _ hwv]
        exact hdom w
    by_cases hvc : (! is_value_consistent csp var v assignment) = true
    · rw [if_pos hvc] at h
      exact ih _ _ _ (fun y hy => hvals y (by simp [hy])) h
    · rw [if_neg hvc] at h
      cases hfc : forward_check csp var (dinsert var v assignment)
          (updateD (csp.copy_domains (some domains)) var [v]) enabled with
      | mk o2 ev2 =>
        cases o2 with
        | none =>
          simp only [hfc] at h
          exact ih _ _ _ (fun y hy => hvals y (by simp [hy])) h
        | some d1 =>
          simp only [hfc] at h
          cases hac3 : ac3 csp d1 (dinsert var v assignment) enabled with
          | mk o3 ev3 =>
            cases o3 with
            | none =>
              simp only [hac3] at h
              exact ih _ _ _ (fun y hy => hvals y (by simp [hy])) h
            | some d2 =>
              simp only [hac3] at h
              have hd2dom : ∀ w, lookupD d2 w ⊆ lookupD csp.domains w := by
                intro w
                exact ((ac3_mono hac3 w).trans (forward_check_mono hfc w)).trans
                  (hlocal_dom w)
              cases hbk : backtrackFuel csp enabled fuel (dinsert var v assignment) d2 with
              | mk o4 ev4 =>
                cases o4 with
                | none =>
                  simp only [hbk] at h
                  exact ih _ _ _ (fun y hy => hvals y (by simp [hy])) h
                | some r' =>
                  simp only [hbk] at h
                  have hres := hrec _ _ _ _ hlocal_keys hd2dom hbk
                  have : r = r' := by
                    have := congrArg Prod.fst h
                    simp at this
                    exact this.symm
                  subst this
                  exact hres

theorem backtrackFuel_some {csp : CSP} {enabled : Bool} :
    ∀ (fuel : Nat) (assignment : Assignment) (domains : Domains) (r : Assignment)
      (ev : List Event),
      (∀ k v, List.lookup k assignment = some v →
        k ∈ csp.variable_names ∧ v ∈ lookupD csp.domains k) →
      (∀ w, lookupD domains w ⊆ lookupD csp.domains w) →
      backtrackFuel csp enabled fuel assignment domains = (some r, ev) →
      SoundResult csp r := by
  intro fuel
  induction fuel with
  | zero =>
    intro assignment domains r ev hkeys hdom h
    rw [backtrackFuel] at h
    by_cases hlen : assignment.length = csp.variable_names.length
    · rw [if_pos hlen] at h
      by_cases hcons : csp.is_consistent assignment = true
      · rw [if_pos hcons] at h
        have : r = assignment := by
          have := congrArg Prod.fst h
          simp at this
          exact this.symm
        subst this
        exact ⟨hlen, hcons, hkeys⟩
      · rw [if_neg hcons] at h
        cases h
    · rw [if_neg hlen] at h
      cases hsel : select_unassigned_variable csp assignment domains with
      | none => simp only [hsel] at h; cases h
      | some var => simp only [hsel] at h; cases h
  | succ fuel ih =>
    intro assignment domains r ev hkeys hdom h
    rw [backtrackFuel] at h
    by_cases hlen : assignment.length = csp.variable_names.length
    · rw [if_pos hlen] at h
      by_cases hcons : csp.is_consistent assignment = true
      · rw [if_pos hcons] at h
        have : r = assignment := by
          have := congrArg Prod.fst h
          simp at this
          exact this.symm
        subst this
        exact ⟨hlen, hcons, hkeys⟩
      · rw [if_neg hcons] at h
        cases h
    · rw [if_neg hlen] at h
      cases hsel : select_unassigned_variable csp assignment domains with
      | none => simp only [hsel] at h; cases h
      | some var =>
        simp only [hsel] at h
        obtain ⟨hvnames, _⟩ := select_unassigned_spec csp assignment domains var hsel
        cases htv : tryValues csp enabled var assignment domains
            (fun a d => backtrackFuel csp enabled fuel a d)
            (order_domain_values var domains) [] with
        | mk o ev' =>
          simp only [htv] at h
          cases o with
          | none =>
            cases h
          | some r' =>
            have : r = r' := by
              have := congrArg Prod.fst h
              simp at this
              exact this.symm
            subst this
            exact tryValues_sound hkeys hdom hvnames
              (fun a d rr evv hk hd hb => ih a d rr evv hk hd hb)
              (order_domain_values var domains) [] r ev'
              (fun y hy => by
                rw [order_domain_values, mem_sortStrings] at hy
                exact hy) htv

/-- C1 (amended).  For a CSP with at least one variable (and the distinct
names its constructor enforces) whose constraint predicates obey the
documented partial-evaluation contract, an empty result from `solve`
means no total assignment of the variables to canonical-domain values
satisfies every constraint. -/
theorem claim_C1_empty_means_unsat (csp : CSP) (enabled : Bool)
    (hnodup : csp.variable_names.Nodup)
    (hne : csp.variable_names ≠ [])
    (hmono : ∀ c ∈ csp.constraints, AntiMonoSat c)
    (hempty : (solveW csp enabled).1 = []) :
    ¬ ∃ T : Assignment, isSolutionB csp T = true := by
  rintro ⟨T, hTsol⟩
  have hT := isSolutionB_consistent hTsol
  have hTt : ∀ v ∈ csp.variable_names, ∃ x, List.lookup v T = some x := by
    intro v hv
    obtain ⟨x, hx, _⟩ := isSolutionB_total hTsol v hv
    exact ⟨x, hx⟩
  have hcov0 : covers csp T (csp.copy_domains none) := by
    rw [copy_domains_none]
    exact isSolutionB_covers hTsol
  obtain ⟨d1, hd1, hcov1⟩ := enforceUnaryLoop_covers hmono hT (asub_nil T) hTt
    csp.variable_names (csp.copy_domains none) hcov0
  obtain ⟨d2, ev1, hac3e, hcov2⟩ := ac3_covers hmono hT (asub_nil T) hTt hcov1 enabled
  have hbt : (backtrackFuel csp enabled (unassignedCount csp []) [] d2).1.isSome = true :=
    backtrackFuel_complete enabled hnodup hmono hT hTt _ [] d2 rfl (asub_nil T)
      (by rw [unassignedCount_nil]; simp) hcov2
  cases hbk : backtrackFuel csp enabled (unassignedCount csp []) [] d2 with
  | mk o ev2 =>
    rw [hbk] at hbt
    cases o with
    | none => cases hbt
    | some r =>
      have hd2dom : ∀ w, lookupD d2 w ⊆ lookupD csp.domains w := by
        intro w
        refine (ac3_mono hac3e w).trans ?_
        refine (enforceUnaryLoop_mono csp [] _ _ _ hd1 w).trans ?_
        rw [copy_domains_none]
        exact fun x hx => hx
      have hsound := backtrackFuel_some _ [] d2 r ev2
        (fun k v hkv => by simp [List.lookup] at hkv) hd2dom hbk
      have hrlen := hsound.1
      have hsolve : (solveW csp enabled).1 = r := by
        simp only [solveW]
        simp only [show enforce_unary_constraints csp (csp.copy_domains none) [] = some d1
          from hd1]
        simp only [hac3e]
        simp only [backtrack, hbk]
        rfl
      rw [hsolve] at hempty
      subst hempty
      simp at hrlen
      exact hne (List.length_eq_zero.mp hrlen.symm)

/-- A CSP whose single binary constraint violates the documented
partial-evaluation contract: its predicate demands that both variables
already be bound (`lambda a: "A" in a and "B" in a`). -/
def cspBothBound : CSP :=
  ⟨[⟨"A", ["1"]⟩, ⟨"B", ["2"]⟩],
   [⟨"A and B both assigned", some ["A", "B"],
     some (fun a => (List.lookup "A" a).isSome && (List.lookup "B" a).isSome)⟩]⟩

/-- The CSP with no variables and no constraints. -/
def cspNoVars : CSP := ⟨[], []⟩

theorem claim_C1_counterexample :
    ((solveW cspBothBound true).1 = [] ∧
      isSolutionB cspBothBound [("A", "1"), ("B", "2")] = true) ∧
    ((solveW cspNoVars true).1 = [] ∧ isSolutionB cspNoVars [] = true) := by
  refine ⟨⟨by decide, by decide⟩, ⟨by decide, by decide⟩⟩

theorem filterMap_sublist_of_le {α β : Type} (f g : α → Option β) (l : List α)
    (h : ∀ x y, f x = some y → g x = some y) :
    (l.filterMap f).Sublist (l.filterMap g) := by
  induction l with
  | nil => simp
  | cons x xs ih =>
    cases hf : f x with
    | none =>
      rw [List.filterMap_cons, hf]
      cases hg : g x with
      | none => rw [List.filterMap_cons, hg]; exact ih
      | some y => rw [List.filterMap_cons, hg]; exact ih.cons _
    | some y =>
      rw [List.filterMap_cons, hf, List.filterMap_cons, h x y hf]
      exact ih.cons₂ _

/-- `Constraint.all_diff` predicates obey the partial-evaluation contract. -/
theorem all_diff_antiMonoSat (vars : List String) : AntiMonoSat (Constraint.all_diff vars) := by
  intro a b hsub hb
  rw [Constraint.is_satisfied] at hb ⊢
  simp only [Constraint.all_diff] at hb ⊢
  rw [decide_eq_true_iff] at hb ⊢
  have hnodupb : (vars.filterMap (fun var => List.lookup var b)).Nodup :=
    (dedup_length_eq_iff _).mp hb.symm
  have hsubl : (vars.filterMap (fun var => List.lookup var a)).Sublist
      (vars.filterMap (fun var => List.lookup var b)) :=
    filterMap_sublist_of_le _ _ _ (fun x y hx => hsub x y hx)
  have hnodupa : (vars.filterMap (fun var => List.lookup var a)).Nodup :=
    hnodupb.sublist hsubl
  exact ((dedup_length_eq_iff _).mpr hnodupa).symm

/-- `A, B ∈ {1}` with `AllDiff(A, B)`: unsatisfiable. -/
def cspPigeon : CSP := ⟨[⟨"A", ["1"]⟩, ⟨"B", ["1"]⟩], [Constraint.all_diff ["A", "B"]]⟩

theorem claim_C1_empty_means_unsat_witness :
    ¬ ∃ T : Assignment, isSolutionB cspPigeon T = true :=
  claim_C1_empty_means_unsat cspPigeon true (by decide) (by decide)
    (by
      intro c hc
      rw [show cspPigeon.constraints = [Constraint.all_diff ["A", "B"]] from rfl] at hc
      rw [List.mem_singleton] at hc
      subst hc
      exact all_diff_antiMonoSat _)
    (by decide)

/-! ## A small backtracking regular-expression engine

`re.match` semantics for the patterns the clue compiler uses: anchored
at the start, `$` at the end (or before a final newline), greedy and
lazy repetition with left-biased alternation, numbered capture groups.
`reMatches` lists every way a regex can match a prefix of the input in
Python's backtracking priority order; `reMatch` takes the first. -/

inductive RE where
  | eps : RE
  | cls : (Char → Bool) → RE
  | seq : RE → RE → RE
  | alt : RE → RE → RE
  | star : RE → RE
  | starL : RE → RE
  | opt : RE → RE
  | group : Nat → RE → RE
  | dollar : RE

/-- Captures: group index to captured text; a later capture shadows an
earlier one of the same index (so `List.lookup` finds the newest). -/
abbrev Caps := List (Nat × String)

/-- At most `n` consuming iterations of a star body (in greedy order:
more iterations first).  A star body in the compiled patterns always
consumes at least one character, so `n =` input length is exhaustive. -/
def starLoop (m : List Char → List (List Char × Caps)) : Nat → List Char → List (List Char × Caps)
  | 0, s => [(s, [])]
  | n + 1, s =>
    ((m s).filter (fun r => r.1.length < s.length)).flatMap
      (fun r => (starLoop m n r.1).map (fun r2 => (r2.1, r2.2 ++ r.2)))
    ++ [(s, [])]

/-- Lazy star: fewer iterations first. -/
def starLoopL (m : List Char → List (List Char × Caps)) : Nat → List Char → List (List Char × Caps)
  | 0, s => [(s, [])]
  | n + 1, s =>
    [(s, [])] ++
    ((m s).filter (fun r => r.1.length < s.length)).flatMap
      (fun r => (starLoopL m n r.1).map (fun r2 => (r2.1, r2.2 ++ r.2)))

/-- All matches of `r` against a prefix of `s`, as `(suffix, captures)`
pairs in backtracking priority order. -/
def reMatches (fuel : Nat) : RE → List Char → List (List Char × Caps)
  | .eps, s => [(s, [])]
  | .cls _, [] => []
  | .cls p, c :: cs => if p c then [(cs, [])] else []
  | .seq r1 r2, s =>
    (reMatches fuel r1 s).flatMap
      (fun r => (reMatches fuel r2 r.1).map (fun r2 => (r2.1, r2.2 ++ r.2)))
  | .alt r1 r2, s => reMatches fuel r1 s ++ reMatches fuel r2 s
  | .star r, s => starLoop (reMatches fuel r) fuel s
  | .starL r, s => starLoopL (reMatches fuel r) fuel s
  | .opt r, s => reMatches fuel r s ++ [(s, [])]
  | .group i r, s =>
    (reMatches fuel r s).map
      (fun r1 => (r1.1, (i, String.mk (s.take (s.length - r1.1.length))) :: r1.2))
  | .dollar, s => if s = [] ∨ s = ['\n'] then [(s, [])] else []

/-- `re.match(pattern, s)`: the highest-priority match, its captures. -/
def reMatch (r : RE) (s : String) : Option Caps :=
  ((reMatches (s.toList.length + 1) r s.toList).head?).map Prod.snd

/-- `m.group(i)` (patterns below only read groups that always bind). -/
def capture (i : Nat) (caps : Caps) : String := (List.lookup i caps).getD ""

/-- `[A-Za-z]` (and `[A-Z]`/`[a-z]` under `re.IGNORECASE`). -/
def pyAlpha (c : Char) : Bool :=
  ('A' ≤ c && c ≤ 'Z') || ('a' ≤ c && c ≤ 'z')

def pyUpperAZ (c : Char) : Bool := 'A' ≤ c && c ≤ 'Z'

def pyLowerAZ (c : Char) : Bool := 'a' ≤ c && c ≤ 'z'

/-- `\w` over the inputs in play (ASCII). -/
def pyWord (c : Char) : Bool := pyAlpha c || c.isDigit || c = '_'

def rlit (ci : Bool) (c : Char) : RE :=
  if ci then .cls (fun x => x.toLower = c.toLower) else .cls (fun x => x = c)

def rstr (ci : Bool) (w : String) : RE :=
  w.toList.foldr (fun c acc => .seq (rlit ci c) acc) .eps

/-- `\s+`. -/
def rws1 : RE := .seq (.cls pyIsSpace) (.star (.cls pyIsSpace))

/-- `\d+`. -/
def rdigits1 : RE := .seq (.cls Char.isDigit) (.star (.cls Char.isDigit))

def rseq (l : List RE) : RE := l.foldr .seq .eps

/-- `.` (no DOTALL). -/
def rdot : RE := .cls (fun c => c ≠ '\n')

/-- `(.+)` greedy. -/
def rdotPlus : RE := .seq rdot (.star rdot)

/-- `(.+?)` lazy. -/
def rdotPlusLazy : RE := .seq rdot (.starL rdot)

/-- Digits of a captured `(\d+)` group as a number (Python `int`). -/
def parseNatDigits (s : String) : Nat :=
  s.toList.foldl (fun n c => n * 10 + (c.toNat - 48)) 0

/-! ## `src/csp/parser.py`: normalisation helpers and the clue compiler -/

/-- One pass of `re.sub(r"\s+", " ", ·)`. -/
def collapseWsAux : Bool → List Char → List Char
  | _, [] => []
  | prevSpace, c :: cs =>
    if pyIsSpace c then
      if prevSpace then collapseWsAux true cs else ' ' :: collapseWsAux true cs
    else c :: collapseWsAux false cs

/-- `_norm`: collapse whitespace runs in the stripped string, lowercase. -/
def normStr (s : String) : String :=
  lowerStr (String.mk (collapseWsAux false (pyStrip s).toList))

/-- The character set of `_strip_punct`'s `strip(" \t\r\n. ;:!?,")`. -/
def punctChars : List Char := [' ', '\t', '\r', '\n', '.', ';', ':', '!', '?', ',']

/-- `_strip_punct`. -/
def strip_punct (s : String) : String := stripChars punctChars (pyStrip s)

/-- One alternative of `^(the|a|an)\s+` (case-insensitive): strip it and
the following whitespace run if it matches. -/
def stripArticleOnce (art : String) (cl : List Char) : Option (List Char) :=
  let n := art.toList.length
  if (cl.take n).map Char.toLower = art.toList ∧ (cl.drop n).head?.any pyIsSpace then
    some ((cl.drop n).dropWhile pyIsSpace)
  else none

/-- `_strip_article`: `re.sub(r"^(the|a|an)\s+", "", s.strip(), IGNORECASE)`
(the regex alternation tries `the`, then `a`, then `an`). -/
def strip_article (s : String) : String :=
  let cl := (pyStrip s).toList
  match stripArticleOnce "the" cl with
  | some r => String.mk r
  | none =>
    match stripArticleOnce "a" cl with
    | some r => String.mk r
    | none =>
      match stripArticleOnce "an" cl with
      | some r => String.mk r
      | none => String.mk cl

/-- `_clean_value_phrase`. -/
def clean_value_phrase (s : String) : String := pyStrip (strip_punct (strip_article s))

/-- `_build_value_index`: lowercased value → first declaring category. -/
def build_value_index (categories : List (String × List String)) : List (String × String) :=
  categories.foldl
    (fun idx p => p.2.foldl
      (fun idx v => if (List.lookup (normStr v) idx).isSome then idx
                    else idx ++ [(normStr v, p.1)]) idx) []

/-- `_alldiff_pred` (the parser's own AllDiff predicate). -/
def alldiff_pred (scope : List String) : Assignment → Bool := fun a =>
  let vals := scope.filterMap (fun v => List.lookup v a)
  vals.length = vals.dedup.length

/-- `_unary_equals`. -/
def unary_equals (var value desc : String) : Constraint :=
  { description := desc
    scope := some [var]
    predicate := some (fun a =>
      match List.lookup var a with
      | some x => x = value
      | none => true) }

/-- `_link_biimplication`. -/
def link_biimplication (cat_a val_a cat_b val_b : String) (num_houses : Nat)
    (desc : String) : Constraint :=
  { description := desc
    scope := some ((List.range' 1 num_houses).flatMap
      (fun i => [houseVar i cat_a, houseVar i cat_b]))
    predicate := some (fun a =>
      (List.range' 1 num_houses).all (fun i =>
        !(match List.lookup (houseVar i cat_a) a, List.lookup (houseVar i cat_b) a with
          | some x, some y => x == val_a && y != val_b
          | _, _ => false) &&
        !(match List.lookup (houseVar i cat_a) a, List.lookup (houseVar i cat_b) a with
          | some x, some y => y == val_b && x != val_a
          | _, _ => false))) }

/-- `_forbid_pair_same_house`. -/
def forbid_pair_same_house (cat_a val_a cat_b val_b : String) (num_houses : Nat)
    (desc : String) : Constraint :=
  { description := desc
    scope := some ((List.range' 1 num_houses).flatMap
      (fun i => [houseVar i cat_a, houseVar i cat_b]))
    predicate := some (fun a =>
      (List.range' 1 num_houses).all (fun i =>
        !(match List.lookup (houseVar i cat_a) a, List.lookup (houseVar i cat_b) a with
          | some x, some y => x == val_a && y == val_b
          | _, _ => false))) }

/-- `_adjacent_by_values`. -/
def adjacent_by_values (cat_a val_a cat_b val_b : String) (num_houses : Nat)
    (desc : String) : Constraint :=
  { description := desc
    scope := some ((List.range' 1 num_houses).flatMap
      (fun i => [houseVar i cat_a, houseVar i cat_b]))
    predicate := some (fun a =>
      match find_positions_in_assignment a cat_a val_a num_houses,
            find_positions_in_assignment a cat_b val_b num_houses with
      | some pa, some pb => (if pa ≥ pb then pa - pb else pb - pa) == 1
      | _, _ => true) }

/-- `_ordered_by_values`. -/
def ordered_by_values (cat_a val_a cat_b val_b : String) (num_houses : Nat)
    (desc : String) (direction : String) : Constraint :=
  { description := desc
    scope := some ((List.range' 1 num_houses).flatMap
      (fun i => [houseVar i cat_a, houseVar i cat_b]))
    predicate := some (fun a =>
      match find_positions_in_assignment a cat_a val_a num_houses,
            find_positions_in_assignment a cat_b val_b num_houses with
      | some pa, some pb => if direction = "left" then pa < pb else pb < pa
      | _, _ => true) }

/-- `_distance_by_values`. -/
def distance_by_values (cat_a val_a cat_b val_b : String) (num_houses : Nat)
    (dist : Nat) (desc : String) : Constraint :=
  { description := desc
    scope := some ((List.range' 1 num_houses).flatMap
      (fun i => [houseVar i cat_a, houseVar i cat_b]))
    predicate := some (fun a =>
      match find_positions_in_assignment a cat_a val_a num_houses,
            find_positions_in_assignment a cat_b val_b num_houses with
      | some pa, some pb => (if pa ≥ pb then pa - pb else pb - pa) == dist + 1
      | _, _ => true) }

/-! The clue templates, one `RE` per source pattern (groups numbered as
in the source; patterns compiled with `re.IGNORECASE` transcribe their
letter classes accordingly). -/

/-- `^House\s+(\d+)\s+is\s+(?:painted\s+)?([A-Za-z][A-Za-z\s-]*)$`, ci. -/
def reHousePainted : RE :=
  rseq [rstr true "House", rws1, .group 1 rdigits1, rws1, rstr true "is", rws1,
    .opt (rseq [rstr true "painted", rws1]),
    .group 2 (.seq (.cls pyAlpha) (.star (.cls (fun c => pyAlpha c || pyIsSpace c || c = '-')))),
    .dollar]

/-- `^([A-Z][a-z]+)\s+lives\s+in\s+house\s+(\d+)$`, case-sensitive. -/
def reLivesInHouse : RE :=
  rseq [.group 1 (.seq (.cls pyUpperAZ) (.seq (.cls pyLowerAZ) (.star (.cls pyLowerAZ)))),
    rws1, rstr false "lives", rws1, rstr false "in", rws1, rstr false "house", rws1,
    .group 2 rdigits1, .dollar]

/-- `^The\s+person\s+in\s+house\s+(\d+)\s+owns\s+the\s+(.+)$`, ci. -/
def rePersonOwns : RE :=
  rseq [rstr true "The", rws1, rstr true "person", rws1, rstr true "in", rws1,
    rstr true "house", rws1, .group 1 rdigits1, rws1, rstr true "owns", rws1,
    rstr true "the", rws1, .group 2 rdotPlus, .dollar]

/-- `^([A-Z][a-z]+)\s+lives\s+in\s+the\s+(.+)\s+house$`, ci (so both
letter classes match any letter). -/
def reLivesInThe : RE :=
  rseq [.group 1 (.seq (.cls pyAlpha) (.seq (.cls pyAlpha) (.star (.cls pyAlpha)))),
    rws1, rstr true "lives", rws1, rstr true "in", rws1, rstr true "the", rws1,
    .group 2 rdotPlus, rws1, rstr true "house", .dollar]

/-- `^The\s+(.+)\s+house\s+contains\s+the\s+(.+)$`, ci. -/
def reHouseContains : RE :=
  rseq [rstr true "The", rws1, .group 1 rdotPlus, rws1, rstr true "house", rws1,
    rstr true "contains", rws1, rstr true "the", rws1, .group 2 rdotPlus, .dollar]

/-- `^([A-Z][a-z]+)\s+does\s+not\s+live\s+in\s+the\s+(.+)\s+house$`, ci. -/
def reDoesNotLive : RE :=
  rseq [.group 1 (.seq (.cls pyAlpha) (.seq (.cls pyAlpha) (.star (.cls pyAlpha)))),
    rws1, rstr true "does", rws1, rstr true "not", rws1, rstr true "live", rws1,
    rstr true "in", rws1, rstr true "the", rws1, .group 2 rdotPlus, rws1,
    rstr true "house", .dollar]

/-- `^The\s+(.+)\s+house\s+is\s+immediately\s+to\s+the\s+left\s+of\s+the\s+(.+)\s+house$`, ci. -/
def reImmediatelyLeft : RE :=
  rseq [rstr true "The", rws1, .group 1 rdotPlus, rws1, rstr true "house", rws1,
    rstr true "is", rws1, rstr true "immediately", rws1, rstr true "to", rws1,
    rstr true "the", rws1, rstr true "left", rws1, rstr true "of", rws1,
    rstr true "the", rws1, .group 2 rdotPlus, rws1, rstr true "house", .dollar]

/-- `^([A-Z][a-z]+)\s+(owns|has|keeps)\s+the\s+(.+)$`, ci. -/
def reOwnership : RE :=
  rseq [.group 1 (.seq (.cls pyAlpha) (.seq (.cls pyAlpha) (.star (.cls pyAlpha)))),
    rws1, .group 2 (.alt (rstr true "owns") (.alt (rstr true "has") (rstr true "keeps"))),
    rws1, rstr true "the", rws1, .group 3 rdotPlus, .dollar]

/-- `^The\s+(.+)\s+belongs\s+to\s+([A-Z][a-z]+)$`, ci. -/
def reBelongsTo : RE :=
  rseq [rstr true "The", rws1, .group 1 rdotPlus, rws1, rstr true "belongs", rws1,
    rstr true "to", rws1,
    .group 2 (.seq (.cls pyAlpha) (.seq (.cls pyAlpha) (.star (.cls pyAlpha)))), .dollar]

/-- `^(?:The\s+)?(.+?)\s+(?:house\s+)?(?:lives\s+)?is\s+next\s+to\s+(?:the\s+)?(.+?)(?:\s+house)?$`, ci. -/
def reNextToA : RE :=
  rseq [.opt (rseq [rstr true "The", rws1]), .group 1 rdotPlusLazy, rws1,
    .opt (rseq [rstr true "house", rws1]), .opt (rseq [rstr true "lives", rws1]),
    rstr true "is", rws1, rstr true "next", rws1, rstr true "to", rws1,
    .opt (rseq [rstr true "the", rws1]), .group 2 rdotPlusLazy,
    .opt (rseq [rws1, rstr true "house"]), .dollar]

/-- `^(.+?)\s+lives\s+next\s+to\s+(?:the\s+)?(.+)$`, ci. -/
def reNextToB : RE :=
  rseq [.group 1 rdotPlusLazy, rws1, rstr true "lives", rws1, rstr true "next", rws1,
    rstr true "to", rws1, .opt (rseq [rstr true "the", rws1]), .group 2 rdotPlus, .dollar]

/-- `^The\s+(.+)\s+house\s+is\s+to\s+the\s+(left|right)\s+of\s+the\s+(.+)\s+house$`, ci. -/
def reToThe : RE :=
  rseq [rstr true "The", rws1, .group 1 rdotPlus, rws1, rstr true "house", rws1,
    rstr true "is", rws1, rstr true "to", rws1, rstr true "the", rws1,
    .group 2 (.alt (rstr true "left") (rstr true "right")), rws1, rstr true "of", rws1,
    rstr true "the", rws1, .group 3 rdotPlus, rws1, rstr true "house", .dollar]

/-- `^There\s+(?:is|are)\s+(\w+)\s+house(?:s)?\s+between\s+(.+)\s+and\s+(.+)$`, ci. -/
def reBetween : RE :=
  rseq [rstr true "There", rws1, .alt (rstr true "is") (rstr true "are"), rws1,
    .group 1 (.seq (.cls pyWord) (.star (.cls pyWord))), rws1, rstr true "house",
    .opt (rstr true "s"), rws1, rstr true "between", rws1, .group 2 rdotPlus, rws1,
    rstr true "and", rws1, .group 3 rdotPlus, .dollar]

/-- `re.fullmatch(r"[A-Z][a-z]+", s)` (no flags). -/
def isCapName (s : String) : Bool :=
  match s.toList with
  | [] => false
  | c :: rest => pyUpperAZ c && !rest.isEmpty && rest.all pyLowerAZ

/-- `_NUMBER_WORDS`. -/
def numberWords : List (String × Nat) :=
  [("one", 1), ("two", 2), ("three", 3), ("four", 4), ("five", 5),
   ("six", 6), ("seven", 7), ("eight", 8), ("nine", 9), ("ten", 10)]

/-- `int(token)` for a `\w+` token: digit runs, optionally separated by
single underscores, parse; anything else raises (caught, mapped to `None`). -/
def parseIntOpt (s : String) : Option Nat :=
  let cl := s.toList
  if cl ≠ [] ∧ cl.all (fun c => c.isDigit ∨ c = '_') ∧
      cl.head?.any Char.isDigit ∧ cl.getLast?.any Char.isDigit ∧
      (cl.zip cl.tail).all (fun p => !(p.1 = '_' && p.2 = '_')) then
    some (parseNatDigits (String.mk (cl.filter Char.isDigit)))
  else none

/-- Python truthiness of an optional-string lookup (`if cat:`). -/
def truthyS : Option String → Bool
  | some s => s ≠ ""
  | none => false

/-- Template 1: `House k is [painted] V`. -/
def clueT1 (t_clean : String) (categories : List (String × List String))
    (value_to_cat : List (String × String)) : Option (List Constraint) :=
  (reMatch reHousePainted t_clean).map (fun caps =>
    let k := parseNatDigits (capture 1 caps)
    let val := clean_value_phrase (capture 2 caps)
    let cat := if (List.lookup "Color" categories).isSome then "Color"
               else (List.lookup (normStr val) value_to_cat).getD "Color"
    [unary_equals (houseVar k cat) val t_clean])

/-- Template 2: `Name lives in house k` (case-sensitive). -/
def clueT2 (t_clean : String) : Option (List Constraint) :=
  (reMatch reLivesInHouse t_clean).map (fun caps =>
    let name := capture 1 caps
    let k := parseNatDigits (capture 2 caps)
    [unary_equals (houseVar k "Name") name t_clean])

/-- Template 3: `The person in house k owns the X` (falls through when
the value resolves to no category). -/
def clueT3 (t_clean : String) (value_to_cat : List (String × String)) :
    Option (List Constraint) :=
  (reMatch rePersonOwns t_clean).bind (fun caps =>
    let k := parseNatDigits (capture 1 caps)
    let val := clean_value_phrase (capture 2 caps)
    let cat := List.lookup (normStr val) value_to_cat
    if truthyS cat then some [unary_equals (houseVar k (cat.getD "")) val t_clean]
    else none)

/-- Template 4: `Name lives in the V house`. -/
def clueT4 (t_clean : String) (value_to_cat : List (String × String))
    (num_houses : Nat) : Option (List Constraint) :=
  (reMatch reLivesInThe t_clean).bind (fun caps =>
    let name := capture 1 caps
    let val := clean_value_phrase (capture 2 caps)
    let cat_val := List.lookup (normStr val) value_to_cat
    if truthyS cat_val then
      some [link_biimplication "Name" name (cat_val.getD "") val num_houses t_clean]
    else none)

/-- Template 5: `The A house contains the B`. -/
def clueT5 (t_clean : String) (value_to_cat : List (String × String))
    (num_houses : Nat) : Option (List Constraint) :=
  (reMatch reHouseContains t_clean).bind (fun caps =>
    let val_a := clean_value_phrase (capture 1 caps)
    let val_b := clean_value_phrase (capture 2 caps)
    let cat_a := List.lookup (normStr val_a) value_to_cat
    let cat_b := List.lookup (normStr val_b) value_to_cat
    if truthyS cat_a ∧ truthyS cat_b ∧ cat_a ≠ cat_b then
      some [link_biimplication (cat_a.getD "") val_a (cat_b.getD "") val_b num_houses t_clean]
    else none)

/-- Template 6: `Name does not live in the V house`. -/
def clueT6 (t_clean : String) (value_to_cat : List (String × String))
    (num_houses : Nat) : Option (List Constraint) :=
  (reMatch reDoesNotLive t_clean).bind (fun caps =>
    let name := capture 1 caps
    let val := clean_value_phrase (capture 2 caps)
    let cat_val := List.lookup (normStr val) value_to_cat
    if truthyS cat_val then
      some [forbid_pair_same_house "Name" name (cat_val.getD "") val num_houses t_clean]
    else none)

/-- Template 7: `The C1 house is immediately to the left of the C2 house`. -/
def clueT7 (t_clean : String) (value_to_cat : List (String × String))
    (num_houses : Nat) : Option (List Constraint) :=
  (reMatch reImmediatelyLeft t_clean).bind (fun caps =>
    let c1 := clean_value_phrase (capture 1 caps)
    let c2 := clean_value_phrase (capture 2 caps)
    if List.lookup (normStr c1) value_to_cat = some "Color" ∧
       List.lookup (normStr c2) value_to_cat = some "Color" then
      some [immediately_left_of_color c1 c2 num_houses t_clean]
    else none)

/-- Template 8: `Name owns/has/keeps the X`. -/
def clueT8 (t_clean : String) (value_to_cat : List (String × String))
    (num_houses : Nat) : Option (List Constraint) :=
  (reMatch reOwnership t_clean).bind (fun caps =>
    let name := capture 1 caps
    let val := clean_value_phrase (capture 3 caps)
    let cat := List.lookup (normStr val) value_to_cat
    if truthyS cat then
      some [link_biimplication "Name" name (cat.getD "") val num_houses t_clean]
    else none)

/-- Template 9: `The X belongs to Name`. -/
def clueT9 (t_clean : String) (value_to_cat : List (String × String))
    (num_houses : Nat) : Option (List Constraint) :=
  (reMatch reBelongsTo t_clean).bind (fun caps =>
    let val := clean_value_phrase (capture 1 caps)
    let name := capture 2 caps
    let cat := List.lookup (normStr val) value_to_cat
    if truthyS cat then
      some [link_biimplication (cat.getD "") val "Name" name num_houses t_clean]
    else none)

/-- The side-resolution of template 10: Name when a capitalised token
listed under `Name`, else the value index, else Name for a capitalised
token. -/
def resolveSide (s : String) (categories : List (String × List String))
    (value_to_cat : List (String × String)) : Option String :=
  let c0 : Option String :=
    if isCapName s ∧ s ∈ (List.lookup "Name" categories).getD []
    then some "Name" else List.lookup (normStr s) value_to_cat
  if c0 = none ∧ isCapName s then some "Name" else c0

/-- The two-pattern match attempt of template 10 (`if not m: m = re.match(…)`). -/
def nextToMatch (t_clean : String) : Option Caps :=
  match reMatch reNextToA t_clean with
  | some caps => some caps
  | none => reMatch reNextToB t_clean

/-- Template 10: adjacency (`… is next to …` / `… lives next to …`). -/
def clueT10 (t_clean : String) (categories : List (String × List String))
    (value_to_cat : List (String × String)) (num_houses : Nat) :
    Option (List Constraint) :=
  (nextToMatch t_clean).bind (fun caps =>
    let left := clean_value_phrase (capture 1 caps)
    let right := clean_value_phrase (capture 2 caps)
    let cat_left := resolveSide left categories value_to_cat
    let cat_right := resolveSide right categories value_to_cat
    if truthyS cat_left ∧ truthyS cat_right ∧ cat_left ≠ cat_right then
      some [adjacent_by_values (cat_left.getD "") left (cat_right.getD "") right
              num_houses t_clean]
    else none)

/-- Template 11: `The A house is to the left/right of the B house`. -/
def clueT11 (t_clean : String) (value_to_cat : List (String × String))
    (num_houses : Nat) : Option (List Constraint) :=
  (reMatch reToThe t_clean).bind (fun caps =>
    let a := clean_value_phrase (capture 1 caps)
    let direction := lowerStr (capture 2 caps)
    let b := clean_value_phrase (capture 3 caps)
    if List.lookup (normStr a) value_to_cat = some "Color" ∧
       List.lookup (normStr b) value_to_cat = some "Color" then
      some [ordered_by_values "Color" a "Color" b num_houses t_clean direction]
    else none)

/-- The distance token of template 12: number word, else `int(...)`. -/
def distOfToken (tok : String) : Option Nat :=
  match List.lookup tok numberWords with
  | some d => some d
  | none => parseIntOpt tok

/-- The side-resolution of template 12: Name for a capitalised token,
else the value index. -/
def resolveBetween (s : String) (value_to_cat : List (String × String)) :
    Option String :=
  if isCapName s then some "Name" else List.lookup (normStr s) value_to_cat

/-- Template 12: `There is/are N house(s) between X and Y`. -/
def clueT12 (t_clean : String) (value_to_cat : List (String × String))
    (num_houses : Nat) : Option (List Constraint) :=
  (reMatch reBetween t_clean).bind (fun caps =>
    match distOfToken (normStr (capture 1 caps)) with
    | none => none
    | some d =>
      let x := clean_value_phrase (capture 2 caps)
      let y := clean_value_phrase (capture 3 caps)
      let cat_x := resolveBetween x value_to_cat
      let cat_y := resolveBetween y value_to_cat
      if truthyS cat_x ∧ truthyS cat_y ∧ cat_x ≠ cat_y then
        some [distance_by_values (cat_x.getD "") x (cat_y.getD "") y num_houses d t_clean]
      else none)

/-- `_compile_clue`: the template cascade; an unresolved or unmatched
clue ends at the non-binding fallback constraint. -/
def compile_clue (clue_text : String) (categories : List (String × List String))
    (value_to_cat : List (String × String)) (num_houses : Nat) : List Constraint :=
  let t_clean := strip_punct (pyStrip clue_text)
  match clueT1 t_clean categories value_to_cat with
  | some cs => cs
  | none =>
  match clueT2 t_clean with
  | some cs => cs
  | none =>
  match clueT3 t_clean value_to_cat with
  | some cs => cs
  | none =>
  match clueT4 t_clean value_to_cat num_houses with
  | some cs => cs
  | none =>
  match clueT5 t_clean value_to_cat num_houses with
  | some cs => cs
  | none =>
  match clueT6 t_clean value_to_cat num_houses with
  | some cs => cs
  | none =>
  match clueT7 t_clean value_to_cat num_houses with
  | some cs => cs
  | none =>
  match clueT8 t_clean value_to_cat num_houses with
  | some cs => cs
  | none =>
  match clueT9 t_clean value_to_cat num_houses with
  | some cs => cs
  | none =>
  match clueT10 t_clean categories value_to_cat num_houses with
  | some cs => cs
  | none =>
  match clueT11 t_clean value_to_cat num_houses with
  | some cs => cs
  | none =>
  match clueT12 t_clean value_to_cat num_houses with
  | some cs => cs
  | none => [Constraint.make t_clean none none]

/-- `parse_puzzle`, step 3½: ensure a `Name` category (inserted at the
end of the dict when missing). -/
def ensureName (categories : List (String × List String)) (inferred : List String) :
    List (String × List String) :=
  if (List.lookup "Name" categories).isSome then categories
  else categories ++ [("Name", inferred)]

/-- `parse_puzzle`, step 4: one variable per house and category
(house-major, category order), each with the category's value set. -/
def parseVars (num_houses : Nat) (categories : List (String × List String)) :
    List Variable :=
  (List.range' 1 num_houses).flatMap (fun i =>
    categories.map (fun p => Variable.mk (houseVar i p.1) p.2.dedup))

/-- `parse_puzzle`, step 5a: one AllDiff constraint per category. -/
def parseAlldiffs (num_houses : Nat) (categories : List (String × List String)) :
    List Constraint :=
  categories.map (fun p =>
    let scope_vars := (List.range' 1 num_houses).map (fun i => houseVar i p.1)
    { description := "AllDiff(" ++ p.1 ++ ")"
      scope := some scope_vars
      predicate := some (alldiff_pred scope_vars) })

/-- `parse_puzzle` from its structured stage on: `num_houses`, the
extracted category dict, the inferred name list and the extracted clue
lines are its inputs; variables, the AllDiff constraints, then the
compiled clues; `CSP(...)` may raise. -/
def parse_puzzle_core (num_houses : Nat) (categories0 : List (String × List String))
    (inferred_names : List String) (clues : List String) : Except String CSP :=
  let categories := ensureName categories0 inferred_names
  let value_to_cat := build_value_index categories
  let clueCons := clues.flatMap (fun c => compile_clue c categories value_to_cat num_houses)
  CSP.make (parseVars num_houses categories) (parseAlldiffs num_houses categories ++ clueCons)

/-! ## Claim C4: the `House k is [painted] V` template -/

/-- C4 (amended).  A clue matching the `House k is [painted] V` template
compiles to the single unary equality on `House_k_cat`, where `cat` is
`Color` whenever a `Color` category is declared — regardless of which
category `V` resolves to — and is otherwise `V`'s resolved category,
defaulting to `Color` when unresolved. -/
theorem claim_C4_house_is_value {t : String} {categories : List (String × List String)}
    {vtc : List (String × String)} {H k : Nat} {caps : Caps} {val cat : String}
    (hm : reMatch reHousePainted (strip_punct (pyStrip t)) = some caps)
    (hk : parseNatDigits (capture 1 caps) = k)
    (hval : clean_value_phrase (capture 2 caps) = val)
    (hcat : (if (List.lookup "Color" categories).isSome then "Color"
             else (List.lookup (normStr val) vtc).getD "Color") = cat) :
    compile_clue t categories vtc H =
      [unary_equals (houseVar k cat) val (strip_punct (pyStrip t))] := by
  simp only [compile_clue, clueT1, hm, Option.map_some']
  rw [hk, hval, hcat]

/-- C4 (counterexample to the literal claim).  `dog` resolves to `Pet` in
the value index, yet because a `Color` category is declared the clue
`House 1 is dog` compiles to an equality scoped on `House_1_Color` (not
`House_1_Pet`), and the emitted constraint rejects the assignment that
actually places the dog as the pet of house 1. -/
theorem claim_C4_counterexample :
    List.lookup (normStr "dog")
        (build_value_index [("Color", ["red"]), ("Pet", ["dog"])]) = some "Pet" ∧
    (compile_clue "House 1 is dog." [("Color", ["red"]), ("Pet", ["dog"])]
        (build_value_index [("Color", ["red"]), ("Pet", ["dog"])]) 2).map
      (fun c => c.scope) = [some ["House_1_Color"]] ∧
    (compile_clue "House 1 is dog." [("Color", ["red"]), ("Pet", ["dog"])]
        (build_value_index [("Color", ["red"]), ("Pet", ["dog"])]) 2).all
      (fun c => c.is_satisfied [("House_1_Color", "red"), ("House_1_Pet", "dog")]) =
      false :=
  ⟨rfl, rfl, rfl⟩

/-- C4 witness: the amended theorem applied to a concrete clue. -/
theorem claim_C4_house_is_value_witness :
    compile_clue "House 2 is painted red." [("Color", ["red"])]
        (build_value_index [("Color", ["red"])]) 3 =
      [unary_equals (houseVar 2 "Color") "red" "House 2 is painted red"] :=
  claim_C4_house_is_value rfl rfl rfl rfl

/-! ## Claim C5: scope variables of a compiled puzzle -/

theorem lookup_mem {β : Type} {l : List (String × β)} {k : String} {v : β}
    (h : List.lookup k l = some v) : (k, v) ∈ l := by
  induction l with
  | nil => cases h
  | cons p rest ih =>
    obtain ⟨k', v'⟩ := p
    rw [pylookup_cons] at h
    by_cases hk : k = k'
    · rw [if_pos hk] at h
      injection h with h
      rw [hk, h]
      exact List.mem_cons_self _ _
    · rw [if_neg hk] at h
      exact List.mem_cons_of_mem _ (ih h)

theorem make_ok {vs : List Variable} {cs : List Constraint} {csp : CSP}
    (h : CSP.make vs cs = .ok csp) :
    csp = ⟨vs, cs⟩ ∧ (vs.map Variable.name).Nodup := by
  rw [CSP.make] at h
  by_cases hd : (vs.map Variable.name).dedup.length ≠ (vs.map Variable.name).length
  · rw [if_pos hd] at h
    cases h
  · rw [if_neg hd] at h
    injection h with h
    push_neg at hd
    exact ⟨h.symm, (dedup_length_eq_iff _).mp hd⟩

theorem mem_parseVars_names {H : Nat} {cats : List (String × List String)} {i : Nat}
    {cat : String} (hi : i ∈ List.range' 1 H) (hcat : cat ∈ cats.map Prod.fst) :
    houseVar i cat ∈ (parseVars H cats).map Variable.name := by
  obtain ⟨p, hp, hpe⟩ := List.mem_map.mp hcat
  refine List.mem_map.mpr ⟨Variable.mk (houseVar i cat) p.2.dedup, ?_, rfl⟩
  rw [parseVars]
  refine List.mem_flatMap.mpr ⟨i, hi, ?_⟩
  refine List.mem_map.mpr ⟨p, hp, ?_⟩
  rw [hpe]

theorem bvi_inner_snd (cat : String) :
    ∀ (vals : List String) (acc : List (String × String)) (q : String × String),
      q ∈ vals.foldl (fun idx v =>
        if (List.lookup (normStr v) idx).isSome then idx
        else idx ++ [(normStr v, cat)]) acc →
      q ∈ acc ∨ q.2 = cat := by
  intro vals
  induction vals with
  | nil => intro acc q hq; exact Or.inl hq
  | cons v vs ih =>
    intro acc q hq
    rw [List.foldl_cons] at hq
    rcases ih _ q hq with h | h
    · by_cases hs : (List.lookup (normStr v) acc).isSome
      · rw [if_pos hs] at h
        exact Or.inl h
      · rw [if_neg hs] at h
        rcases List.mem_append.mp h with h | h
        · exact Or.inl h
        · right
          have : q = (normStr v, cat) := by simpa using h
          rw [this]
    · exact Or.inr h

theorem bvi_outer :
    ∀ (cats : List (String × List String)) (acc : List (String × String))
      (q : String × String),
      q ∈ cats.foldl (fun idx p => p.2.foldl (fun idx v =>
        if (List.lookup (normStr v) idx).isSome then idx
        else idx ++ [(normStr v, p.1)]) idx) acc →
      q ∈ acc ∨ q.2 ∈ cats.map Prod.fst := by
  intro cats
  induction cats with
  | nil => intro acc q hq; exact Or.inl hq
  | cons p ps ih =>
    intro acc q hq
    rw [List.foldl_cons] at hq
    rcases ih _ q hq with h | h
    · rcases bvi_inner_snd p.1 p.2 acc q h with h | h
      · exact Or.inl h
      · right
        rw [List.map_cons, h]
        exact List.mem_cons_self _ _
    · right
      rw [List.map_cons]
      exact List.mem_cons_of_mem _ h

theorem build_value_index_mem_keys {cats : List (String × List String)} {k v : String}
    (h : List.lookup k (build_value_index cats) = some v) : v ∈ cats.map Prod.fst := by
  have hm : (k, v) ∈ build_value_index cats := lookup_mem h
  rw [build_value_index] at hm
  rcases bvi_outer cats [] (k, v) hm with h' | h'
  · cases h'
  · exact h'

theorem ensureName_name (cats0 : List (String × List String)) (inferred : List String) :
    "Name" ∈ (ensureName cats0 inferred).map Prod.fst := by
  rw [ensureName]
  by_cases hs : (List.lookup "Name" cats0).isSome
  · rw [if_pos hs]
    obtain ⟨v, hv⟩ := Option.isSome_iff_exists.mp hs
    exact List.mem_map.mpr ⟨("Name", v), lookup_mem hv, rfl⟩
  · rw [if_neg hs, List.map_append]
    refine List.mem_append.mpr (Or.inr ?_)
    simp

theorem pair_scope_sub {H : Nat} {cats : List (String × List String)} {ca cb : String}
    (hca : ca ∈ cats.map Prod.fst) (hcb : cb ∈ cats.map Prod.fst) :
    ∀ v ∈ (List.range' 1 H).flatMap (fun i => [houseVar i ca, houseVar i cb]),
      v ∈ (parseVars H cats).map Variable.name := by
  intro v hv
  obtain ⟨i, hi, hvm⟩ := List.mem_flatMap.mp hv
  rcases List.mem_cons.mp hvm with h | h
  · rw [h]
    exact mem_parseVars_names hi hca
  · rw [List.mem_singleton] at h
    rw [h]
    exact mem_parseVars_names hi hcb

theorem map_scope_sub {H : Nat} {cats : List (String × List String)} {cat : String}
    (hcat : cat ∈ cats.map Prod.fst) :
    ∀ v ∈ (List.range' 1 H).map (fun i => houseVar i cat),
      v ∈ (parseVars H cats).map Variable.name := by
  intro v hv
  obtain ⟨i, hi, hvm⟩ := List.mem_map.mp hv
  rw [← hvm]
  exact mem_parseVars_names hi hcat

theorem clueT1_shape {t : String} {cats : List (String × List String)}
    {vtc : List (String × String)} {cs : List Constraint}
    (h : clueT1 t cats vtc = some cs) :
    ∃ k cat val, cs = [unary_equals (houseVar k cat) val t] := by
  rw [clueT1] at h
  cases hm : reMatch reHousePainted t with
  | none => rw [hm] at h; cases h
  | some caps =>
    rw [hm] at h
    simp only [Option.map_some'] at h
    injection h with h
    exact ⟨_, _, _, h.symm⟩

theorem clueT2_shape {t : String} {cs : List Constraint}
    (h : clueT2 t = some cs) :
    ∃ k name, cs = [unary_equals (houseVar k "Name") name t] := by
  rw [clueT2] at h
  cases hm : reMatch reLivesInHouse t with
  | none => rw [hm] at h; cases h
  | some caps =>
    rw [hm] at h
    simp only [Option.map_some'] at h
    injection h with h
    exact ⟨_, _, h.symm⟩

theorem clueT3_shape {t : String} {vtc : List (String × String)} {cs : List Constraint}
    (h : clueT3 t vtc = some cs) :
    ∃ k cat val, cs = [unary_equals (houseVar k cat) val t] := by
  rw [clueT3] at h
  cases hm : reMatch rePersonOwns t with
  | none => rw [hm] at h; cases h
  | some caps =>
    rw [hm] at h
    simp only [Option.some_bind] at h
    split at h
    · injection h with h
      exact ⟨_, _, _, h.symm⟩
    · cases h

theorem clueT4_shape {t : String} {vtc : List (String × String)} {H : Nat}
    {cs : List Constraint} (h : clueT4 t vtc H = some cs) :
    ∃ catv name val, List.lookup (normStr val) vtc = some catv ∧
      cs = [link_biimplication "Name" name catv val H t] := by
  rw [clueT4] at h
  cases hm : reMatch reLivesInThe t with
  | none => rw [hm] at h; cases h
  | some caps =>
    rw [hm] at h
    simp only [Option.some_bind] at h
    by_cases hcond : truthyS (List.lookup (normStr (clean_value_phrase (capture 2 caps))) vtc)
        = true
    · rw [if_pos hcond] at h
      injection h with h
      cases hl : List.lookup (normStr (clean_value_phrase (capture 2 caps))) vtc with
      | none => rw [hl] at hcond; simp [truthyS] at hcond
      | some catv =>
        refine ⟨catv, capture 1 caps, clean_value_phrase (capture 2 caps), hl, ?_⟩
        rw [← h, hl]
        rfl
    · rw [if_neg hcond] at h
      cases h

theorem clueT5_shape {t : String} {vtc : List (String × String)} {H : Nat}
    {cs : List Constraint} (h : clueT5 t vtc H = some cs) :
    ∃ ca cb va vb, List.lookup (normStr va) vtc = some ca ∧
      List.lookup (normStr vb) vtc = some cb ∧
      cs = [link_biimplication ca va cb vb H t] := by
  rw [clueT5] at h
  cases hm : reMatch reHouseContains t with
  | none => rw [hm] at h; cases h
  | some caps =>
    rw [hm] at h
    simp only [Option.some_bind] at h
    split at h
    · rename_i hcond
      obtain ⟨ha, hb, _⟩ := hcond
      injection h with h
      cases hla : List.lookup (normStr (clean_value_phrase (capture 1 caps))) vtc with
      | none => rw [hla] at ha; simp [truthyS] at ha
      | some ca =>
        cases hlb : List.lookup (normStr (clean_value_phrase (capture 2 caps))) vtc with
        | none => rw [hlb] at hb; simp [truthyS] at hb
        | some cb =>
          refine ⟨ca, cb, _, _, hla, hlb, ?_⟩
          rw [← h, hla, hlb]
          rfl
    · cases h

theorem clueT6_shape {t : String} {vtc : List (String × String)} {H : Nat}
    {cs : List Constraint} (h : clueT6 t vtc H = some cs) :
    ∃ catv name val, List.lookup (normStr val) vtc = some catv ∧
      cs = [forbid_pair_same_house "Name" name catv val H t] := by
  rw [clueT6] at h
  cases hm : reMatch reDoesNotLive t with
  | none => rw [hm] at h; cases h
  | some caps =>
    rw [hm] at h
    simp only [Option.some_bind] at h
    by_cases hcond : truthyS (List.lookup (normStr (clean_value_phrase (capture 2 caps))) vtc)
        = true
    · rw [if_pos hcond] at h
      injection h with h
      cases hl : List.lookup (normStr (clean_value_phrase (capture 2 caps))) vtc with
      | none => rw [hl] at hcond; simp [truthyS] at hcond
      | some catv =>
        refine ⟨catv, capture 1 caps, clean_value_phrase (capture 2 caps), hl, ?_⟩
        rw [← h, hl]
        rfl
    · rw [if_neg hcond] at h
      cases h

theorem clueT7_shape {t : String} {vtc : List (String × String)} {H : Nat}
    {cs : List Constraint} (h : clueT7 t vtc H = some cs) :
    ∃ c1 c2, List.lookup (normStr c1) vtc = some "Color" ∧
      cs = [immediately_left_of_color c1 c2 H t] := by
  rw [clueT7] at h
  cases hm : reMatch reImmediatelyLeft t with
  | none => rw [hm] at h; cases h
  | some caps =>
    rw [hm] at h
    simp only [Option.some_bind] at h
    split at h
    · rename_i hcond
      injection h with h
      exact ⟨_, _, hcond.1, h.symm⟩
    · cases h

theorem clueT8_shape {t : String} {vtc : List (String × String)} {H : Nat}
    {cs : List Constraint} (h : clueT8 t vtc H = some cs) :
    ∃ cat name val, List.lookup (normStr val) vtc = some cat ∧
      cs = [link_biimplication "Name" name cat val H t] := by
  rw [clueT8] at h
  cases hm : reMatch reOwnership t with
  | none => rw [hm] at h; cases h
  | some caps =>
    rw [hm] at h
    simp only [Option.some_bind] at h
    by_cases hcond : truthyS (List.lookup (normStr (clean_value_phrase (capture 3 caps))) vtc)
        = true
    · rw [if_pos hcond] at h
      injection h with h
      cases hl : List.lookup (normStr (clean_value_phrase (capture 3 caps))) vtc with
      | none => rw [hl] at hcond; simp [truthyS] at hcond
      | some cat =>
        refine ⟨cat, capture 1 caps, clean_value_phrase (capture 3 caps), hl, ?_⟩
        rw [← h, hl]
        rfl
    · rw [if_neg hcond] at h
      cases h

theorem clueT9_shape {t : String} {vtc : List (String × String)} {H : Nat}
    {cs : List Constraint} (h : clueT9 t vtc H = some cs) :
    ∃ cat name val, List.lookup (normStr val) vtc = some cat ∧
      cs = [link_biimplication cat val "Name" name H t] := by
  rw [clueT9] at h
  cases hm : reMatch reBelongsTo t with
  | none => rw [hm] at h; cases h
  | some caps =>
    rw [hm] at h
    simp only [Option.some_bind] at h
    by_cases hcond : truthyS (List.lookup (normStr (clean_value_phrase (capture 1 caps))) vtc)
        = true
    · rw [if_pos hcond] at h
      injection h with h
      cases hl : List.lookup (normStr (clean_value_phrase (capture 1 caps))) vtc with
      | none => rw [hl] at hcond; simp [truthyS] at hcond
      | some cat =>
        refine ⟨cat, capture 2 caps, clean_value_phrase (capture 1 caps), hl, ?_⟩
        rw [← h, hl]
        rfl
    · rw [if_neg hcond] at h
      cases h

theorem resolveSide_shape {s : String} {cats : List (String × List String)}
    {vtc : List (String × String)} {c : String}
    (h : resolveSide s cats vtc = some c) :
    c = "Name" ∨ List.lookup (normStr s) vtc = some c := by
  rw [resolveSide] at h
  by_cases h0 : isCapName s = true ∧ s ∈ (List.lookup "Name" cats).getD []
  · rw [if_pos h0] at h
    split at h
    · rename_i hcond
      rw [hcond.1] at h
      cases h
    · injection h with h
      exact Or.inl h.symm
  · rw [if_neg h0] at h
    split at h
    · injection h with h
      exact Or.inl h.symm
    · exact Or.inr h

theorem clueT10_shape {t : String} {cats : List (String × List String)}
    {vtc : List (String × String)} {H : Nat} {cs : List Constraint}
    (h : clueT10 t cats vtc H = some cs) :
    ∃ cl cr l r, (cl = "Name" ∨ List.lookup (normStr l) vtc = some cl) ∧
      (cr = "Name" ∨ List.lookup (normStr r) vtc = some cr) ∧
      cs = [adjacent_by_values cl l cr r H t] := by
  rw [clueT10] at h
  cases hm : nextToMatch t with
  | none => rw [hm] at h; cases h
  | some caps =>
    rw [hm] at h
    simp only [Option.some_bind] at h
    split at h
    · rename_i hcond
      obtain ⟨hl, hr, _⟩ := hcond
      injection h with h
      cases hrl : resolveSide (clean_value_phrase (capture 1 caps)) cats vtc with
      | none => rw [hrl] at hl; simp [truthyS] at hl
      | some cl =>
        cases hrr : resolveSide (clean_value_phrase (capture 2 caps)) cats vtc with
        | none => rw [hrr] at hr; simp [truthyS] at hr
        | some cr =>
          refine ⟨cl, cr, _, _, resolveSide_shape hrl, resolveSide_shape hrr, ?_⟩
          rw [← h, hrl, hrr]
          rfl
    · cases h

theorem clueT11_shape {t : String} {vtc : List (String × String)} {H : Nat}
    {cs : List Constraint} (h : clueT11 t vtc H = some cs) :
    ∃ a b dir, List.lookup (normStr a) vtc = some "Color" ∧
      cs = [ordered_by_values "Color" a "Color" b H t dir] := by
  rw [clueT11] at h
  cases hm : reMatch reToThe t with
  | none => rw [hm] at h; cases h
  | some caps =>
    rw [hm] at h
    simp only [Option.some_bind] at h
    split at h
    · rename_i hcond
      injection h with h
      exact ⟨_, _, _, hcond.1, h.symm⟩
    · cases h

theorem resolveBetween_shape {s : String} {vtc : List (String × String)} {c : String}
    (h : resolveBetween s vtc = some c) :
    c = "Name" ∨ List.lookup (normStr s) vtc = some c := by
  rw [resolveBetween] at h
  split at h
  · injection h with h
    exact Or.inl h.symm
  · exact Or.inr h

theorem clueT12_shape {t : String} {vtc : List (String × String)} {H : Nat}
    {cs : List Constraint} (h : clueT12 t vtc H = some cs) :
    ∃ cx cy x y d, (cx = "Name" ∨ List.lookup (normStr x) vtc = some cx) ∧
      (cy = "Name" ∨ List.lookup (normStr y) vtc = some cy) ∧
      cs = [distance_by_values cx x cy y H d t] := by
  rw [clueT12] at h
  cases hm : reMatch reBetween t with
  | none => rw [hm] at h; cases h
  | some caps =>
    rw [hm] at h
    simp only [Option.some_bind] at h
    cases hd : distOfToken (normStr (capture 1 caps)) with
    | none => rw [hd] at h; cases h
    | some d =>
      simp only [hd] at h
      split at h
      · rename_i hcond
        obtain ⟨hx, hy, _⟩ := hcond
        injection h with h
        cases hlx : resolveBetween (clean_value_phrase (capture 2 caps)) vtc with
        | none => rw [hlx] at hx; simp [truthyS] at hx
        | some cx =>
          cases hly : resolveBetween (clean_value_phrase (capture 3 caps)) vtc with
          | none => rw [hly] at hy; simp [truthyS] at hy
          | some cy =>
            refine ⟨cx, cy, _, _, d, resolveBetween_shape hlx, resolveBetween_shape hly, ?_⟩
            rw [← h, hlx, hly]
            rfl
      · cases h

theorem compile_clue_scope {H : Nat} {cats : List (String × List String)}
    {vtc : List (String × String)} {clue : String} {c : Constraint}
    (hvtc : ∀ k v, List.lookup k vtc = some v → v ∈ cats.map Prod.fst)
    (hname : "Name" ∈ cats.map Prod.fst)
    (hc : c ∈ compile_clue clue cats vtc H) :
    c.predicate = none ∨
    (∃ k cat, c.scope = some [houseVar k cat]) ∨
    (∀ v ∈ scopeList c.scope, v ∈ (parseVars H cats).map Variable.name) := by
  simp only [compile_clue] at hc
  cases h1 : clueT1 (strip_punct (pyStrip clue)) cats vtc with
  | some cs =>
    simp only [h1] at hc
    obtain ⟨k, cat, val, hcs⟩ := clueT1_shape h1
    subst hcs
    rw [List.mem_singleton] at hc
    subst hc
    exact Or.inr (Or.inl ⟨k, cat, rfl⟩)
  | none =>
  simp only [h1] at hc
  cases h2 : clueT2 (strip_punct (pyStrip clue)) with
  | some cs =>
    simp only [h2] at hc
    obtain ⟨k, name, hcs⟩ := clueT2_shape h2
    subst hcs
    rw [List.mem_singleton] at hc
    subst hc
    exact Or.inr (Or.inl ⟨k, "Name", rfl⟩)
  | none =>
  simp only [h2] at hc
  cases h3 : clueT3 (strip_punct (pyStrip clue)) vtc with
  | some cs =>
    simp only [h3] at hc
    obtain ⟨k, cat, val, hcs⟩ := clueT3_shape h3
    subst hcs
    rw [List.mem_singleton] at hc
    subst hc
    exact Or.inr (Or.inl ⟨k, cat, rfl⟩)
  | none =>
  simp only [h3] at hc
  cases h4 : clueT4 (strip_punct (pyStrip clue)) vtc H with
  | some cs =>
    simp only [h4] at hc
    obtain ⟨catv, name, val, hl, hcs⟩ := clueT4_shape h4
    subst hcs
    rw [List.mem_singleton] at hc
    subst hc
    exact Or.inr (Or.inr (pair_scope_sub hname (hvtc _ _ hl)))
  | none =>
  simp only [h4] at hc
  cases h5 : clueT5 (strip_punct (pyStrip clue)) vtc H with
  | some cs =>
    simp only [h5] at hc
    obtain ⟨ca, cb, va, vb, hla, hlb, hcs⟩ := clueT5_shape h5
    subst hcs
    rw [List.mem_singleton] at hc
    subst hc
    exact Or.inr (Or.inr (pair_scope_sub (hvtc _ _ hla) (hvtc _ _ hlb)))
  | none =>
  simp only [h5] at hc
  cases h6 : clueT6 (strip_punct (pyStrip clue)) vtc H with
  | some cs =>
    simp only [h6] at hc
    obtain ⟨catv, name, val, hl, hcs⟩ := clueT6_shape h6
    subst hcs
    rw [List.mem_singleton] at hc
    subst hc
    exact Or.inr (Or.inr (pair_scope_sub hname (hvtc _ _ hl)))
  | none =>
  simp only [h6] at hc
  cases h7 : clueT7 (strip_punct (pyStrip clue)) vtc H with
  | some cs =>
    simp only [h7] at hc
    obtain ⟨c1, c2, hl, hcs⟩ := clueT7_shape h7
    subst hcs
    rw [List.mem_singleton] at hc
    subst hc
    exact Or.inr (Or.inr (map_scope_sub (hvtc _ _ hl)))
  | none =>
  simp only [h7] at hc
  cases h8 : clueT8 (strip_punct (pyStrip clue)) vtc H with
  | some cs =>
    simp only [h8] at hc
    obtain ⟨cat, name, val, hl, hcs⟩ := clueT8_shape h8
    subst hcs
    rw [List.mem_singleton] at hc
    subst hc
    exact Or.inr (Or.inr (pair_scope_sub hname (hvtc _ _ hl)))
  | none =>
  simp only [h8] at hc
  cases h9 : clueT9 (strip_punct (pyStrip clue)) vtc H with
  | some cs =>
    simp only [h9] at hc
    obtain ⟨cat, name, val, hl, hcs⟩ := clueT9_shape h9
    subst hcs
    rw [List.mem_singleton] at hc
    subst hc
    exact Or.inr (Or.inr (pair_scope_sub (hvtc _ _ hl) hname))
  | none =>
  simp only [h9] at hc
  cases h10 : clueT10 (strip_punct (pyStrip clue)) cats vtc H with
  | some cs =>
    simp only [h10] at hc
    obtain ⟨cl, cr, l, r, hcl, hcr, hcs⟩ := clueT10_shape h10
    subst hcs
    rw [List.mem_singleton] at hc
    subst hc
    have hclk : cl ∈ cats.map Prod.fst := by
      rcases hcl with h | h
      · rw [h]; exact hname
      · exact hvtc _ _ h
    have hcrk : cr ∈ cats.map Prod.fst := by
      rcases hcr with h | h
      · rw [h]; exact hname
      · exact hvtc _ _ h
    exact Or.inr (Or.inr (pair_scope_sub hclk hcrk))
  | none =>
  simp only [h10] at hc
  cases h11 : clueT11 (strip_punct (pyStrip clue)) vtc H with
  | some cs =>
    simp only [h11] at hc
    obtain ⟨a, b, dir, hl, hcs⟩ := clueT11_shape h11
    subst hcs
    rw [List.mem_singleton] at hc
    subst hc
    exact Or.inr (Or.inr (pair_scope_sub (hvtc _ _ hl) (hvtc _ _ hl)))
  | none =>
  simp only [h11] at hc
  cases h12 : clueT12 (strip_punct (pyStrip clue)) vtc H with
  | some cs =>
    simp only [h12] at hc
    obtain ⟨cx, cy, x, y, d, hx, hy, hcs⟩ := clueT12_shape h12
    subst hcs
    rw [List.mem_singleton] at hc
    subst hc
    have hxk : cx ∈ cats.map Prod.fst := by
      rcases hx with h | h
      · rw [h]; exact hname
      · exact hvtc _ _ h
    have hyk : cy ∈ cats.map Prod.fst := by
      rcases hy with h | h
      · rw [h]; exact hname
      · exact hvtc _ _ h
    exact Or.inr (Or.inr (pair_scope_sub hxk hyk))
  | none =>
  simp only [h12] at hc
  rw [List.mem_singleton] at hc
  subst hc
  exact Or.inl rfl

/-- C5 (amended).  In a compiled puzzle, every constraint either is the
non-binding fallback (predicate `None`), or is a clue-derived unary
equality on one `House_k_cat` variable — which exists whenever its house
index is in range and its category is declared — or has every scope
variable among the CSP's variables. -/
theorem claim_C5_scope_vars_exist {H : Nat} {cats0 : List (String × List String)}
    {inferred : List String} {clues : List String} {csp : CSP} {c : Constraint}
    (hp : parse_puzzle_core H cats0 inferred clues = .ok csp)
    (hc : c ∈ csp.constraints) :
    c.predicate = none ∨
    (∃ k cat, c.scope = some [houseVar k cat] ∧
      (k ∈ List.range' 1 H → cat ∈ (ensureName cats0 inferred).map Prod.fst →
        houseVar k cat ∈ csp.variable_names)) ∨
    (∀ v ∈ scopeList c.scope, v ∈ csp.variable_names) := by
  simp only [parse_puzzle_core] at hp
  obtain ⟨hcsp, hnodup⟩ := make_ok hp
  subst hcsp
  rw [CSP.variable_names]
  rcases List.mem_append.mp hc with hmem | hmem
  · obtain ⟨p, hp', hpe⟩ := List.mem_map.mp hmem
    refine Or.inr (Or.inr ?_)
    rw [← hpe]
    exact map_scope_sub (List.mem_map.mpr ⟨p, hp', rfl⟩)
  · obtain ⟨clue, hclue, hcc⟩ := List.mem_flatMap.mp hmem
    have hmain := compile_clue_scope
      (fun k v h => build_value_index_mem_keys h)
      (ensureName_name cats0 inferred) hcc
    rcases hmain with h | h | h
    · exact Or.inl h
    · obtain ⟨k, cat, hsc⟩ := h
      exact Or.inr (Or.inl ⟨k, cat, hsc, fun hk hcat => mem_parseVars_names hk hcat⟩)
    · exact Or.inr (Or.inr h)

/-- The compiled two-house puzzle whose only clue points at house 3. -/
def cspC5 : CSP :=
  match parse_puzzle_core 2 [("Color", ["red", "blue"])] ["Alice", "Bob"]
      ["House 3 is red."] with
  | .ok c => c
  | .error _ => ⟨[], []⟩

/-- C5 (counterexample to the literal claim).  Compiling a two-house
puzzle with the clue `House 3 is red` succeeds and yields a constraint
scoped on `House_3_Color`, a variable the CSP does not have. -/
theorem claim_C5_counterexample :
    parse_puzzle_core 2 [("Color", ["red", "blue"])] ["Alice", "Bob"]
        ["House 3 is red."] = .ok cspC5 ∧
    (cspC5.constraints.map (fun c => c.scope)).getLast? =
      some (some ["House_3_Color"]) ∧
    "House_3_Color" ∉ cspC5.variable_names :=
  ⟨rfl, rfl, by decide⟩

/-- C5 witness: the amended theorem applied to the third constraint of a
concretely compiled puzzle. -/
theorem claim_C5_scope_vars_exist_witness :
    (cspC5.constraints.get ⟨2, by decide⟩).predicate = none ∨
    (∃ k cat, (cspC5.constraints.get ⟨2, by decide⟩).scope = some [houseVar k cat] ∧
      (k ∈ List.range' 1 2 →
        cat ∈ (ensureName [("Color", ["red", "blue"])] ["Alice", "Bob"]).map Prod.fst →
        houseVar k cat ∈ cspC5.variable_names)) ∨
    (∀ v ∈ scopeList (cspC5.constraints.get ⟨2, by decide⟩).scope,
      v ∈ cspC5.variable_names) :=
  claim_C5_scope_vars_exist rfl (List.get_mem _ _ _)

/-! ## Claim C2: per-category values of a returned assignment -/

/-- A Python dict never holds two bindings of one key; the search only
inserts fresh keys, so its assignments satisfy this invariant. -/
def KeysNodup (a : Assignment) : Prop := (a.map Prod.fst).Nodup

theorem not_mem_keys_of_lookup_none {a : Assignment} {k : String}
    (h : List.lookup k a = none) : k ∉ a.map Prod.fst := by
  induction a with
  | nil => simp
  | cons p rest ih =>
    obtain ⟨k', v'⟩ := p
    rw [pylookup_cons] at h
    by_cases hk : k = k'
    · rw [if_pos hk] at h
      cases h
    · rw [if_neg hk] at h
      rw [List.map_cons]
      intro hmem
      rcases List.mem_cons.mp hmem with hm | hm
      · exact hk hm
      · exact ih h hm

theorem keys_dinsert_sub {k v : String} :
    ∀ (a : Assignment) (x : String), x ∈ (dinsert k v a).map Prod.fst →
      x = k ∨ x ∈ a.map Prod.fst := by
  intro a
  induction a with
  | nil =>
    intro x hx
    simp [dinsert] at hx
    exact Or.inl hx
  | cons p rest ih =>
    obtain ⟨k', v'⟩ := p
    intro x hx
    rw [dinsert] at hx
    by_cases h1 : k = k'
    · rw [if_pos h1] at hx
      rw [List.map_cons] at hx
      rcases List.mem_cons.mp hx with hm | hm
      · exact Or.inl hm
      · exact Or.inr (by rw [List.map_cons]; exact List.mem_cons_of_mem _ hm)
    · rw [if_neg h1] at hx
      by_cases h2 : pyStrLt k k' = true
      · rw [if_pos h2] at hx
        rw [List.map_cons] at hx
        rcases List.mem_cons.mp hx with hm | hm
        · exact Or.inl hm
        · exact Or.inr hm
      · rw [if_neg h2] at hx
        rw [List.map_cons] at hx
        rcases List.mem_cons.mp hx with hm | hm
        · exact Or.inr (by rw [List.map_cons]; exact hm ▸ List.mem_cons_self _ _)
        · rcases ih x hm with hm' | hm'
          · exact Or.inl hm'
          · exact Or.inr (by rw [List.map_cons]; exact List.mem_cons_of_mem _ hm')

theorem keysNodup_dinsert {k v : String} :
    ∀ {a : Assignment}, List.lookup k a = none → KeysNodup a →
      KeysNodup (dinsert k v a) := by
  intro a
  induction a with
  | nil =>
    intro _ _
    simp [KeysNodup, dinsert]
  | cons p rest ih =>
    obtain ⟨k', v'⟩ := p
    intro hl hn
    rw [pylookup_cons] at hl
    by_cases hk : k = k'
    · rw [if_pos hk] at hl
      cases hl
    · rw [if_neg hk] at hl
      rw [KeysNodup, List.map_cons, List.nodup_cons] at hn
      obtain ⟨hk'mem, hrest⟩ := hn
      rw [dinsert, if_neg hk]
      by_cases hlt : pyStrLt k k' = true
      · rw [if_pos hlt]
        rw [KeysNodup, List.map_cons, List.map_cons, List.nodup_cons, List.nodup_cons]
        refine ⟨?_, hk'mem, hrest⟩
        intro hmem
        rcases List.mem_cons.mp hmem with hm | hm
        · exact hk hm
        · exact not_mem_keys_of_lookup_none hl hm
      · rw [if_neg hlt]
        rw [KeysNodup, List.map_cons, List.nodup_cons]
        refine ⟨?_, ih hl hrest⟩
        intro hmem
        rcases keys_dinsert_sub rest k' hmem with hm | hm
        · exact hk hm.symm
        · exact hk'mem hm

theorem lookup_isSome_of_mem_keys {a : Assignment} {k : String}
    (h : k ∈ a.map Prod.fst) : (List.lookup k a).isSome = true := by
  cases hl : List.lookup k a with
  | some _ => rfl
  | none => exact absurd h (not_mem_keys_of_lookup_none hl)

theorem tryValues_keys {csp : CSP} {enabled : Bool} {var : String}
    {assignment : Assignment} {domains : Domains} {fuel : Nat}
    (hka : KeysNodup assignment)
    (hun : List.lookup var assignment = none)
    (hrec : ∀ (a : Assignment) (d : Domains) (r : Assignment) (ev : List Event),
      KeysNodup a →
      backtrackFuel csp enabled fuel a d = (some r, ev) → KeysNodup r) :
    ∀ (values : List String) (events : List Event) (r : Assignment) (ev : List Event),
      tryValues csp enabled var assignment domains
        (fun a d => backtrackFuel csp enabled fuel a d) values events = (some r, ev) →
      KeysNodup r := by
  intro values
  induction values with
  | nil =>
    intro events r ev h
    rw [tryValues_nil] at h
    cases h
  | cons v rest ih =>
    intro events r ev h
    rw [tryValues_cons] at h
    by_cases hvc : (! is_value_consistent csp var v assignment) = true
    · rw [if_pos hvc] at h
      exact ih _ _ _ h
    · rw [if_neg hvc] at h
      cases hfc : forward_check csp var (dinsert var v assignment)
          (updateD (csp.copy_domains (some domains)) var [v]) enabled with
      | mk o2 ev2 =>
        cases o2 with
        | none =>
          simp only [hfc] at h
          exact ih _ _ _ h
        | some d1 =>
          simp only [hfc] at h
          cases hac3 : ac3 csp d1 (dinsert var v assignment) enabled with
          | mk o3 ev3 =>
            cases o3 with
            | none =>
              simp only [hac3] at h
              exact ih _ _ _ h
            | some d2 =>
              simp only [hac3] at h
              cases hbk : backtrackFuel csp enabled fuel (dinsert var v assignment) d2 with
              | mk o4 ev4 =>
                cases o4 with
                | none =>
                  simp only [hbk] at h
                  exact ih _ _ _ h
                | some r' =>
                  simp only [hbk] at h
                  have hres := hrec _ _ _ _ (keysNodup_dinsert hun hka) hbk
                  have : r = r' := by
                    have := congrArg Prod.fst h
                    simp at this
                    exact this.symm
                  subst this
                  exact hres

theorem backtrackFuel_keys {csp : CSP} {enabled : Bool} :
    ∀ (fuel : Nat) (assignment : Assignment) (domains : Domains) (r : Assignment)
      (ev : List Event),
      KeysNodup assignment →
      backtrackFuel csp enabled fuel assignment domains = (some r, ev) →
      KeysNodup r := by
  intro fuel
  induction fuel with
  | zero =>
    intro assignment domains r ev hka h
    rw [backtrackFuel] at h
    by_cases hlen : assignment.length = csp.variable_names.length
    · rw [if_pos hlen] at h
      by_cases hcons : csp.is_consistent assignment = true
      · rw [if_pos hcons] at h
        have : r = assignment := by
          have := congrArg Prod.fst h
          simp at this
          exact this.symm
        subst this
        exact hka
      · rw [if_neg hcons] at h
        cases h
    · rw [if_neg hlen] at h
      cases hsel : select_unassigned_variable csp assignment domains with
      | none => simp only [hsel] at h; cases h
      | some var => simp only [hsel] at h; cases h
  | succ fuel ih =>
    intro assignment domains r ev hka h
    rw [backtrackFuel] at h
    by_cases hlen : assignment.length = csp.variable_names.length
    · rw [if_pos hlen] at h
      by_cases hcons : csp.is_consistent assignment = true
      · rw [if_pos hcons] at h
        have : r = assignment := by
          have := congrArg Prod.fst h
          simp at this
          exact this.symm
        subst this
        exact hka
      · rw [if_neg hcons] at h
        cases h
    · rw [if_neg hlen] at h
      cases hsel : select_unassigned_variable csp assignment domains with
      | none => simp only [hsel] at h; cases h
      | some var =>
        simp only [hsel] at h
        obtain ⟨_, hun⟩ := select_unassigned_spec csp assignment domains var hsel
        cases htv : tryValues csp enabled var assignment domains
            (fun a d => backtrackFuel csp enabled fuel a d)
            (order_domain_values var domains) [] with
        | mk o ev' =>
          simp only [htv] at h
          cases o with
          | none => cases h
          | some r' =>
            have : r = r' := by
              have := congrArg Prod.fst h
              simp at this
              exact this.symm
            subst this
            exact tryValues_keys hka hun
              (fun a d rr evv hk hb => ih a d rr evv hk hb)
              (order_domain_values var domains) [] r ev' htv

theorem solveW_sound {csp : CSP} {enabled : Bool}
    (hne : (solveW csp enabled).1 ≠ []) :
    SoundResult csp (solveW csp enabled).1 ∧ KeysNodup (solveW csp enabled).1 := by
  cases hs : solveW csp enabled with
  | mk a ev =>
    rw [hs] at hne
    have hne : a ≠ [] := hne
    show SoundResult csp a ∧ KeysNodup a
    rw [solveW] at hs
    cases hu : enforce_unary_constraints csp (csp.copy_domains none) [] with
    | none =>
      simp only [hu] at hs
      injection hs with hs1 _
      exact absurd hs1.symm hne
    | some d1 =>
      simp only [hu] at hs
      cases hac : ac3 csp d1 [] enabled with
      | mk o1 ev1 =>
        cases o1 with
        | none =>
          simp only [hac] at hs
          injection hs with hs1 _
          exact absurd hs1.symm hne
        | some d2 =>
          simp only [hac] at hs
          cases hbk : backtrack csp [] d2 enabled with
          | mk res ev2 =>
            simp only [hbk] at hs
            injection hs with hs1 _
            cases res with
            | none => exact absurd hs1.symm hne
            | some r =>
              simp only [Option.getD_some] at hs1
              subst hs1
              rw [backtrack] at hbk
              have hdom : ∀ w, lookupD d2 w ⊆ lookupD csp.domains w := by
                intro w
                refine (ac3_mono hac w).trans ?_
                have hu' : enforceUnaryLoop csp [] csp.variable_names
                    (csp.copy_domains none) = some d1 := hu
                have := enforceUnaryLoop_mono csp [] csp.variable_names
                  (csp.copy_domains none) d1 hu' w
                rw [copy_domains_none] at this
                exact this
              refine ⟨backtrackFuel_some _ _ _ _ _ ?_ hdom hbk, ?_⟩
              · intro k v hkv
                cases hkv
              · exact backtrackFuel_keys _ _ _ _ _ (by simp [KeysNodup]) hbk

theorem lookup_eq_of_keysNodup_mem {β : Type} :
    ∀ {l : List (String × β)}, (l.map Prod.fst).Nodup →
      ∀ {k : String} {v : β}, (k, v) ∈ l → List.lookup k l = some v := by
  intro l
  induction l with
  | nil =>
    intro _ k v hm
    cases hm
  | cons p rest ih =>
    obtain ⟨k', v'⟩ := p
    intro hn k v hm
    rw [List.map_cons, List.nodup_cons] at hn
    obtain ⟨hk'mem, hrest⟩ := hn
    rw [pylookup_cons]
    rcases List.mem_cons.mp hm with hm' | hm'
    · injection hm' with h1 h2
      rw [if_pos h1, h2]
    · have hkne : ¬ k = k' := by
        intro he
        subst he
        exact hk'mem (List.mem_map.mpr ⟨(k, v), hm', rfl⟩)
      rw [if_neg hkne]
      exact ih hrest hm'

theorem mem_of_nodup_subset_len {xs ys : List String} (hx : xs.Nodup) (hy : ys.Nodup)
    (hsub : ∀ x ∈ xs, x ∈ ys) (hlen : ys.length ≤ xs.length) :
    ∀ y ∈ ys, y ∈ xs := by
  have hfsub : xs.toFinset ⊆ ys.toFinset := by
    intro x hxm
    exact List.mem_toFinset.mpr (hsub x (List.mem_toFinset.mp hxm))
  have hcx : xs.toFinset.card = xs.length := List.toFinset_card_of_nodup hx
  have hcy : ys.toFinset.card = ys.length := List.toFinset_card_of_nodup hy
  have heq : xs.toFinset = ys.toFinset :=
    Finset.eq_of_subset_of_card_le hfsub (by omega)
  intro y hym
  have : y ∈ ys.toFinset := List.mem_toFinset.mpr hym
  rw [← heq] at this
  exact List.mem_toFinset.mp this

theorem filterMap_length_of_isSome {α β : Type} {f : α → Option β} :
    ∀ {l : List α}, (∀ x ∈ l, (f x).isSome = true) →
      (l.filterMap f).length = l.length := by
  intro l
  induction l with
  | nil => intro _; rfl
  | cons x rest ih =>
    intro h
    have hx := h x (List.mem_cons_self _ _)
    obtain ⟨y, hy⟩ := Option.isSome_iff_exists.mp hx
    rw [List.filterMap_cons, hy]
    simp [ih (fun z hz => h z (List.mem_cons_of_mem _ hz))]

theorem names_bound {names : List String} {a : Assignment}
    (hnn : names.Nodup) (hka : KeysNodup a)
    (hin : ∀ k ∈ a.map Prod.fst, k ∈ names)
    (hlen : names.length ≤ a.length) :
    ∀ n ∈ names, (List.lookup n a).isSome = true := by
  intro n hn
  have hmem := mem_of_nodup_subset_len hka hnn hin
    (by rw [List.length_map]; exact hlen) n hn
  exact lookup_isSome_of_mem_keys hmem

/-- The values a category's house variables take in an assignment
(`{assignment[House_i_C] : 1 ≤ i ≤ H}`, in house order). -/
def categoryValues (num_houses : Nat) (cat : String) (a : Assignment) : List String :=
  (List.range' 1 num_houses).filterMap (fun i => List.lookup (houseVar i cat) a)

/-- The compiled variable for a declared category is in the parse output. -/
theorem mem_parseVars {H : Nat} {cats : List (String × List String)} {i : Nat}
    {cat : String} {vals : List String} (hi : i ∈ List.range' 1 H)
    (hcat : (cat, vals) ∈ cats) :
    Variable.mk (houseVar i cat) vals.dedup ∈ parseVars H cats := by
  rw [parseVars]
  refine List.mem_flatMap.mpr ⟨i, hi, ?_⟩
  exact List.mem_map.mpr ⟨(cat, vals), hcat, rfl⟩

/-- C2 (amended).  In a compiled puzzle, a non-empty returned assignment
gives every house variable of a declared category `cat` a value; those
`H` values are pairwise distinct and drawn from the declared value list,
and they exhaust the declared value set exactly when the category
declares `H` distinct values. -/
theorem claim_C2_category_values {H : Nat} {cats0 : List (String × List String)}
    {inferred : List String} {clues : List String} {csp : CSP} {enabled : Bool}
    {cat : String} {vals : List String}
    (hp : parse_puzzle_core H cats0 inferred clues = .ok csp)
    (hne : (solveW csp enabled).1 ≠ [])
    (hcat : (cat, vals) ∈ ensureName cats0 inferred) :
    (categoryValues H cat (solveW csp enabled).1).length = H ∧
    (categoryValues H cat (solveW csp enabled).1).Nodup ∧
    (∀ x ∈ categoryValues H cat (solveW csp enabled).1, x ∈ vals) ∧
    (vals.dedup.length = H → ∀ w ∈ vals,
      w ∈ categoryValues H cat (solveW csp enabled).1) := by
  obtain ⟨⟨hlen, hcons, hbind⟩, hka⟩ := solveW_sound hne
  set a := (solveW csp enabled).1 with ha
  simp only [parse_puzzle_core] at hp
  obtain ⟨hcsp, hnodup⟩ := make_ok hp
  have hvars_eq : csp.constraints =
      parseAlldiffs H (ensureName cats0 inferred) ++
        clues.flatMap (fun c => compile_clue c (ensureName cats0 inferred)
          (build_value_index (ensureName cats0 inferred)) H) := by
    rw [hcsp]
  have hnames : csp.variable_names =
      (parseVars H (ensureName cats0 inferred)).map Variable.name := by
    rw [hcsp]
    rfl
  have hdom_eq : csp.domains =
      (parseVars H (ensureName cats0 inferred)).map
        (fun v => (v.name, v.domain.dedup)) := by
    rw [hcsp]
    rfl
  have hvarmem : ∀ i ∈ List.range' 1 H, houseVar i cat ∈ csp.variable_names := by
    intro i hi
    rw [hnames]
    exact mem_parseVars_names hi (List.mem_map.mpr ⟨(cat, vals), hcat, rfl⟩)
  have hnodup' : csp.variable_names.Nodup := by
    rw [hnames]
    exact hnodup
  have hin : ∀ k ∈ a.map Prod.fst, k ∈ csp.variable_names := by
    intro k hk
    obtain ⟨v, hv⟩ := Option.isSome_iff_exists.mp (lookup_isSome_of_mem_keys hk)
    exact (hbind k v hv).1
  have hbound : ∀ n ∈ csp.variable_names, (List.lookup n a).isSome = true :=
    names_bound hnodup' hka hin (le_of_eq hlen.symm)
  have hlen_cv : (categoryValues H cat a).length = H := by
    rw [categoryValues]
    rw [filterMap_length_of_isSome (fun i hi => hbound _ (hvarmem i hi))]
    simp
  have hdl : ∀ i ∈ List.range' 1 H,
      List.lookup (houseVar i cat) csp.domains = some vals.dedup := by
    intro i hi
    have hkeysn : (csp.domains.map Prod.fst).Nodup := by
      rw [hdom_eq, List.map_map]
      exact hnodup
    have hmempair : (houseVar i cat, vals.dedup.dedup) ∈ csp.domains := by
      rw [hdom_eq]
      exact List.mem_map.mpr ⟨Variable.mk (houseVar i cat) vals.dedup,
        mem_parseVars hi hcat, rfl⟩
    have hlk := lookup_eq_of_keysNodup_mem hkeysn hmempair
    rw [List.dedup_idem] at hlk
    exact hlk
  have hmem_vals : ∀ x ∈ categoryValues H cat a, x ∈ vals.dedup := by
    intro x hx
    rw [categoryValues] at hx
    obtain ⟨i, hi, hlk⟩ := List.mem_filterMap.mp hx
    have hx2 := (hbind _ _ hlk).2
    rw [lookupD, hdl i hi] at hx2
    simpa using hx2
  have hadmem : (⟨"AllDiff(" ++ cat ++ ")",
      some ((List.range' 1 H).map (fun i => houseVar i cat)),
      some (alldiff_pred ((List.range' 1 H).map (fun i => houseVar i cat)))⟩ :
        Constraint) ∈ csp.constraints := by
    rw [hvars_eq]
    refine List.mem_append.mpr (Or.inl ?_)
    rw [parseAlldiffs]
    exact List.mem_map.mpr ⟨(cat, vals), hcat, rfl⟩
  have hsat := List.all_eq_true.mp hcons _ hadmem
  simp only [Constraint.is_satisfied, alldiff_pred, decide_eq_true_eq] at hsat
  rw [List.filterMap_map] at hsat
  have hconv : (List.range' 1 H).filterMap
      ((fun v => List.lookup v a) ∘ fun i => houseVar i cat) = categoryValues H cat a :=
    rfl
  rw [hconv] at hsat
  have hnd : (categoryValues H cat a).Nodup := (dedup_length_eq_iff _).mp hsat.symm
  refine ⟨hlen_cv, hnd, fun x hx => List.mem_dedup.mp (hmem_vals x hx), ?_⟩
  intro hdlen w hw
  exact mem_of_nodup_subset_len hnd (List.nodup_dedup vals) hmem_vals
    (by rw [hlen_cv, hdlen]) w (List.mem_dedup.mpr hw)

/-- The compiled two-house puzzle declaring three colors. -/
def cspC2 : CSP :=
  match parse_puzzle_core 2 [("Color", ["red", "blue", "green"])] ["Alice", "Bob"] []
      with
  | .ok c => c
  | .error _ => ⟨[], []⟩

set_option maxHeartbeats 4000000 in
/-- C2 (counterexample to the literal claim).  With three declared colors
and two houses, the solver returns a non-empty assignment whose color
values do not exhaust the declared value set: `red` is declared but
assigned to no house. -/
theorem claim_C2_counterexample :
    parse_puzzle_core 2 [("Color", ["red", "blue", "green"])] ["Alice", "Bob"] [] =
      .ok cspC2 ∧
    (solveW cspC2 false).1 ≠ [] ∧
    "red" ∈ ["red", "blue", "green"] ∧
    "red" ∉ categoryValues 2 "Color" (solveW cspC2 false).1 :=
  ⟨rfl, by decide, by decide, by decide⟩

/-- The compiled two-house puzzle declaring two colors. -/
def cspC2w : CSP :=
  match parse_puzzle_core 2 [("Color", ["red", "blue"])] ["Alice", "Bob"] [] with
  | .ok c => c
  | .error _ => ⟨[], []⟩

set_option maxHeartbeats 4000000 in
/-- C2 witness: the amended theorem applied to a concretely compiled
puzzle whose color category declares exactly `H` values. -/
theorem claim_C2_category_values_witness :
    (categoryValues 2 "Color" (solveW cspC2w false).1).length = 2 ∧
    (categoryValues 2 "Color" (solveW cspC2w false).1).Nodup ∧
    (∀ x ∈ categoryValues 2 "Color" (solveW cspC2w false).1, x ∈ ["red", "blue"]) ∧
    (["red", "blue"].dedup.length = 2 → ∀ w ∈ ["red", "blue"],
      w ∈ categoryValues 2 "Color" (solveW cspC2w false).1) :=
  claim_C2_category_values
    (show parse_puzzle_core 2 [("Color", ["red", "blue"])] ["Alice", "Bob"] [] =
      .ok cspC2w from rfl)
    (by decide) (by decide)

/-! ## Claim C9: AC-3 idempotence -/

theorem pyCharsLt_asymm : ∀ {l1 l2 : List Char},
    pyCharsLt l1 l2 = true → pyCharsLt l2 l1 = false := by
  intro l1
  induction l1 with
  | nil =>
    intro l2 h
    cases l2 with
    | nil => cases h
    | cons b bs => rfl
  | cons a as ih =>
    intro l2 h
    cases l2 with
    | nil => cases h
    | cons b bs =>
      rw [pyCharsLt] at h ⊢
      by_cases h1 : a.val < b.val
      · have h2 : ¬ b.val < a.val := by
          have h1' : a.val.toNat < b.val.toNat := h1
          intro hb
          have hb' : b.val.toNat < a.val.toNat := hb
          omega
        rw [if_neg h2, if_pos h1]
      · rw [if_neg h1] at h
        by_cases h2 : b.val < a.val
        · rw [if_pos h2] at h
          cases h
        · rw [if_neg h2] at h
          rw [if_neg h2, if_neg h1]
          exact ih h

theorem pyCharsLt_of_ne : ∀ {l1 l2 : List Char}, l1 ≠ l2 →
    pyCharsLt l1 l2 = true ∨ pyCharsLt l2 l1 = true := by
  intro l1
  induction l1 with
  | nil =>
    intro l2 hne
    cases l2 with
    | nil => exact absurd rfl hne
    | cons b bs => exact Or.inl rfl
  | cons a as ih =>
    intro l2 hne
    cases l2 with
    | nil => exact Or.inr rfl
    | cons b bs =>
      by_cases h1 : a.val < b.val
      · left
        rw [pyCharsLt, if_pos h1]
      · by_cases h2 : b.val < a.val
        · right
          rw [pyCharsLt, if_pos h2]
        · have hab : a = b := by
            have h1' : ¬ a.val.toNat < b.val.toNat := h1
            have h2' : ¬ b.val.toNat < a.val.toNat := h2
            exact Char.ext (UInt32.ext (by omega))
          subst hab
          have hne' : as ≠ bs := fun he => hne (by rw [he])
          rcases ih hne' with h | h
          · left
            rw [pyCharsLt, if_neg h1, if_neg h2]
            exact h
          · right
            rw [pyCharsLt, if_neg h2, if_neg h1]
            exact h

theorem pyCharsLt_trans : ∀ (l1 l2 l3 : List Char), pyCharsLt l1 l2 = true →
    pyCharsLt l2 l3 = true → pyCharsLt l1 l3 = true := by
  intro l1
  induction l1 with
  | nil =>
    intro l2 l3 h1 h2
    cases l2 with
    | nil => cases h1
    | cons b bs =>
      cases l3 with
      | nil => cases h2
      | cons c cs => rfl
  | cons a as ih =>
    intro l2 l3 h1 h2
    cases l2 with
    | nil => cases h1
    | cons b bs =>
      cases l3 with
      | nil => cases h2
      | cons c cs =>
        rw [pyCharsLt] at h1 h2 ⊢
        by_cases hab : a.val < b.val
        · have hab' : a.val.toNat < b.val.toNat := hab
          by_cases hbc : b.val < c.val
          · have hbc' : b.val.toNat < c.val.toNat := hbc
            rw [if_pos (show a.val < c.val from
              (show a.val.toNat < c.val.toNat by omega))]
          · rw [if_neg hbc] at h2
            by_cases hcb : c.val < b.val
            · rw [if_pos hcb] at h2
              cases h2
            · have hcb' : ¬ c.val.toNat < b.val.toNat := hcb
              have hbc' : ¬ b.val.toNat < c.val.toNat := hbc
              rw [if_pos (show a.val < c.val from
                (show a.val.toNat < c.val.toNat by omega))]
        · rw [if_neg hab] at h1
          by_cases hba : b.val < a.val
          · rw [if_pos hba] at h1
            cases h1
          · rw [if_neg hba] at h1
            have hab' : ¬ a.val.toNat < b.val.toNat := hab
            have hba' : ¬ b.val.toNat < a.val.toNat := hba
            by_cases hbc : b.val < c.val
            · have hbc' : b.val.toNat < c.val.toNat := hbc
              rw [if_pos (show a.val < c.val from
                (show a.val.toNat < c.val.toNat by omega))]
            · rw [if_neg hbc] at h2
              by_cases hcb : c.val < b.val
              · rw [if_pos hcb] at h2
                cases h2
              · rw [if_neg hcb] at h2
                have hbc' : ¬ b.val.toNat < c.val.toNat := hbc
                have hcb' : ¬ c.val.toNat < b.val.toNat := hcb
                rw [if_neg (show ¬ a.val < c.val from fun hac =>
                    absurd (show a.val.toNat < c.val.toNat from hac) (by omega)),
                  if_neg (show ¬ c.val < a.val from fun hca =>
                    absurd (show c.val.toNat < a.val.toNat from hca) (by omega))]
                exact ih bs cs h1 h2

theorem string_toList_inj {s t : String} (h : s.toList = t.toList) : s = t := by
  cases s with
  | mk d1 =>
    cases t with
    | mk d2 =>
      simp only [String.toList] at h
      rw [h]

theorem pyStrLt_asymm {s t : String} (h : pyStrLt s t = true) : pyStrLt t s = false :=
  pyCharsLt_asymm h

theorem pyStrLt_of_ne {s t : String} (h : s ≠ t) :
    pyStrLt s t = true ∨ pyStrLt t s = true :=
  pyCharsLt_of_ne (fun he => h (string_toList_inj he))

theorem pyStrLt_trans {s t u : String} (h1 : pyStrLt s t = true)
    (h2 : pyStrLt t u = true) : pyStrLt s u = true :=
  pyCharsLt_trans _ _ _ h1 h2

theorem not_true_of_eq_false {b : Bool} (h : b = false) : ¬ b = true := by
  rw [h]
  exact Bool.false_ne_true

theorem dinsert_cons (k v k0 v0 : String) (rest : Assignment) :
    dinsert k v ((k0, v0) :: rest) =
      if k = k0 then (k, v) :: rest
      else if pyStrLt k k0 then (k, v) :: (k0, v0) :: rest
      else (k0, v0) :: dinsert k v rest :=
  rfl

/-- Two writes of distinct keys to a dict commute. -/
theorem dinsert_comm {k k' v v' : String} (hne : k ≠ k') :
    ∀ a : Assignment, dinsert k v (dinsert k' v' a) = dinsert k' v' (dinsert k v a) := by
  have hne' : k' ≠ k := fun h => hne h.symm
  intro a
  induction a with
  | nil =>
    show dinsert k v [(k', v')] = dinsert k' v' [(k, v)]
    rw [dinsert_cons, dinsert_cons, if_neg hne, if_neg hne']
    rcases pyStrLt_of_ne hne with hlt | hlt
    · rw [if_pos hlt, if_neg (not_true_of_eq_false (pyStrLt_asymm hlt))]
      rfl
    · rw [if_neg (not_true_of_eq_false (pyStrLt_asymm hlt)), if_pos hlt]
      rfl
  | cons p rest ih =>
    obtain ⟨k0, v0⟩ := p
    by_cases hk'0 : k' = k0
    · subst hk'0
      rw [show dinsert k' v' ((k', v0) :: rest) = (k', v') :: rest from by
        rw [dinsert_cons, if_pos rfl]]
      rcases pyStrLt_of_ne hne with hlt | hlt
      · rw [dinsert_cons, if_neg hne, if_pos hlt,
          dinsert_cons, if_neg hne, if_pos hlt,
          dinsert_cons, if_neg hne', if_neg (not_true_of_eq_false (pyStrLt_asymm hlt)),
          dinsert_cons, if_pos rfl]
      · have hnlt : ¬ pyStrLt k k' = true := not_true_of_eq_false (pyStrLt_asymm hlt)
        rw [dinsert_cons, if_neg hne, if_neg hnlt,
          dinsert_cons, if_neg hne, if_neg hnlt,
          dinsert_cons, if_pos rfl]
    · by_cases hk0 : k = k0
      · subst hk0
        rw [show dinsert k v ((k, v0) :: rest) = (k, v) :: rest from by
          rw [dinsert_cons, if_pos rfl]]
        rcases pyStrLt_of_ne hne' with hlt | hlt
        · rw [dinsert_cons, if_neg hne', if_pos hlt,
            dinsert_cons, if_neg hne, if_neg (not_true_of_eq_false (pyStrLt_asymm hlt)),
            dinsert_cons, if_pos rfl,
            dinsert_cons, if_neg hne', if_pos hlt]
        · have hnlt : ¬ pyStrLt k' k = true := not_true_of_eq_false (pyStrLt_asymm hlt)
          rw [dinsert_cons, if_neg hne', if_neg hnlt,
            dinsert_cons, if_pos rfl,
            dinsert_cons, if_neg hne', if_neg hnlt]
      · by_cases hl' : pyStrLt k' k0 = true
        · have e1 : dinsert k' v' ((k0, v0) :: rest) = (k', v') :: (k0, v0) :: rest := by
            rw [dinsert_cons, if_neg hk'0, if_pos hl']
          by_cases hl : pyStrLt k k0 = true
          · have e2 : dinsert k v ((k0, v0) :: rest) = (k, v) :: (k0, v0) :: rest := by
              rw [dinsert_cons, if_neg hk0, if_pos hl]
            rw [e1, e2]
            rcases pyStrLt_of_ne hne with hlt | hlt
            · rw [dinsert_cons, if_neg hne, if_pos hlt]
              rw [dinsert_cons, if_neg hne',
                if_neg (not_true_of_eq_false (pyStrLt_asymm hlt))]
              rw [e1]
            · rw [dinsert_cons, if_neg hne,
                if_neg (not_true_of_eq_false (pyStrLt_asymm hlt))]
              rw [e2]
              rw [dinsert_cons, if_neg hne', if_pos hlt]
          · have hlt : pyStrLt k' k = true := by
              rcases pyStrLt_of_ne hne with h | h
              · exact absurd (pyStrLt_trans h hl') hl
              · exact h
            have hnlt : ¬ pyStrLt k k' = true := not_true_of_eq_false (pyStrLt_asymm hlt)
            have e2 : dinsert k v ((k0, v0) :: rest) = (k0, v0) :: dinsert k v rest := by
              rw [dinsert_cons, if_neg hk0, if_neg hl]
            rw [e1, e2]
            rw [dinsert_cons, if_neg hne, if_neg hnlt]
            rw [e2]
            rw [dinsert_cons, if_neg hk'0, if_pos hl']
        · have e1 : dinsert k' v' ((k0, v0) :: rest) = (k0, v0) :: dinsert k' v' rest := by
            rw [dinsert_cons, if_neg hk'0, if_neg hl']
          by_cases hl : pyStrLt k k0 = true
          · have hlt : pyStrLt k k' = true := by
              rcases pyStrLt_of_ne hne with h | h
              · exact h
              · exact absurd (pyStrLt_trans h hl) hl'
            have hnlt : ¬ pyStrLt k' k = true := not_true_of_eq_false (pyStrLt_asymm hlt)
            have e2 : dinsert k v ((k0, v0) :: rest) = (k, v) :: (k0, v0) :: rest := by
              rw [dinsert_cons, if_neg hk0, if_pos hl]
            rw [e1, e2]
            rw [dinsert_cons, if_neg hk0, if_pos hl]
            rw [dinsert_cons, if_neg hne', if_neg hnlt]
            rw [e1]
          · have e2 : dinsert k v ((k0, v0) :: rest) = (k0, v0) :: dinsert k v rest := by
              rw [dinsert_cons, if_neg hk0, if_neg hl]
            rw [e1, e2]
            rw [dinsert_cons, if_neg hk0, if_neg hl]
            rw [dinsert_cons, if_neg hk'0, if_neg hl']
            rw [ih]

theorem filter_all_of_length_eq {α : Type} {p : α → Bool} {l : List α}
    (h : (l.filter p).length = l.length) : ∀ a ∈ l, p a = true := by
  have hs : (l.filter p).Sublist l := List.filter_sublist l
  exact List.filter_eq_self.mp (hs.eq_of_length h)

theorem constraints_between_symm (csp : CSP) (xi xj : String) :
    csp.constraints_between xi xj = csp.constraints_between xj xi := by
  rw [CSP.constraints_between, CSP.constraints_between]
  apply List.filter_congr
  intro c _
  cases (!(scopeList c.scope).isEmpty) <;>
    cases (scopeList c.scope).contains xi <;>
      cases (scopeList c.scope).contains xj <;> rfl

theorem mem_neighbors_iff {csp : CSP} {v x : String} :
    x ∈ csp.neighbors v ↔
      v ∈ csp.variable_names ∧ x ∈ csp.variable_names ∧ x ≠ v ∧
        ∃ c ∈ csp.constraints, (!(scopeList c.scope).isEmpty) = true ∧
          v ∈ scopeList c.scope ∧ x ∈ scopeList c.scope := by
  rw [CSP.neighbors]
  by_cases hv : v ∈ csp.variable_names
  · rw [if_pos hv]
    rw [List.mem_dedup]
    constructor
    · intro h
      obtain ⟨c, hc, hx⟩ := List.mem_flatMap.mp h
      obtain ⟨hcm, hcf⟩ := List.mem_filter.mp hc
      obtain ⟨hxm, hxf⟩ := List.mem_filter.mp hx
      have hne := (Bool.and_eq_true_iff.mp hxf).1
      have hxn := (Bool.and_eq_true_iff.mp hxf).2
      have h1 := (Bool.and_eq_true_iff.mp hcf).1
      have h2 := (Bool.and_eq_true_iff.mp hcf).2
      refine ⟨hv, by simpa using hxn, by simpa using hne, c, hcm, h1,
        by simpa using h2, hxm⟩
    · rintro ⟨_, hxn, hne, c, hcm, h1, hvs, hxs⟩
      refine List.mem_flatMap.mpr ⟨c, List.mem_filter.mpr ⟨hcm, ?_⟩,
        List.mem_filter.mpr ⟨hxs, ?_⟩⟩
      · rw [Bool.and_eq_true_iff]
        exact ⟨h1, by simpa using hvs⟩
      · rw [Bool.and_eq_true_iff]
        exact ⟨by simpa using hne, by simpa using hxn⟩
  · rw [if_neg hv]
    constructor
    · intro h
      cases h
    · rintro ⟨hv', _⟩
      exact absurd hv' hv

theorem neighbors_symm {csp : CSP} {v x : String} (h : x ∈ csp.neighbors v) :
    v ∈ csp.neighbors x := by
  obtain ⟨hv, hx, hne, c, hcm, h1, hvs, hxs⟩ := mem_neighbors_iff.mp h
  exact mem_neighbors_iff.mpr ⟨hx, hv, fun he => hne he.symm, c, hcm, h1, hxs, hvs⟩

theorem mem_neighbors_ne {csp : CSP} {v x : String} (h : x ∈ csp.neighbors v) :
    x ≠ v :=
  (mem_neighbors_iff.mp h).2.2.1

/-- The initial AC-3 work list: every directed arc. -/
def allArcs (csp : CSP) : List (String × String) :=
  csp.variable_names.flatMap (fun v => (csp.neighbors v).map (fun n => (v, n)))

theorem mem_allArcs_iff {csp : CSP} {xi xj : String} :
    (xi, xj) ∈ allArcs csp ↔ xi ∈ csp.variable_names ∧ xj ∈ csp.neighbors xi := by
  rw [allArcs]
  constructor
  · intro h
    obtain ⟨v, hv, hp⟩ := List.mem_flatMap.mp h
    obtain ⟨n, hn, he⟩ := List.mem_map.mp hp
    injection he with he1 he2
    subst he1
    subst he2
    exact ⟨hv, hn⟩
  · rintro ⟨h1, h2⟩
    exact List.mem_flatMap.mpr ⟨xi, h1, List.mem_map.mpr ⟨xj, h2, rfl⟩⟩

theorem allArcs_swap {csp : CSP} {xi xj : String} (h : (xi, xj) ∈ allArcs csp) :
    (xj, xi) ∈ allArcs csp := by
  obtain ⟨h1, h2⟩ := mem_allArcs_iff.mp h
  exact mem_allArcs_iff.mpr ⟨mem_neighbors_names h2, neighbors_symm h2⟩

/-- An arc the second AC-3 run would not change: revising it neither
flags a revision nor alters the map. -/
def arcStable (csp : CSP) (a : Assignment) (d : Domains) (xi xj : String) : Prop :=
  revise csp xi xj d a = (false, d)

theorem arcStable_iff {csp : CSP} {a : Assignment} {d : Domains} {xi xj : String} :
    arcStable csp a d xi xj ↔
      ((csp.constraints_between xi xj).isEmpty = true ∨
        ∀ x ∈ lookupD d xi,
          has_support xi x xj d a (csp.constraints_between xi xj) = true) := by
  rw [arcStable, revise_eq]
  by_cases h1 : (csp.constraints_between xi xj).isEmpty = true
  · rw [if_pos h1]
    simp [h1]
  · rw [if_neg h1]
    constructor
    · intro h
      by_cases h2 : ((lookupD d xi).filter
          (fun value => has_support xi value xj d a
            (csp.constraints_between xi xj))).length = (lookupD d xi).length
      · exact Or.inr (filter_all_of_length_eq h2)
      · rw [if_neg h2] at h
        injection h with h _
        cases h
    · intro h
      rcases h with h | h
      · exact absurd h h1
      · rw [if_pos (by rw [List.filter_eq_self.mpr h])]

theorem has_support_congr {xi x xj : String} {d d' : Domains} {a : Assignment}
    {cs : List Constraint} (h : lookupD d' xj = lookupD d xj) :
    has_support xi x xj d' a cs = has_support xi x xj d a cs := by
  rw [has_support, has_support, h]

theorem arcStable_anti {csp : CSP} {a : Assignment} {d d' : Domains} {xk xl : String}
    (h : arcStable csp a d xk xl)
    (hsrc : lookupD d' xk ⊆ lookupD d xk)
    (htgt : lookupD d' xl = lookupD d xl) : arcStable csp a d' xk xl := by
  rcases arcStable_iff.mp h with h | h
  · exact arcStable_iff.mpr (Or.inl h)
  · refine arcStable_iff.mpr (Or.inr ?_)
    intro x hx
    rw [has_support_congr htgt]
    exact h x (hsrc hx)

theorem updateD_self {d : Domains} {k : String} {vs : List String}
    (h : List.lookup k d = some vs) : updateD d k vs = d := by
  induction d with
  | nil => cases h
  | cons p rest ih =>
    obtain ⟨k', v'⟩ := p
    rw [pylookup_cons] at h
    rw [updateD]
    by_cases hk : k = k'
    · rw [if_pos hk] at h
      injection h with h
      rw [if_pos hk.symm, ← h]
    · rw [if_neg hk] at h
      rw [if_neg (fun he => hk he.symm), ih h]

theorem lookupD_updateD_sub {d : Domains} {k : String} {vs : List String}
    (hsub : vs ⊆ lookupD d k) :
    ∀ w, lookupD (updateD d k vs) w ⊆ lookupD d w := by
  intro w x hx
  by_cases hw : w = k
  · subst hw
    rw [lookupD, lookup_updateD, if_pos rfl] at hx
    cases hl : List.lookup w d with
    | none =>
      rw [hl] at hx
      simp at hx
    | some old =>
      rw [hl] at hx
      simp only [Option.map_some', Option.getD_some] at hx
      exact hsub hx
  · rw [lookupD_updateD_ne _ _ _ _ hw] at hx
    exact hx

theorem revise_true_eq {csp : CSP} {xi xj : String} {d : Domains} {a : Assignment}
    (h : (revise csp xi xj d a).1 = true) :
    (revise csp xi xj d a).2 = updateD d xi ((lookupD d xi).filter
      (fun v => has_support xi v xj d a (csp.constraints_between xi xj))) := by
  rw [revise_eq] at h ⊢
  by_cases h1 : (csp.constraints_between xi xj).isEmpty
  · rw [if_pos h1] at h
    cases h
  · rw [if_neg h1] at h ⊢
    by_cases h2 : ((lookupD d xi).filter
        (fun value => has_support xi value xj d a
          (csp.constraints_between xi xj))).length = (lookupD d xi).length
    · rw [if_pos h2] at h
      cases h
    · rw [if_neg h2]

theorem arcStable_rev {csp : CSP} {a : Assignment} {d : Domains} {xi xj : String}
    (hne : xj ≠ xi)
    (hstab : arcStable csp a d xj xi) :
    arcStable csp a
      (updateD d xi ((lookupD d xi).filter
        (fun v => has_support xi v xj d a (csp.constraints_between xi xj)))) xj xi := by
  rcases arcStable_iff.mp hstab with h | h
  · exact arcStable_iff.mpr (Or.inl h)
  · refine arcStable_iff.mpr (Or.inr ?_)
    intro y hy
    rw [lookupD_updateD_ne _ _ _ _ hne] at hy
    have hsup := h y hy
    rw [has_support, List.any_eq_true] at hsup ⊢
    obtain ⟨x, hxmem, hxall⟩ := hsup
    have hxl : (List.lookup xi d).isSome := lookup_isSome_of_mem_lookupD hxmem
    refine ⟨x, ?_, hxall⟩
    rw [lookupD_updateD_self _ _ _ hxl]
    refine List.mem_filter.mpr ⟨hxmem, ?_⟩
    rw [has_support, List.any_eq_true]
    refine ⟨y, hy, ?_⟩
    rw [constraints_between_symm]
    rw [show dinsert xj y (dinsert xi x a) = dinsert xi x (dinsert xj y a) from
      dinsert_comm hne a]
    exact hxall

theorem ac3Loop_nil (csp : CSP) (a : Assignment) (fuel : Nat) (d : Domains)
    (ap va : Nat) : ac3Loop csp a (fuel + 1) [] d ap va = some (d, ap, va) :=
  rfl

theorem ac3Loop_invariant {csp : CSP} {a : Assignment} :
    ∀ (fuel : Nat) (queue : List (String × String)) (d : Domains) (ap va : Nat)
      (d' : Domains) (ap' va' : Nat),
      (∀ p ∈ queue, p ∈ allArcs csp) →
      (∀ p ∈ allArcs csp, p ∈ queue ∨ arcStable csp a d p.1 p.2) →
      ac3Loop csp a fuel queue d ap va = some (d', ap', va') →
      ∀ p ∈ allArcs csp, arcStable csp a d' p.1 p.2 := by
  intro fuel
  induction fuel with
  | zero =>
    intro queue d ap va d' ap' va' _ _ h
    cases h
  | succ fuel ih =>
    intro queue d ap va d' ap' va' hq hinv h
    cases queue with
    | nil =>
      rw [ac3Loop_nil] at h
      injection h with h
      injection h with h1 h2
      subst h1
      intro p hp
      rcases hinv p hp with hmem | hstab
      · cases hmem
      · exact hstab
    | cons arc rest =>
      obtain ⟨xi, xj⟩ := arc
      have harc : (xi, xj) ∈ allArcs csp := hq _ (List.mem_cons_self _ _)
      have hji : xj ≠ xi := mem_neighbors_ne (mem_allArcs_iff.mp harc).2
      rw [ac3Loop_cons] at h
      by_cases hrev : (revise csp xi xj d a).1 = true
      · rw [if_pos hrev] at h
        by_cases hemp : lookupD (revise csp xi xj d a).2 xi = []
        · rw [if_pos hemp] at h
          cases h
        · rw [if_neg hemp] at h
          refine ih _ _ _ _ _ _ _ ?_ ?_ h
          · intro p hp
            rcases List.mem_append.mp hp with hp | hp
            · exact hq p (List.mem_cons_of_mem _ hp)
            · obtain ⟨xk, hxk, he⟩ := List.mem_map.mp hp
              have hxkn := (List.mem_filter.mp hxk).1
              rw [← he]
              exact mem_allArcs_iff.mpr ⟨mem_neighbors_names hxkn, neighbors_symm hxkn⟩
          · intro p hp
            obtain ⟨xk, xl⟩ := p
            rcases hinv (xk, xl) hp with hmem | hstab
            · rcases List.mem_cons.mp hmem with he | hmem'
              · injection he with he1 he2
                subst he1
                subst he2
                right
                rw [revise_true_eq hrev]
                refine arcStable_iff.mpr (Or.inr ?_)
                intro x hx
                rw [has_support_congr
                  (lookupD_updateD_ne _ _ _ _ hji)]
                have hxl : (List.lookup xk d).isSome := by
                  cases hl : List.lookup xk d with
                  | none =>
                    rw [lookupD, lookup_updateD, if_pos rfl, hl] at hx
                    simp at hx
                  | some _ => rfl
                rw [lookupD_updateD_self _ _ _ hxl] at hx
                exact (List.mem_filter.mp hx).2
              · exact Or.inl (List.mem_append.mpr (Or.inl hmem'))
            · by_cases hxleq : xl = xi
              · subst hxleq
                by_cases hxkeq : xk = xj
                · subst hxkeq
                  right
                  rw [revise_true_eq hrev]
                  exact arcStable_rev hji hstab
                · left
                  refine List.mem_append.mpr (Or.inr ?_)
                  have hxkn : xk ∈ csp.neighbors xl := by
                    exact neighbors_symm (mem_allArcs_iff.mp hp).2
                  refine List.mem_map.mpr ⟨xk, List.mem_filter.mpr ⟨hxkn, ?_⟩, rfl⟩
                  simpa using hxkeq
              · right
                rw [revise_true_eq hrev]
                refine arcStable_anti hstab ?_ (lookupD_updateD_ne _ _ _ _ hxleq)
                exact lookupD_updateD_sub (fun x hx => (List.mem_filter.mp hx).1) xk
      · have hf : (revise csp xi xj d a).1 = false := by
          cases hb : (revise csp xi xj d a).1 with
          | false => rfl
          | true => exact absurd hb hrev
        rw [if_neg hrev] at h
        rw [revise_false_eq hf] at h
        refine ih _ _ _ _ _ _ _ (fun p hp => hq p (List.mem_cons_of_mem _ hp)) ?_ h
        intro p hp
        rcases hinv p hp with hmem | hstab
        · rcases List.mem_cons.mp hmem with he | hmem'
          · right
            rw [he]
            exact Prod.ext hf (revise_false_eq hf)
          · exact Or.inl hmem'
        · exact Or.inr hstab

theorem ac3Loop_stable {csp : CSP} {a : Assignment} {d : Domains}
    (hstab : ∀ p ∈ allArcs csp, arcStable csp a d p.1 p.2) :
    ∀ (queue : List (String × String)) (fuel ap va : Nat),
      (∀ p ∈ queue, p ∈ allArcs csp) → queue.length < fuel →
      ac3Loop csp a fuel queue d ap va = some (d, ap + queue.length, va) := by
  intro queue
  induction queue with
  | nil =>
    intro fuel ap va _ hf
    cases fuel with
    | zero => omega
    | succ f =>
      rw [ac3Loop_nil]
      rfl
  | cons arc rest ih =>
    obtain ⟨xi, xj⟩ := arc
    intro fuel ap va hq hf
    cases fuel with
    | zero =>
      rw [List.length_cons] at hf
      omega
    | succ f =>
      rw [ac3Loop_cons]
      have hst : revise csp xi xj d a = (false, d) :=
        hstab _ (hq _ (List.mem_cons_self _ _))
      rw [hst]
      rw [if_neg (show ¬ ((false, d) : Bool × Domains).1 = true from Bool.false_ne_true)]
      show ac3Loop csp a f rest d (ap + 1) va = some (d, ap + ((xi, xj) :: rest).length, va)
      rw [ih f (ap + 1) va (fun p hp => hq p (List.mem_cons_of_mem _ hp))
        (by rw [List.length_cons] at hf; omega)]
      rw [List.length_cons]
      rw [show ap + 1 + rest.length = ap + (rest.length + 1) from by omega]

theorem ac3Loop_nonempty {csp : CSP} {a : Assignment} :
    ∀ (fuel : Nat) (queue : List (String × String)) (d : Domains) (ap va : Nat)
      (d' : Domains) (ap' va' : Nat),
      ac3Loop csp a fuel queue d ap va = some (d', ap', va') →
      ∀ w, lookupD d w ≠ [] → lookupD d' w ≠ [] := by
  intro fuel
  induction fuel with
  | zero =>
    intro queue d ap va d' ap' va' h
    cases h
  | succ fuel ih =>
    intro queue d ap va d' ap' va' h
    cases queue with
    | nil =>
      rw [ac3Loop_nil] at h
      injection h with h
      injection h with h1 h2
      subst h1
      exact fun w hw => hw
    | cons arc rest =>
      obtain ⟨xi, xj⟩ := arc
      rw [ac3Loop_cons] at h
      by_cases hrev : (revise csp xi xj d a).1 = true
      · rw [if_pos hrev] at h
        by_cases hemp : lookupD (revise csp xi xj d a).2 xi = []
        · rw [if_pos hemp] at h
          cases h
        · rw [if_neg hemp] at h
          intro w hw
          refine ih _ _ _ _ _ _ _ h w ?_
          by_cases hwxi : w = xi
          · subst hwxi
            exact hemp
          · rw [revise_true_eq hrev, lookupD_updateD_ne _ _ _ _ hwxi]
            exact hw
      · have hf : (revise csp xi xj d a).1 = false := by
          cases hb : (revise csp xi xj d a).1 with
          | false => rfl
          | true => exact absurd hb hrev
        rw [if_neg hrev] at h
        rw [revise_false_eq hf] at h
        exact ih _ _ _ _ _ _ _ h

theorem enforceUnaryLoop_untouched {csp : CSP} {a : Assignment} {v : String} :
    ∀ (vars : List String) (d d' : Domains), v ∉ vars →
      enforceUnaryLoop csp a vars d = some d' → lookupD d' v = lookupD d v := by
  intro vars
  induction vars with
  | nil =>
    intro d d' _ h
    injection h with h
    rw [h]
  | cons u rest ih =>
    intro d d' hv h
    have hvu : v ≠ u := fun he => hv (he ▸ List.mem_cons_self _ _)
    have hvr : v ∉ rest := fun hm => hv (List.mem_cons_of_mem _ hm)
    rw [enforceUnaryLoop_cons] at h
    by_cases hemp : (unaryConstraintsFor csp u).isEmpty = true
    · rw [if_pos hemp] at h
      exact ih _ _ hvr h
    · rw [if_neg hemp] at h
      by_cases hk : unaryKept csp a u d = []
      · rw [if_pos hk] at h
        cases h
      · rw [if_neg hk] at h
        rw [ih _ _ hvr h]
        exact lookupD_updateD_ne _ _ _ _ hvu

theorem enforceUnaryLoop_propd {csp : CSP} {a : Assignment} :
    ∀ (vars : List String) (d d1 : Domains),
      enforceUnaryLoop csp a vars d = some d1 →
      ∀ v ∈ vars, (unaryConstraintsFor csp v).isEmpty = false →
        lookupD d1 v ≠ [] ∧
        ∀ x ∈ lookupD d1 v,
          (unaryConstraintsFor csp v).all
            (fun c => c.is_satisfied (dinsert v x a)) = true := by
  intro vars
  induction vars with
  | nil =>
    intro d d1 _ v hv
    cases hv
  | cons u rest ih =>
    intro d d1 h v hv hne
    rw [enforceUnaryLoop_cons] at h
    by_cases hemp : (unaryConstraintsFor csp u).isEmpty = true
    · rw [if_pos hemp] at h
      rcases List.mem_cons.mp hv with he | hm
      · rw [he] at hne
        rw [hemp] at hne
        cases hne
      · exact ih _ _ h v hm hne
    · rw [if_neg hemp] at h
      by_cases hk : unaryKept csp a u d = []
      · rw [if_pos hk] at h
        cases h
      · rw [if_neg hk] at h
        by_cases hvr : v ∈ rest
        · exact ih _ _ h v hvr hne
        · have he : v = u := by
            rcases List.mem_cons.mp hv with he | hm
            · exact he
            · exact absurd hm hvr
          subst he
          have huntouched := enforceUnaryLoop_untouched rest _ _ hvr h
          have hself : lookupD (updateD d v (unaryKept csp a v d)) v
              = unaryKept csp a v d := by
            have hsome : (List.lookup v d).isSome := by
              cases hl : List.lookup v d with
              | none =>
                rw [unaryKept, lookupD, hl] at hk
                simp at hk
              | some _ => rfl
            exact lookupD_updateD_self _ _ _ hsome
          rw [huntouched, hself]
          refine ⟨hk, ?_⟩
          intro x hx
          rw [unaryKept] at hx
          exact (List.mem_filter.mp hx).2

theorem enforceUnaryLoop_noop {csp : CSP} {a : Assignment} {D : Domains} :
    ∀ (vars : List String),
      (∀ v ∈ vars, (unaryConstraintsFor csp v).isEmpty = false →
        lookupD D v ≠ [] ∧
        ∀ x ∈ lookupD D v,
          (unaryConstraintsFor csp v).all
            (fun c => c.is_satisfied (dinsert v x a)) = true) →
      enforceUnaryLoop csp a vars D = some D := by
  intro vars
  induction vars with
  | nil =>
    intro _
    rfl
  | cons u rest ih =>
    intro hprop
    rw [enforceUnaryLoop_cons]
    by_cases hemp : (unaryConstraintsFor csp u).isEmpty = true
    · rw [if_pos hemp]
      exact ih (fun v hv => hprop v (List.mem_cons_of_mem _ hv))
    · rw [if_neg hemp]
      obtain ⟨hne, hall⟩ := hprop u (List.mem_cons_self _ _)
        (by cases hb : (unaryConstraintsFor csp u).isEmpty with
          | false => rfl
          | true => exact absurd hb hemp)
      have hkeq : unaryKept csp a u D = lookupD D u := by
        rw [unaryKept]
        exact List.filter_eq_self.mpr hall
      rw [hkeq]
      rw [if_neg hne]
      have hsome : (List.lookup u D).isSome := by
        cases hl : List.lookup u D with
        | none =>
          rw [lookupD, hl] at hne
          simp at hne
        | some _ => rfl
      obtain ⟨old, hold⟩ := Option.isSome_iff_exists.mp hsome
      have : lookupD D u = old := by
        rw [lookupD, hold]
        rfl
      rw [this, updateD_self hold]
      exact ih (fun v hv => hprop v (List.mem_cons_of_mem _ hv))

/-- C9.  AC-3 is idempotent: if a run of `_ac3` on any domain map
succeeds and produces `D`, running `_ac3` again on `D` (same CSP and
outer assignment) succeeds and returns `D` unchanged. -/
theorem claim_C9_ac3_idempotent {csp : CSP} {d : Domains} {a : Assignment}
    {enabled : Bool} {D : Domains} {ev : List Event}
    (h : ac3 csp d a enabled = (some D, ev)) :
    (ac3 csp D a enabled).1 = some D := by
  rw [ac3] at h ⊢
  cases hu : enforce_unary_constraints csp d a with
  | none =>
    simp only [hu] at h
    cases h
  | some d1 =>
    simp only [hu] at h
    have hq : csp.variable_names.flatMap
        (fun v => (csp.neighbors v).map (fun n => (v, n))) = allArcs csp := rfl
    rw [hq] at h
    cases hloop : ac3Loop csp a
        (totalDomSize d1 * (arcBound csp + 1) + (allArcs csp).length + 1)
        (allArcs csp) d1 0 0 with
    | none =>
      simp only [hloop] at h
      cases h
    | some t =>
      obtain ⟨D2, ap, va⟩ := t
      simp only [hloop] at h
      have hD2 : D2 = D := by
        have := congrArg Prod.fst h
        simp at this
        exact this
      subst hD2
      have hstabs := ac3Loop_invariant
        (totalDomSize d1 * (arcBound csp + 1) + (allArcs csp).length + 1)
        (allArcs csp) d1 0 0 D2 ap va (fun p hp => hp) (fun p hp => Or.inl hp) hloop
      have hu' : enforceUnaryLoop csp a csp.variable_names d = some d1 := hu
      have hprop := enforceUnaryLoop_propd csp.variable_names d d1 hu'
      have hmono := ac3Loop_mono csp a _ _ _ _ _ _ _ _ hloop
      have hnonempty := ac3Loop_nonempty _ _ _ _ _ _ _ _ hloop
      have hDprop : ∀ v ∈ csp.variable_names,
          (unaryConstraintsFor csp v).isEmpty = false →
          lookupD D2 v ≠ [] ∧ ∀ x ∈ lookupD D2 v,
            (unaryConstraintsFor csp v).all
              (fun c => c.is_satisfied (dinsert v x a)) = true := by
        intro v hv hne
        obtain ⟨hne1, hall⟩ := hprop v hv hne
        exact ⟨hnonempty v hne1, fun x hx => hall x (hmono v hx)⟩
      have hu2 : enforce_unary_constraints csp D2 a = some D2 :=
        enforceUnaryLoop_noop csp.variable_names hDprop
      simp only [hu2]
      rw [hq]
      rw [ac3Loop_stable hstabs (allArcs csp)
        (totalDomSize D2 * (arcBound csp + 1) + (allArcs csp).length + 1) 0 0
        (fun p hp => hp) (by omega)]

/-- A two-variable CSP on which the first AC-3 run prunes a value. -/
def cspC9 : CSP :=
  ⟨[⟨"A", ["1", "2"]⟩, ⟨"B", ["1"]⟩], [Constraint.all_diff ["A", "B"]]⟩

/-- The domain map the first AC-3 run on `cspC9` produces. -/
def DC9 : Domains := (ac3 cspC9 cspC9.domains [] false).1.getD []

/-- C9 witness: idempotence on a concrete run that did prune. -/
theorem claim_C9_ac3_idempotent_witness :
    (ac3 cspC9 DC9 [] false).1 = some DC9 :=
  claim_C9_ac3_idempotent
    (show ac3 cspC9 cspC9.domains [] false = (some DC9, []) from rfl)

/-! ## Claim C8: `solve` never mutates the CSP's canonical domain map

The Python domain maps are mutable dict-of-set objects.  `copy_domains`
builds a fresh dict of fresh sets, so distinct maps share no mutable
state; a heap of whole maps is therefore a faithful model of object
identity.  The store-passing solver below transliterates every in-place
mutation of the source as a write to the map's cell; `solveS` receives
the cell holding `csp.domains`, copies it, and works on the copies. -/

/-- The heap of domain-map objects; a reference is an index. -/
abbrev Store := List Domains

/-- Dereference (a dangling reference reads as the empty map). -/
def readS (σ : Store) (r : Nat) : Domains := (List.get? σ r).getD []

/-- In-place mutation of the object at `r`. -/
def writeS (σ : Store) (r : Nat) (d : Domains) : Store := List.set σ r d

/-- `copy_domains`: allocate a fresh map with the source's contents. -/
def copy_domainsS (csp : CSP) (src : Option Nat) (σ : Store) : Nat × Store :=
  let v := match src with
    | some r => (readS σ r).map (fun p => (p.1, p.2))
    | none => csp.domains.map (fun p => (p.1, p.2))
  (σ.length, σ ++ [v])

/-- `_enforce_unary_constraints`, writing each pruning back in place. -/
def enforceUnaryLoopS (csp : CSP) (a : Assignment) :
    List String → Nat → Store → Bool × Store
  | [], _, σ => (true, σ)
  | var :: rest, r, σ =>
    if (unaryConstraintsFor csp var).isEmpty then enforceUnaryLoopS csp a rest r σ
    else
      let kept := unaryKept csp a var (readS σ r)
      let σ1 := writeS σ r (updateD (readS σ r) var kept)
      if kept = [] then (false, σ1)
      else enforceUnaryLoopS csp a rest r σ1

def enforce_unary_constraintsS (csp : CSP) (r : Nat) (a : Assignment) (σ : Store) :
    Bool × Store :=
  enforceUnaryLoopS csp a csp.variable_names r σ

/-- The `while queue:` loop of `_ac3` over the store. -/
def ac3LoopS (csp : CSP) (a : Assignment) :
    Nat → List (String × String) → Nat → Nat → Nat → Store → Bool × Nat × Nat × Store
  | 0, _, _, ap, va, σ => (false, ap, va, σ)
  | _ + 1, [], _, ap, va, σ => (true, ap, va, σ)
  | fuel + 1, (xi, xj) :: queue, r, ap, va, σ =>
    let rv := revise csp xi xj (readS σ r) a
    let σ1 := writeS σ r rv.2
    if rv.1 then
      if lookupD rv.2 xi = [] then (false, ap + 1, va + 1, σ1)
      else
        ac3LoopS csp a fuel
          (queue ++ ((csp.neighbors xi).filter (fun xk => xk ≠ xj)).map (fun xk => (xk, xi)))
          r (ap + 1) (va + 1) σ1
    else ac3LoopS csp a fuel queue r (ap + 1) va σ1

/-- `_ac3` over the store. -/
def ac3S (csp : CSP) (r : Nat) (a : Assignment) (enabled : Bool) (σ : Store) :
    Bool × List Event × Store :=
  match enforce_unary_constraintsS csp r a σ with
  | (false, σ1) => (false, [], σ1)
  | (true, σ1) =>
    let queue := csp.variable_names.flatMap (fun v => (csp.neighbors v).map (fun n => (v, n)))
    match ac3LoopS csp a
        (totalDomSize (readS σ1 r) * (arcBound csp + 1) + queue.length + 1)
        queue r 0 0 σ1 with
    | (false, _, _, σ2) => (false, [], σ2)
    | (true, ap, va, σ2) =>
      (true, if ap ≠ 0 then logAc3Run enabled va ap else [], σ2)

/-- The neighbor loop of `_forward_check` over the store. -/
def forwardCheckLoopS (csp : CSP) (var : String) (a : Assignment) :
    List String → Nat → Nat → Store → Bool × Nat × Store
  | [], _, pruned, σ => (true, pruned, σ)
  | neighbor :: rest, r, pruned, σ =>
    if (csp.constraints_between var neighbor).isEmpty then
      forwardCheckLoopS csp var a rest r pruned σ
    else
      let kept := fcKept csp var a neighbor (readS σ r)
      let pruned1 := pruned + ((lookupD (readS σ r) neighbor).length - kept.length)
      let σ1 := writeS σ r (updateD (readS σ r) neighbor kept)
      if kept = [] then (false, pruned1, σ1)
      else forwardCheckLoopS csp var a rest r pruned1 σ1

/-- `_forward_check` over the store. -/
def forward_checkS (csp : CSP) (var : String) (a : Assignment) (r : Nat)
    (enabled : Bool) (σ : Store) : Bool × List Event × Store :=
  match enforce_unary_constraintsS csp r a σ with
  | (false, σ1) => (false, [], σ1)
  | (true, σ1) =>
    match forwardCheckLoopS csp var a (csp.neighbors var) r 0 σ1 with
    | (false, _, σ2) => (false, [], σ2)
    | (true, pruned, σ2) =>
      (true, if pruned ≠ 0 then logForwardCheck enabled var pruned else [], σ2)

/-- The value loop of `_backtrack` over the store: each candidate gets a
fresh copied map (`local_domains`), and only that copy is written. -/
def tryValuesS (csp : CSP) (enabled : Bool) (var : String) (assignment : Assignment)
    (r : Nat)
    (recurS : Assignment → Nat → Store → Option Assignment × List Event × Store) :
    List String → List Event → Store → Option Assignment × List Event × Store
  | [], events, σ => (none, events, σ)
  | value :: rest, events, σ =>
    if ! is_value_consistent csp var value assignment then
      tryValuesS csp enabled var assignment r recurS rest events σ
    else
      let local_assignment := dinsert var value assignment
      let ev1 := logAssign enabled var value (lookupD (readS σ r) var).length
        local_assignment.length
      match copy_domainsS csp (some r) σ with
      | (rl, σ1) =>
        let σ2 := writeS σ1 rl (updateD (readS σ1 rl) var [value])
        match forward_checkS csp var local_assignment rl enabled σ2 with
        | (false, ev2, σ3) =>
          tryValuesS csp enabled var assignment r recurS rest (events ++ ev1 ++ ev2) σ3
        | (true, ev2, σ3) =>
          match ac3S csp rl local_assignment enabled σ3 with
          | (false, ev3, σ4) =>
            tryValuesS csp enabled var assignment r recurS rest
              (events ++ ev1 ++ ev2 ++ ev3) σ4
          | (true, ev3, σ4) =>
            match recurS local_assignment rl σ4 with
            | (some result, ev4, σ5) =>
              (some result, events ++ ev1 ++ ev2 ++ ev3 ++ ev4, σ5)
            | (none, ev4, σ5) =>
              tryValuesS csp enabled var assignment r recurS rest
                (events ++ ev1 ++ ev2 ++ ev3 ++ ev4) σ5

/-- `_backtrack` over the store (same fuel discipline as `backtrackFuel`);
it reads its map but never writes it. -/
def backtrackFuelS (csp : CSP) (enabled : Bool) :
    Nat → Assignment → Nat → Store → Option Assignment × List Event × Store
  | fuel, assignment, r, σ =>
    if assignment.length = csp.variable_names.length then
      if csp.is_consistent assignment then
        (some assignment, logSolutionFound enabled assignment.length, σ)
      else (none, [], σ)
    else
      match select_unassigned_variable csp assignment (readS σ r) with
      | none => (none, [], σ)
      | some var =>
        match fuel with
        | 0 => (none, [], σ)
        | fuel' + 1 =>
          match tryValuesS csp enabled var assignment r
              (fun a rr σ' => backtrackFuelS csp enabled fuel' a rr σ')
              (order_domain_values var (readS σ r)) [] σ with
          | (some result, events, σ') => (some result, events, σ')
          | (none, events, σ') => (none, events ++ logBacktrack enabled var, σ')

/-- `solve` over the store: `r0` is the cell holding the CSP's canonical
domain map; `copy_domains` duplicates it and all search works on copies. -/
def solveS (csp : CSP) (enabled : Bool) (r0 : Nat) (σ : Store) :
    Assignment × List Event × Store :=
  match copy_domainsS csp (some r0) σ with
  | (r, σ1) =>
    match enforce_unary_constraintsS csp r [] σ1 with
    | (false, σ2) => ([], [], σ2)
    | (true, σ2) =>
      match ac3S csp r [] enabled σ2 with
      | (false, ev1, σ3) => ([], ev1, σ3)
      | (true, ev1, σ3) =>
        match backtrackFuelS csp enabled (unassignedCount csp []) [] r σ3 with
        | (result, ev2, σ4) => (result.getD [], ev1 ++ ev2, σ4)

theorem readS_writeS_self {σ : Store} {r : Nat} {d : Domains} (h : r < σ.length) :
    readS (writeS σ r d) r = d := by
  rw [readS, writeS, List.get?_set_eq_of_lt d h]
  rfl

theorem readS_writeS_ne {σ : Store} {r r' : Nat} {d : Domains} (h : r' ≠ r) :
    readS (writeS σ r d) r' = readS σ r' := by
  rw [readS, writeS, readS, List.get?_set_ne d σ (Ne.symm h)]

theorem writeS_length (σ : Store) (r : Nat) (d : Domains) :
    (writeS σ r d).length = σ.length := by
  rw [writeS, List.length_set]

theorem readS_append {σ : Store} {r : Nat} {d : Domains} (h : r < σ.length) :
    readS (σ ++ [d]) r = readS σ r := by
  rw [readS, readS, List.get?_append h]

theorem readS_append_self (σ : Store) (d : Domains) :
    readS (σ ++ [d]) σ.length = d := by
  rw [readS]
  simp

theorem enforceUnaryLoopS_spec {csp : CSP} {a : Assignment} :
    ∀ (vars : List String) (r : Nat) (σ : Store) (b : Bool) (σ' : Store),
      r < σ.length →
      enforceUnaryLoopS csp a vars r σ = (b, σ') →
      σ'.length = σ.length ∧ (∀ r', r' ≠ r → readS σ' r' = readS σ r') ∧
      (match enforceUnaryLoop csp a vars (readS σ r) with
       | some d1 => b = true ∧ readS σ' r = d1
       | none => b = false) := by
  intro vars
  induction vars with
  | nil =>
    intro r σ b σ' _ h
    injection h with h1 h2
    subst h1
    subst h2
    exact ⟨rfl, fun _ _ => rfl, rfl, rfl⟩
  | cons u rest ih =>
    intro r σ b σ' hr h
    simp only [enforceUnaryLoopS] at h
    rw [enforceUnaryLoop_cons]
    by_cases hemp : (unaryConstraintsFor csp u).isEmpty = true
    · rw [if_pos hemp] at h
      rw [if_pos hemp]
      exact ih r σ b σ' hr h
    · rw [if_neg hemp] at h
      rw [if_neg hemp]
      by_cases hk : unaryKept csp a u (readS σ r) = []
      · rw [if_pos hk] at h
        rw [if_pos hk]
        injection h with h1 h2
        subst h1
        subst h2
        exact ⟨writeS_length σ r _, fun r' hne => readS_writeS_ne hne, rfl⟩
      · rw [if_neg hk] at h
        rw [if_neg hk]
        have hr1 : r < (writeS σ r
            (updateD (readS σ r) u (unaryKept csp a u (readS σ r)))).length := by
          rw [writeS_length]
          exact hr
        obtain ⟨hl, hf, hm⟩ := ih r _ b σ' hr1 h
        refine ⟨by rw [hl, writeS_length], ?_, ?_⟩
        · intro r' hne
          rw [hf r' hne, readS_writeS_ne hne]
        · rw [readS_writeS_self hr] at hm
          exact hm

theorem ac3LoopS_spec {csp : CSP} {a : Assignment} :
    ∀ (fuel : Nat) (queue : List (String × String)) (r : Nat) (ap va : Nat)
      (σ : Store) (b : Bool) (ap2 va2 : Nat) (σ' : Store),
      r < σ.length →
      ac3LoopS csp a fuel queue r ap va σ = (b, ap2, va2, σ') →
      σ'.length = σ.length ∧ (∀ r', r' ≠ r → readS σ' r' = readS σ r') ∧
      (match ac3Loop csp a fuel queue (readS σ r) ap va with
       | some t => b = true ∧ readS σ' r = t.1 ∧ ap2 = t.2.1 ∧ va2 = t.2.2
       | none => b = false) := by
  intro fuel
  induction fuel with
  | zero =>
    intro queue r ap va σ b ap2 va2 σ' _ h
    injection h with h1 h2
    injection h2 with h2 h3
    injection h3 with h3 h4
    subst h1
    subst h4
    exact ⟨rfl, fun _ _ => rfl, rfl⟩
  | succ fuel ih =>
    intro queue r ap va σ b ap2 va2 σ' hr h
    cases queue with
    | nil =>
      simp only [ac3LoopS] at h
      injection h with h1 h2
      injection h2 with h2 h3
      injection h3 with h3 h4
      subst h1
      subst h2
      subst h3
      subst h4
      exact ⟨rfl, fun _ _ => rfl, rfl, rfl, rfl, rfl⟩
    | cons arc rest =>
      obtain ⟨xi, xj⟩ := arc
      simp only [ac3LoopS] at h
      rw [ac3Loop_cons]
      by_cases hrev : (revise csp xi xj (readS σ r) a).1 = true
      · rw [if_pos hrev] at h ⊢
        by_cases hemp : lookupD (revise csp xi xj (readS σ r) a).2 xi = []
        · rw [if_pos hemp] at h ⊢
          injection h with h1 h2
          injection h2 with h2 h3
          injection h3 with h3 h4
          subst h1
          subst h4
          exact ⟨writeS_length σ r _, fun r' hne => readS_writeS_ne hne, rfl⟩
        · rw [if_neg hemp] at h ⊢
          have hr1 : r < (writeS σ r (revise csp xi xj (readS σ r) a).2).length := by
            rw [writeS_length]
            exact hr
          obtain ⟨hl, hf, hm⟩ := ih _ r _ _ _ b ap2 va2 σ' hr1 h
          rw [readS_writeS_self hr] at hm
          refine ⟨by rw [hl, writeS_length], ?_, hm⟩
          intro r' hne
          rw [hf r' hne, readS_writeS_ne hne]
      · rw [if_neg hrev] at h ⊢
        have hf0 : (revise csp xi xj (readS σ r) a).1 = false := by
          cases hb : (revise csp xi xj (readS σ r) a).1 with
          | false => rfl
          | true => exact absurd hb hrev
        have hr1 : r < (writeS σ r (revise csp xi xj (readS σ r) a).2).length := by
          rw [writeS_length]
          exact hr
        obtain ⟨hl, hf, hm⟩ := ih _ r _ _ _ b ap2 va2 σ' hr1 h
        rw [readS_writeS_self hr] at hm
        rw [revise_false_eq hf0] at hm
        refine ⟨by rw [hl, writeS_length], ?_, ?_⟩
        · intro r' hne
          rw [hf r' hne, readS_writeS_ne hne]
        · rw [revise_false_eq hf0]
          exact hm

theorem ac3S_spec {csp : CSP} {a : Assignment} {enabled : Bool} {r : Nat} {σ : Store}
    {b : Bool} {ev : List Event} {σ' : Store}
    (hr : r < σ.length)
    (h : ac3S csp r a enabled σ = (b, ev, σ')) :
    σ'.length = σ.length ∧ (∀ r', r' ≠ r → readS σ' r' = readS σ r') ∧
    (match ac3 csp (readS σ r) a enabled with
     | (some d2, evp) => b = true ∧ ev = evp ∧ readS σ' r = d2
     | (none, evp) => b = false ∧ ev = evp) := by
  rw [ac3S] at h
  rw [ac3]
  cases hu : enforce_unary_constraintsS csp r a σ with
  | mk b1 σ1 =>
    have hu' : enforceUnaryLoopS csp a csp.variable_names r σ = (b1, σ1) := hu
    obtain ⟨hl1, hf1, hm1⟩ := enforceUnaryLoopS_spec csp.variable_names r σ b1 σ1 hr hu'
    cases hpu : enforce_unary_constraints csp (readS σ r) a with
    | none =>
      have hpu' : enforceUnaryLoop csp a csp.variable_names (readS σ r) = none := hpu
      rw [hpu'] at hm1
      subst hm1
      rw [hu] at h
      injection h with h1 h2
      injection h2 with h2 h3
      subst h1
      subst h2
      subst h3
      exact ⟨hl1, hf1, rfl, rfl⟩
    | some d1 =>
      have hpu' : enforceUnaryLoop csp a csp.variable_names (readS σ r) = some d1 := hpu
      rw [hpu'] at hm1
      obtain ⟨hb1, hrd⟩ := hm1
      subst hb1
      rw [hu] at h
      have hr1 : r < σ1.length := by
        rw [hl1]
        exact hr
      cases hloop : ac3LoopS csp a
          (totalDomSize (readS σ1 r) * (arcBound csp + 1) +
            (csp.variable_names.flatMap
              (fun v => (csp.neighbors v).map (fun n => (v, n)))).length + 1)
          (csp.variable_names.flatMap (fun v => (csp.neighbors v).map (fun n => (v, n))))
          r 0 0 σ1 with
      | mk b2 t2 =>
        obtain ⟨ap2, va2, σ2⟩ := t2
        obtain ⟨hl2, hf2, hm2⟩ := ac3LoopS_spec _ _ r 0 0 σ1 b2 ap2 va2 σ2 hr1 hloop
        rw [hrd] at hm2
        simp only [hloop] at h
        cases hploop : ac3Loop csp a
            (totalDomSize d1 * (arcBound csp + 1) +
              (csp.variable_names.flatMap
                (fun v => (csp.neighbors v).map (fun n => (v, n)))).length + 1)
            (csp.variable_names.flatMap (fun v => (csp.neighbors v).map (fun n => (v, n))))
            d1 0 0 with
        | none =>
          rw [hploop] at hm2
          subst hm2
          simp only at h
          injection h with h1 h2
          injection h2 with h2 h3
          subst h1
          subst h2
          subst h3
          simp only [hploop]
          refine ⟨by rw [hl2, hl1], ?_, ?_⟩
          · intro r' hne
            rw [hf2 r' hne, hf1 r' hne]
          · simp
        | some t =>
          obtain ⟨d2, ap', va'⟩ := t
          rw [hploop] at hm2
          obtain ⟨hb2, hrd2, hap, hva⟩ := hm2
          subst hb2
          subst hap
          subst hva
          simp only at h
          injection h with h1 h2
          injection h2 with h2 h3
          subst h1
          subst h2
          subst h3
          simp only [hploop]
          refine ⟨by rw [hl2, hl1], ?_, ?_⟩
          · intro r' hne
            rw [hf2 r' hne, hf1 r' hne]
          · simp [hrd2]

theorem forwardCheckLoopS_spec {csp : CSP} {var : String} {a : Assignment} :
    ∀ (neighbors : List String) (r : Nat) (pruned : Nat) (σ : Store) (b : Bool)
      (pruned2 : Nat) (σ' : Store),
      r < σ.length →
      forwardCheckLoopS csp var a neighbors r pruned σ = (b, pruned2, σ') →
      σ'.length = σ.length ∧ (∀ r', r' ≠ r → readS σ' r' = readS σ r') ∧
      (match forwardCheckLoop csp var a neighbors (readS σ r) pruned with
       | some t => b = true ∧ readS σ' r = t.1 ∧ pruned2 = t.2
       | none => b = false) := by
  intro neighbors
  induction neighbors with
  | nil =>
    intro r pruned σ b pruned2 σ' _ h
    injection h with h1 h2
    injection h2 with h2 h3
    subst h1
    subst h2
    subst h3
    exact ⟨rfl, fun _ _ => rfl, rfl, rfl, rfl⟩
  | cons neighbor rest ih =>
    intro r pruned σ b pruned2 σ' hr h
    simp only [forwardCheckLoopS] at h
    rw [forwardCheckLoop_cons]
    by_cases hemp : (csp.constraints_between var neighbor).isEmpty = true
    · rw [if_pos hemp] at h ⊢
      exact ih r pruned σ b pruned2 σ' hr h
    · rw [if_neg hemp] at h ⊢
      by_cases hk : fcKept csp var a neighbor (readS σ r) = []
      · rw [if_pos hk] at h ⊢
        injection h with h1 h2
        injection h2 with h2 h3
        subst h1
        subst h3
        exact ⟨writeS_length σ r _, fun r' hne => readS_writeS_ne hne, rfl⟩
      · rw [if_neg hk] at h ⊢
        have hr1 : r < (writeS σ r (updateD (readS σ r) neighbor
            (fcKept csp var a neighbor (readS σ r)))).length := by
          rw [writeS_length]
          exact hr
        obtain ⟨hl, hf, hm⟩ := ih r _ _ b pruned2 σ' hr1 h
        rw [readS_writeS_self hr] at hm
        refine ⟨by rw [hl, writeS_length], ?_, hm⟩
        intro r' hne
        rw [hf r' hne, readS_writeS_ne hne]

theorem forward_checkS_spec {csp : CSP} {var : String} {a : Assignment}
    {enabled : Bool} {r : Nat} {σ : Store} {b : Bool} {ev : List Event} {σ' : Store}
    (hr : r < σ.length)
    (h : forward_checkS csp var a r enabled σ = (b, ev, σ')) :
    σ'.length = σ.length ∧ (∀ r', r' ≠ r → readS σ' r' = readS σ r') ∧
    (match forward_check csp var a (readS σ r) enabled with
     | (some d2, evp) => b = true ∧ ev = evp ∧ readS σ' r = d2
     | (none, evp) => b = false ∧ ev = evp) := by
  rw [forward_checkS] at h
  rw [forward_check]
  cases hu : enforce_unary_constraintsS csp r a σ with
  | mk b1 σ1 =>
    have hu' : enforceUnaryLoopS csp a csp.variable_names r σ = (b1, σ1) := hu
    obtain ⟨hl1, hf1, hm1⟩ := enforceUnaryLoopS_spec csp.variable_names r σ b1 σ1 hr hu'
    cases hpu : enforce_unary_constraints csp (readS σ r) a with
    | none =>
      have hpu' : enforceUnaryLoop csp a csp.variable_names (readS σ r) = none := hpu
      rw [hpu'] at hm1
      subst hm1
      rw [hu] at h
      injection h with h1 h2
      injection h2 with h2 h3
      subst h1
      subst h2
      subst h3
      exact ⟨hl1, hf1, rfl, rfl⟩
    | some d1 =>
      have hpu' : enforceUnaryLoop csp a csp.variable_names (readS σ r) = some d1 := hpu
      rw [hpu'] at hm1
      obtain ⟨hb1, hrd⟩ := hm1
      subst hb1
      rw [hu] at h
      have hr1 : r < σ1.length := by
        rw [hl1]
        exact hr
      cases hloop : forwardCheckLoopS csp var a (csp.neighbors var) r 0 σ1 with
      | mk b2 t2 =>
        obtain ⟨pr2, σ2⟩ := t2
        obtain ⟨hl2, hf2, hm2⟩ :=
          forwardCheckLoopS_spec (csp.neighbors var) r 0 σ1 b2 pr2 σ2 hr1 hloop
        rw [hrd] at hm2
        simp only [hloop] at h
        cases hploop : forwardCheckLoop csp var a (csp.neighbors var) d1 0 with
        | none =>
          rw [hploop] at hm2
          subst hm2
          simp only at h
          injection h with h1 h2
          injection h2 with h2 h3
          subst h1
          subst h2
          subst h3
          simp only [hploop]
          refine ⟨by rw [hl2, hl1], ?_, ?_⟩
          · intro r' hne
            rw [hf2 r' hne, hf1 r' hne]
          · simp
        | some t =>
          obtain ⟨d2, pr'⟩ := t
          rw [hploop] at hm2
          obtain ⟨hb2, hrd2, hpr⟩ := hm2
          subst hb2
          subst hpr
          simp only at h
          injection h with h1 h2
          injection h2 with h2 h3
          subst h1
          subst h2
          subst h3
          simp only [hploop]
          refine ⟨by rw [hl2, hl1], ?_, ?_⟩
          · intro r' hne
            rw [hf2 r' hne, hf1 r' hne]
          · simp [hrd2]

theorem tryValuesS_spec {csp : CSP} {enabled : Bool} {var : String}
    {assignment : Assignment} {fuel : Nat}
    (hrec : ∀ (a : Assignment) (rr : Nat) (σ : Store) (res : Option Assignment)
      (ev : List Event) (σ2 : Store), rr < σ.length →
      backtrackFuelS csp enabled fuel a rr σ = (res, ev, σ2) →
      σ.length ≤ σ2.length ∧ (∀ r' < σ.length, readS σ2 r' = readS σ r') ∧
      (res, ev) = backtrackFuel csp enabled fuel a (readS σ rr)) :
    ∀ (values : List String) (r : Nat) (events : List Event) (σ : Store)
      (res : Option Assignment) (ev : List Event) (σ' : Store),
      r < σ.length →
      tryValuesS csp enabled var assignment r
        (fun a rr σ2 => backtrackFuelS csp enabled fuel a rr σ2) values events σ
        = (res, ev, σ') →
      σ.length ≤ σ'.length ∧ (∀ r' < σ.length, readS σ' r' = readS σ r') ∧
      (res, ev) = tryValues csp enabled var assignment (readS σ r)
        (fun a d => backtrackFuel csp enabled fuel a d) values events := by
  intro values
  induction values with
  | nil =>
    intro r events σ res ev σ' hr h
    simp only [tryValuesS] at h
    injection h with h1 h2
    injection h2 with h2 h3
    subst h1
    subst h2
    subst h3
    exact ⟨Nat.le_refl _, fun _ _ => rfl, by rw [tryValues_nil]⟩
  | cons value rest ih =>
    intro r events σ res ev σ' hr h
    simp only [tryValuesS] at h
    rw [tryValues_cons]
    by_cases hvc : (! is_value_consistent csp var value assignment) = true
    · rw [if_pos hvc] at h ⊢
      exact ih r events σ res ev σ' hr h
    · rw [if_neg hvc] at h ⊢
      have halloc : copy_domainsS csp (some r) σ =
          (σ.length, σ ++ [(readS σ r).map (fun p => (p.1, p.2))]) := rfl
      simp only [halloc] at h
      have hreadA : readS (σ ++ [(readS σ r).map (fun p => (p.1, p.2))]) σ.length
          = (readS σ r).map (fun p => (p.1, p.2)) := readS_append_self σ _
      rw [hreadA] at h
      have hlen2 : (writeS (σ ++ [(readS σ r).map (fun p => (p.1, p.2))]) σ.length
          (updateD ((readS σ r).map (fun p => (p.1, p.2))) var [value])).length
          = σ.length + 1 := by
        rw [writeS_length, List.length_append]
        rfl
      have hr2 : σ.length < (writeS (σ ++ [(readS σ r).map (fun p => (p.1, p.2))]) σ.length
          (updateD ((readS σ r).map (fun p => (p.1, p.2))) var [value])).length := by
        rw [hlen2]
        omega
      have hframe2 : ∀ r' < σ.length,
          readS (writeS (σ ++ [(readS σ r).map (fun p => (p.1, p.2))]) σ.length
            (updateD ((readS σ r).map (fun p => (p.1, p.2))) var [value])) r'
            = readS σ r' := by
        intro r' hr'
        rw [readS_writeS_ne (by omega : r' ≠ σ.length), readS_append hr']
      have hltA : σ.length < (σ ++ [(readS σ r).map (fun p => (p.1, p.2))]).length := by
        rw [List.length_append]
        simp
      have hrd2 : readS (writeS (σ ++ [(readS σ r).map (fun p => (p.1, p.2))]) σ.length
          (updateD ((readS σ r).map (fun p => (p.1, p.2))) var [value])) σ.length
          = updateD (CSP.copy_domains csp (some (readS σ r))) var [value] := by
        rw [readS_writeS_self hltA]
        rfl
      cases hfc : forward_checkS csp var (dinsert var value assignment) σ.length enabled
          (writeS (σ ++ [(readS σ r).map (fun p => (p.1, p.2))]) σ.length
            (updateD ((readS σ r).map (fun p => (p.1, p.2))) var [value])) with
      | mk b2 t2 =>
        obtain ⟨ev2, σ3⟩ := t2
        simp only [hfc] at h
        obtain ⟨hl3, hf3, hm3⟩ := forward_checkS_spec hr2 hfc
        rw [hrd2] at hm3
        cases hpfc : forward_check csp var (dinsert var value assignment)
            (updateD (CSP.copy_domains csp (some (readS σ r))) var [value]) enabled with
        | mk o2 ev2p =>
          rw [hpfc] at hm3
          cases o2 with
          | none =>
            obtain ⟨hb2, hev2⟩ := hm3
            subst hb2
            subst hev2
            have hr3 : r < σ3.length := by
              rw [hl3, hlen2]
              omega
            obtain ⟨hl', hf', hres⟩ := ih r _ σ3 res ev σ' hr3 h
            have hread3 : readS σ3 r = readS σ r := by
              rw [hf3 r (by omega), hframe2 r hr]
            refine ⟨?_, ?_, ?_⟩
            · have : σ.length ≤ σ3.length := by
                rw [hl3, hlen2]
                omega
              omega
            · intro r' hr'
              rw [hf' r' (by rw [hl3, hlen2]; omega), hf3 r' (by omega), hframe2 r' hr']
            · simp only [hpfc]
              rw [hread3] at hres
              exact hres
          | some d2 =>
            obtain ⟨hb2, hev2, hrd3⟩ := hm3
            subst hb2
            subst hev2
            have hr3 : σ.length < σ3.length := by
              rw [hl3]
              exact hr2
            cases hac : ac3S csp σ.length (dinsert var value assignment) enabled σ3 with
            | mk b3 t3 =>
              obtain ⟨ev3, σ4⟩ := t3
              simp only [hac] at h
              obtain ⟨hl4, hf4, hm4⟩ := ac3S_spec hr3 hac
              rw [hrd3] at hm4
              cases hpac : ac3 csp d2 (dinsert var value assignment) enabled with
              | mk o3 ev3p =>
                rw [hpac] at hm4
                cases o3 with
                | none =>
                  obtain ⟨hb3, hev3⟩ := hm4
                  subst hb3
                  subst hev3
                  have hr4 : r < σ4.length := by
                    rw [hl4, hl3, hlen2]
                    omega
                  obtain ⟨hl', hf', hres⟩ := ih r _ σ4 res ev σ' hr4 h
                  have hread4 : readS σ4 r = readS σ r := by
                    rw [hf4 r (by omega), hf3 r (by omega), hframe2 r hr]
                  refine ⟨?_, ?_, ?_⟩
                  · have : σ.length ≤ σ4.length := by
                      rw [hl4, hl3, hlen2]
                      omega
                    omega
                  · intro r' hr'
                    rw [hf' r' (by rw [hl4, hl3, hlen2]; omega), hf4 r' (by omega),
                      hf3 r' (by omega), hframe2 r' hr']
                  · simp only [hpfc, hpac]
                    rw [hread4] at hres
                    exact hres
                | some d3 =>
                  obtain ⟨hb3, hev3, hrd4⟩ := hm4
                  subst hb3
                  subst hev3
                  have hr4 : σ.length < σ4.length := by
                    rw [hl4]
                    exact hr3
                  cases hbk : backtrackFuelS csp enabled fuel (dinsert var value assignment)
                      σ.length σ4 with
                  | mk o5 t5 =>
                    obtain ⟨ev4, σ5⟩ := t5
                    simp only [hbk] at h
                    obtain ⟨hl5, hf5, hres5⟩ := hrec _ _ _ _ _ _ hr4 hbk
                    rw [hrd4] at hres5
                    have h7 : σ4.length = σ.length + 1 := by
                      rw [hl4, hl3, hlen2]
                    cases o5 with
                    | some result =>
                      injection h with h1 h2
                      injection h2 with h2 h3
                      subst h1
                      subst h2
                      subst h3
                      refine ⟨by omega, ?_, ?_⟩
                      · intro r' hr'
                        rw [hf5 r' (by omega), hf4 r' (by omega),
                          hf3 r' (by omega), hframe2 r' hr']
                      · simp only [hpfc, hpac]
                        rw [← hres5]
                    | none =>
                      have hr5 : r < σ5.length := by
                        omega
                      obtain ⟨hl', hf', hres⟩ := ih r _ σ5 res ev σ' hr5 h
                      have hread5 : readS σ5 r = readS σ r := by
                        rw [hf5 r (by omega), hf4 r (by omega), hf3 r (by omega),
                          hframe2 r hr]
                      refine ⟨by omega, ?_, ?_⟩
                      · intro r' hr'
                        rw [hf' r' (by omega), hf5 r' (by omega), hf4 r' (by omega),
                          hf3 r' (by omega), hframe2 r' hr']
                      · simp only [hpfc, hpac]
                        rw [← hres5]
                        rw [hread5] at hres
                        exact hres

theorem backtrackFuelS_spec {csp : CSP} {enabled : Bool} :
    ∀ (fuel : Nat) (assignment : Assignment) (r : Nat) (σ : Store)
      (res : Option Assignment) (ev : List Event) (σ' : Store),
      r < σ.length →
      backtrackFuelS csp enabled fuel assignment r σ = (res, ev, σ') →
      σ.length ≤ σ'.length ∧ (∀ r' < σ.length, readS σ' r' = readS σ r') ∧
      (res, ev) = backtrackFuel csp enabled fuel assignment (readS σ r) := by
  intro fuel
  induction fuel with
  | zero =>
    intro assignment r σ res ev σ' hr h
    rw [backtrackFuelS] at h
    rw [backtrackFuel]
    by_cases hlen : assignment.length = csp.variable_names.length
    · rw [if_pos hlen] at h ⊢
      by_cases hcons : csp.is_consistent assignment = true
      · rw [if_pos hcons] at h ⊢
        injection h with h1 h2
        injection h2 with h2 h3
        subst h1
        subst h2
        subst h3
        exact ⟨Nat.le_refl _, fun _ _ => rfl, rfl⟩
      · rw [if_neg hcons] at h ⊢
        injection h with h1 h2
        injection h2 with h2 h3
        subst h1
        subst h2
        subst h3
        exact ⟨Nat.le_refl _, fun _ _ => rfl, rfl⟩
    · rw [if_neg hlen] at h ⊢
      cases hsel : select_unassigned_variable csp assignment (readS σ r) with
      | none =>
        simp only [hsel] at h ⊢
        injection h with h1 h2
        injection h2 with h2 h3
        subst h1
        subst h2
        subst h3
        exact ⟨Nat.le_refl _, fun _ _ => rfl, rfl⟩
      | some var =>
        simp only [hsel] at h ⊢
        injection h with h1 h2
        injection h2 with h2 h3
        subst h1
        subst h2
        subst h3
        exact ⟨Nat.le_refl _, fun _ _ => rfl, rfl⟩
  | succ fuel ih =>
    intro assignment r σ res ev σ' hr h
    rw [backtrackFuelS] at h
    rw [backtrackFuel]
    by_cases hlen : assignment.length = csp.variable_names.length
    · rw [if_pos hlen] at h ⊢
      by_cases hcons : csp.is_consistent assignment = true
      · rw [if_pos hcons] at h ⊢
        injection h with h1 h2
        injection h2 with h2 h3
        subst h1
        subst h2
        subst h3
        exact ⟨Nat.le_refl _, fun _ _ => rfl, rfl⟩
      · rw [if_neg hcons] at h ⊢
        injection h with h1 h2
        injection h2 with h2 h3
        subst h1
        subst h2
        subst h3
        exact ⟨Nat.le_refl _, fun _ _ => rfl, rfl⟩
    · rw [if_neg hlen] at h ⊢
      cases hsel : select_unassigned_variable csp assignment (readS σ r) with
      | none =>
        simp only [hsel] at h ⊢
        injection h with h1 h2
        injection h2 with h2 h3
        subst h1
        subst h2
        subst h3
        exact ⟨Nat.le_refl _, fun _ _ => rfl, rfl⟩
      | some var =>
        simp only [hsel] at h ⊢
        cases htv : tryValuesS csp enabled var assignment r
            (fun a rr σ2 => backtrackFuelS csp enabled fuel a rr σ2)
            (order_domain_values var (readS σ r)) [] σ with
        | mk o t =>
          obtain ⟨evts, σt⟩ := t
          simp only [htv] at h
          obtain ⟨hl, hf, hres⟩ := tryValuesS_spec
            (fun a rr σ0 res0 ev0 σ20 hrr hb => ih a rr σ0 res0 ev0 σ20 hrr hb)
            (order_domain_values var (readS σ r)) r [] σ o evts σt hr htv
          cases o with
          | some result =>
            injection h with h1 h2
            injection h2 with h2 h3
            subst h1
            subst h2
            subst h3
            refine ⟨hl, hf, ?_⟩
            rw [← hres]
          | none =>
            injection h with h1 h2
            injection h2 with h2 h3
            subst h1
            subst h2
            subst h3
            refine ⟨hl, hf, ?_⟩
            rw [← hres]

/-- C8.  `solve` never mutates the CSP's canonical domain map: on any
heap where cell `r0` holds `csp.domains`, the store-passing solver
leaves that cell untouched — search copies the map and writes only the
copies — and computes exactly what the pure `solve` computes. -/
theorem claim_C8_no_mutation {csp : CSP} {enabled : Bool} {r0 : Nat} {σ : Store}
    {a : Assignment} {ev : List Event} {σ' : Store}
    (hr0 : r0 < σ.length)
    (hcanon : readS σ r0 = csp.domains)
    (hrun : solveS csp enabled r0 σ = (a, ev, σ')) :
    readS σ' r0 = csp.domains ∧ (a, ev) = solveW csp enabled := by
  rw [solveS] at hrun
  rw [solveW]
  have halloc : copy_domainsS csp (some r0) σ =
      (σ.length, σ ++ [(readS σ r0).map (fun p => (p.1, p.2))]) := rfl
  simp only [halloc] at hrun
  have hlen1 : (σ ++ [(readS σ r0).map (fun p => (p.1, p.2))]).length = σ.length + 1 := by
    rw [List.length_append]
    rfl
  have hr1 : σ.length < (σ ++ [(readS σ r0).map (fun p => (p.1, p.2))]).length := by
    rw [hlen1]
    omega
  have hcopy : readS (σ ++ [(readS σ r0).map (fun p => (p.1, p.2))]) σ.length
      = csp.copy_domains none := by
    rw [readS_append_self, hcanon]
    rfl
  cases hu : enforce_unary_constraintsS csp σ.length []
      (σ ++ [(readS σ r0).map (fun p => (p.1, p.2))]) with
  | mk b1 σ2 =>
    simp only [hu] at hrun
    have hu' : enforceUnaryLoopS csp [] csp.variable_names σ.length
        (σ ++ [(readS σ r0).map (fun p => (p.1, p.2))]) = (b1, σ2) := hu
    obtain ⟨hl2, hf2, hm2⟩ := enforceUnaryLoopS_spec csp.variable_names σ.length _ b1 σ2
      hr1 hu'
    rw [hcopy] at hm2
    cases hpu : enforce_unary_constraints csp (csp.copy_domains none) [] with
    | none =>
      have hpu' : enforceUnaryLoop csp [] csp.variable_names (csp.copy_domains none)
          = none := hpu
      rw [hpu'] at hm2
      subst hm2
      injection hrun with h1 h2
      injection h2 with h2 h3
      subst h1
      subst h2
      subst h3
      refine ⟨?_, rfl⟩
      rw [hf2 r0 (by omega), readS_append hr0, hcanon]
    | some d1 =>
      have hpu' : enforceUnaryLoop csp [] csp.variable_names (csp.copy_domains none)
          = some d1 := hpu
      rw [hpu'] at hm2
      obtain ⟨hb1, hrd1⟩ := hm2
      subst hb1
      have hr2 : σ.length < σ2.length := by
        rw [hl2]
        exact hr1
      cases hac : ac3S csp σ.length [] enabled σ2 with
      | mk b2 t2 =>
        obtain ⟨ev1, σ3⟩ := t2
        simp only [hac] at hrun
        obtain ⟨hl3, hf3, hm3⟩ := ac3S_spec hr2 hac
        rw [hrd1] at hm3
        cases hpac : ac3 csp d1 [] enabled with
        | mk o2 ev1p =>
          rw [hpac] at hm3
          cases o2 with
          | none =>
            obtain ⟨hb2, hev1⟩ := hm3
            subst hb2
            subst hev1
            injection hrun with h1 h2
            injection h2 with h2 h3
            subst h1
            subst h2
            subst h3
            refine ⟨?_, ?_⟩
            · rw [hf3 r0 (by omega), hf2 r0 (by omega), readS_append hr0, hcanon]
            · simp only [hpac]
          | some d2 =>
            obtain ⟨hb2, hev1, hrd2⟩ := hm3
            subst hb2
            subst hev1
            have hr3 : σ.length < σ3.length := by
              rw [hl3]
              exact hr2
            cases hbk : backtrackFuelS csp enabled (unassignedCount csp []) []
                σ.length σ3 with
            | mk o3 t3 =>
              obtain ⟨ev2, σ4⟩ := t3
              simp only [hbk] at hrun
              obtain ⟨hl4, hf4, hres⟩ := backtrackFuelS_spec (unassignedCount csp [])
                [] σ.length σ3 o3 ev2 σ4 hr3 hbk
              rw [hrd2] at hres
              injection hrun with h1 h2
              injection h2 with h2 h3
              subst h1
              subst h2
              subst h3
              refine ⟨?_, ?_⟩
              · rw [hf4 r0 (by omega), hf3 r0 (by omega), hf2 r0 (by omega),
                  readS_append hr0, hcanon]
              · simp only [hpac, backtrack]
                rw [← hres]

/-- A small concrete CSP for exercising the frame theorem. -/
def cspC8 : CSP :=
  ⟨[⟨"A", ["1", "2"]⟩, ⟨"B", ["1", "2"]⟩], [Constraint.all_diff ["A", "B"]]⟩

/-- The store-passing solver run on `cspC8`, on a one-cell heap holding
the canonical domain map. -/
def solC8 : Assignment × List Event × Store :=
  solveS cspC8 true 0 [cspC8.domains]

/-- C8 witness: on a concrete heap whose cell 0 holds `cspC8.domains`,
the run leaves cell 0 equal to the canonical domains and returns the
pure solver's answer. -/
theorem claim_C8_no_mutation_witness :
    (0 < ([cspC8.domains] : Store).length ∧ readS [cspC8.domains] 0 = cspC8.domains) ∧
    readS solC8.2.2 0 = cspC8.domains ∧ (solC8.1, solC8.2.1) = solveW cspC8 true :=
  ⟨⟨by decide, rfl⟩,
   @claim_C8_no_mutation cspC8 true 0 [cspC8.domains] solC8.1 solC8.2.1 solC8.2.2
     (by decide) rfl
     (rfl : solveS cspC8 true 0 [cspC8.domains] = (solC8.1, solC8.2.1, solC8.2.2))⟩
